import Mathlib

/-!
# MAR signature verification (`modules/libmar/verify/mar_verify.c`)

A shallow embedding of the signature-block extraction and of the two-pass
hash/verify protocol of `mar_verify.c`, followed by theorems about it.

* The archive is an immutable byte buffer; cursors are natural numbers.
* The crypto provider (`cryptox.h`) is external.  It is represented by an
  oracle that, given the calls made so far and the next call, says whether
  that call succeeds.  Every function threads the list of provider calls made
  so far (the trace), so that what is fed to a verification context, and in
  which order, is an observable of the model.
* Every failing branch of the C code prints one diagnostic; the model returns
  that diagnostic, so that the different exits stay distinguishable.
* The heap is not represented: `malloc` is taken to succeed, and the
  `MAX_SIGNATURES`-sized stack arrays are lists.  Which signature buffers are
  allocated and not freed is followed separately (`liveSignatureBuffers`).
* `mar_read_entire_file` is modelled over a file system that maps a path to the
  bytes of the file (`FileModel`).
-/

namespace MarVerify

/-! ## Data model -/

/-- One octet of the archive. -/
abbrev Byte := Fin 256

/-- The constants of `mar_private.h` used by `mar_verify.c`.  The header is not
part of the verified source, so the constants are parameters; `BLOCKSIZE` is
the size of a stack buffer and therefore positive. -/
structure MarConfig where
  SIGNATURE_BLOCK_OFFSET : Nat
  MAX_SIGNATURES : Nat
  MAX_SIGNATURE_LENGTH : Nat
  BLOCKSIZE : Nat
  BLOCKSIZE_pos : 0 < BLOCKSIZE

/-- The values the constants have in the Mozilla tree: the signature block
starts after `MAR1`, the index offset and the 8-byte archive size. -/
def mozillaConfig : MarConfig := ⟨16, 8, 2048, 4096, by decide⟩

/-- An opened MAR: the archive bytes held in memory (`mar->buffer`). -/
structure MarFile where
  buffer : List Byte

/-- The field `mar->data_len`: the number of bytes of the buffer. -/
def MarFile.data_len (mar : MarFile) : Nat := mar.buffer.length

/-- The bytes `data[p, p + n)` of a buffer (fewer when the buffer ends first). -/
def slice (data : List Byte) (p n : Nat) : List Byte := (data.drop p).take n

/-- The value left in a `uint32_t` by storing four archive bytes into it and
applying `ntohl`: the big-endian number the bytes spell. -/
def ntohl (bytes : List Byte) : Nat := bytes.foldl (fun acc b => acc * 256 + b.val) 0

/-- Modelled from the spec: `mar_read_buffer` of `mar_read.c`, the read-exact(n)
operation of the byte source, which reports a short read as failure.  On
success it yields the `size` bytes at the cursor and the advanced cursor. -/
def mar_read_buffer (mar : MarFile) (position size : Nat) : Option (List Byte × Nat) :=
  if position + size ≤ mar.data_len then
    some (slice mar.buffer position size, position + size)
  else none

/-- Modelled from the spec: `mar_buffer_seek` of `mar_read.c`, the seek operation
of the byte source: it advances the cursor by `distance` and fails when the
archive is shorter than the target. -/
def mar_buffer_seek (mar : MarFile) (position distance : Nat) : Option Nat :=
  if position + distance ≤ mar.data_len then some (position + distance) else none

/-- Modelled from the spec: `mar_read_buffer_max` of `mar_read.c`, the
read-up-to(n) operation of the byte source: it reads as many bytes as remain,
at most `size`, and returns them (their number is the C return value) with the
advanced cursor. -/
def mar_read_buffer_max (mar : MarFile) (position size : Nat) : List Byte × Nat :=
  let numRead := min size (mar.data_len - position)
  (slice mar.buffer position numRead, position + numRead)

/-! ## The crypto provider -/

/-- A call made to the crypto provider.  Handles are named by their index in
the arrays `keys` and `signatureHandles`. -/
inductive CryptoCall where
  | InitCryptoProvider
  | LoadPublicKey (k : Nat) (certData : List Byte) (certDataSize : Nat)
  | FreePublicKey (k : Nat)
  | VerifyBegin (ctx key : Nat)
  | VerifyUpdate (ctx : Nat) (buf : List Byte)
  | VerifySignature (ctx key : Nat) (signature : List Byte) (signatureLen : Nat)
  | FreeSignatureHandle (ctx : Nat)
  deriving DecidableEq, Repr

/-- The provider calls made so far, oldest first. -/
abbrev Trace := List CryptoCall

/-- A crypto provider: given the calls made so far and the next call, whether
that call succeeds (`true`) or `CryptoX_Failed` holds of its result. -/
abbrev CryptoX := Trace → CryptoCall → Bool

/-- Modelled from the spec: the success code of `cryptox.h`; the source documents
`0` as the success return value. -/
def CryptoX_Success : Int := 0

/-- Modelled from the spec: the error code of `cryptox.h`, distinct from success. -/
def CryptoX_Error : Int := -1

/-- What `ReadAndUpdateVerifyContext` was asked to read (its `err` argument). -/
inductive ReadTarget where
  | signatureBlock
  | signatureAlgorithmID
  | signatureLength
  deriving DecidableEq, Repr

/-- The diagnostics printed on `stderr`, one per failing branch. -/
inductive Diag where
  | invalidParameter
  | couldNotRead (what : ReadTarget)
  | couldNotUpdateVerifyContext (what : ReadTarget)
  | couldNotInitCryptoLibrary
  | couldNotLoadPublicKey
  | invalidFilePointer
  | couldNotSeekToSignatureBlock
  | couldNotReadNumberOfSignatures
  | atMostMaxSignatures
  | couldNotReadAlgorithmID
  | couldNotReadSignatureLength
  | signatureLengthTooLarge
  | couldNotReadExtractedSignature
  | unknownSignatureAlgorithmID
  | notAllSignaturesVerified
  | onlySomeSignaturesVerified (numVerified signatureCount : Nat)
  | atLeastOneSignature
  | couldNotInitSignatureHandle
  | embeddedSignatureLengthTooLarge
  | couldNotSeekPastSignature
  | errorUpdatingWithDataBlock
  | errorVerifyingSignature
  deriving DecidableEq, Repr

/-! ## `ReadAndUpdateVerifyContext` -/

/-- The loop `for (k = 0; k < count; k++) CryptoX_VerifyUpdate(&ctxs[k], buffer, size)`
entered with `n` iterations left at index `k`; it stops at the first failure. -/
def verifyUpdateLoop (px : CryptoX) (buffer : List Byte) : Nat → Nat → Trace → Bool × Trace
  | 0, _, tr => (true, tr)
  | n + 1, k, tr =>
    if px tr (.VerifyUpdate k buffer) then
      verifyUpdateLoop px buffer n (k + 1) (tr ++ [.VerifyUpdate k buffer])
    else (false, tr ++ [.VerifyUpdate k buffer])

/-- `ReadAndUpdateVerifyContext`: read `size` bytes at the cursor and feed them
to the `count` verification contexts.  It returns the advanced cursor and the
bytes stored in the caller's buffer (none when `size` is zero). -/
def ReadAndUpdateVerifyContext (px : CryptoX) (mar : MarFile) (mar_position size count : Nat)
    (err : ReadTarget) (tr : Trace) : Except Diag (Nat × List Byte) × Trace :=
  if count = 0 then (.error .invalidParameter, tr)
  else if size = 0 then (.ok (mar_position, []), tr)
  else
    match mar_read_buffer mar mar_position size with
    | none => (.error (.couldNotRead err), tr)
    | some (buffer, pos) =>
      match verifyUpdateLoop px buffer count 0 tr with
      | (false, tr1) => (.error (.couldNotUpdateVerifyContext err), tr1)
      | (true, tr1) => (.ok (pos, buffer), tr1)

/-! ## `mar_verify_extracted_signatures` -/

/-- The loop that opens one verification context per signature, bound to the
key of the same index; `n` iterations left at index `i`. -/
def verifyBeginLoop (px : CryptoX) : Nat → Nat → Trace → Bool × Trace
  | 0, _, tr => (true, tr)
  | n + 1, i, tr =>
    if px tr (.VerifyBegin i i) then verifyBeginLoop px n (i + 1) (tr ++ [.VerifyBegin i i])
    else (false, tr ++ [.VerifyBegin i i])

/-- The loop over the signature block: for each entry the algorithm id and the
length are read and fed to every context, the length is bounded, and the
signature itself is skipped.  `n` iterations are left; `signatureLengths`
holds the lengths stored so far. -/
def signatureBlockLoop (cfg : MarConfig) (px : CryptoX) (mar : MarFile) (signatureCount : Nat) :
    Nat → Nat → List Nat → Trace → Except Diag (Nat × List Nat) × Trace
  | 0, mar_position, signatureLengths, tr => (.ok (mar_position, signatureLengths), tr)
  | n + 1, mar_position, signatureLengths, tr =>
    match ReadAndUpdateVerifyContext px mar mar_position 4 signatureCount
        .signatureAlgorithmID tr with
    | (.error e, tr1) => (.error e, tr1)
    | (.ok (pos1, _), tr1) =>
      match ReadAndUpdateVerifyContext px mar pos1 4 signatureCount .signatureLength tr1 with
      | (.error e, tr2) => (.error e, tr2)
      | (.ok (pos2, lengthBytes), tr2) =>
        if ntohl lengthBytes > cfg.MAX_SIGNATURE_LENGTH then
          (.error .embeddedSignatureLengthTooLarge, tr2)
        else
          match mar_buffer_seek mar pos2 (ntohl lengthBytes) with
          | none => (.error .couldNotSeekPastSignature, tr2)
          | some pos3 =>
            signatureBlockLoop cfg px mar signatureCount n pos3
              (signatureLengths ++ [ntohl lengthBytes]) tr2

/-- The loop `while (mar_position < mar->data_len)`, run for at most `fuel`
iterations: a chunk of at most `BLOCKSIZE` bytes is read and fed to every
context. -/
def restLoop (cfg : MarConfig) (px : CryptoX) (mar : MarFile) (signatureCount : Nat) :
    Nat → Nat → Trace → Except Diag Nat × Trace
  | 0, mar_position, tr => (.ok mar_position, tr)
  | fuel + 1, mar_position, tr =>
    if mar_position < mar.data_len then
      match verifyUpdateLoop px (mar_read_buffer_max mar mar_position cfg.BLOCKSIZE).1
          signatureCount 0 tr with
      | (false, tr1) => (.error .errorUpdatingWithDataBlock, tr1)
      | (true, tr1) =>
        restLoop cfg px mar signatureCount fuel
          (mar_read_buffer_max mar mar_position cfg.BLOCKSIZE).2 tr1
    else (.ok mar_position, tr)

/-- The remainder of the file after the signature block.  Every iteration
consumes at least one byte, so `data_len - mar_position` iterations are
enough for the loop to leave through its condition. -/
def streamRest (cfg : MarConfig) (px : CryptoX) (mar : MarFile) (signatureCount : Nat)
    (mar_position : Nat) (tr : Trace) : Except Diag Nat × Trace :=
  restLoop cfg px mar signatureCount (mar.data_len - mar_position) mar_position tr

/-- The streaming pass of `mar_verify_extracted_signatures`: the header up to
and including the signature count, the signature block, the rest of the file.
It yields the final cursor and the lengths found in the block. -/
def streamPass (cfg : MarConfig) (px : CryptoX) (mar : MarFile) (signatureCount : Nat)
    (tr : Trace) : Except Diag (Nat × List Nat) × Trace :=
  match ReadAndUpdateVerifyContext px mar 0 (cfg.SIGNATURE_BLOCK_OFFSET + 4) signatureCount
      .signatureBlock tr with
  | (.error e, tr1) => (.error e, tr1)
  | (.ok (pos1, _), tr1) =>
    match signatureBlockLoop cfg px mar signatureCount signatureCount pos1 [] tr1 with
    | (.error e, tr2) => (.error e, tr2)
    | (.ok (pos2, signatureLengths), tr2) =>
      match streamRest cfg px mar signatureCount pos2 tr2 with
      | (.error e, tr3) => (.error e, tr3)
      | (.ok pos3, tr3) => (.ok (pos3, signatureLengths), tr3)

/-- The final loop: context `i` is checked against key `i` and extracted
signature `i`; the first failure leaves the loop.  `n` iterations left at
index `i`, `numVerified` signatures verified so far. -/
def verifySignatureLoop (px : CryptoX) (extractedSignatures : List (List Byte))
    (signatureLengths : List Nat) : Nat → Nat → Nat → Trace → Bool × Nat × Trace
  | 0, _, numVerified, tr => (true, numVerified, tr)
  | n + 1, i, numVerified, tr =>
    if px tr (.VerifySignature i i (extractedSignatures.getD i []) (signatureLengths.getD i 0)) then
      verifySignatureLoop px extractedSignatures signatureLengths n (i + 1) (numVerified + 1)
        (tr ++ [.VerifySignature i i (extractedSignatures.getD i []) (signatureLengths.getD i 0)])
    else
      (false, numVerified,
        tr ++ [.VerifySignature i i (extractedSignatures.getD i []) (signatureLengths.getD i 0)])

/-- The cleanup loop at the label `failure`: every signature handle is freed. -/
def freeSignatureHandles (signatureCount : Nat) : Trace :=
  (List.range signatureCount).map .FreeSignatureHandle

/-- The body of `mar_verify_extracted_signatures` up to the label `failure`:
the diagnostic of the branch that jumped there (none on success) and the value
of `*numVerified`. -/
def verifyExtractedBody (cfg : MarConfig) (px : CryptoX) (mar : MarFile)
    (extractedSignatures : List (List Byte)) (signatureCount : Nat) (tr : Trace) :
    Option Diag × Nat × Trace :=
  if signatureCount = 0 then (some .atLeastOneSignature, 0, tr)
  else
    match verifyBeginLoop px signatureCount 0 tr with
    | (false, tr1) => (some .couldNotInitSignatureHandle, 0, tr1)
    | (true, tr1) =>
      match streamPass cfg px mar signatureCount tr1 with
      | (.error e, tr2) => (some e, 0, tr2)
      | (.ok (_, signatureLengths), tr2) =>
        match verifySignatureLoop px extractedSignatures signatureLengths signatureCount 0 0 tr2 with
        | (false, numVerified, tr3) => (some .errorVerifyingSignature, numVerified, tr3)
        | (true, numVerified, tr3) => (none, numVerified, tr3)

/-- The result of `mar_verify_extracted_signatures`. -/
structure VerifyOutcome where
  rv : Int
  numVerified : Nat
  diag : Option Diag
  trace : Trace
  deriving DecidableEq, Repr

/-- `mar_verify_extracted_signatures`, called with non-null `extractedSignatures`
and `numVerified`. -/
def mar_verify_extracted_signatures (cfg : MarConfig) (px : CryptoX) (mar : MarFile)
    (extractedSignatures : List (List Byte)) (signatureCount : Nat) (tr : Trace) :
    VerifyOutcome :=
  match verifyExtractedBody cfg px mar extractedSignatures signatureCount tr with
  | (none, numVerified, tr1) =>
    ⟨CryptoX_Success, numVerified, none, tr1 ++ freeSignatureHandles signatureCount⟩
  | (some e, numVerified, tr1) =>
    ⟨CryptoX_Error, numVerified, some e, tr1 ++ freeSignatureHandles signatureCount⟩

/-! ## `mar_extract_and_verify_signatures` -/

/-- What the extraction pass leaves behind: the count, the algorithm ids, the
extracted signatures and the cursor after the block. -/
structure Extracted where
  signatureCount : Nat
  signatureAlgorithmIDs : List Nat
  extractedSignatures : List (List Byte)
  mar_position : Nat
  deriving DecidableEq, Repr

/-- The loop that extracts the signatures: algorithm id, length (bounded by
`MAX_SIGNATURE_LENGTH`), the signature bytes, and only then the check of the
algorithm id.  `n` iterations are left. -/
def extractLoop (cfg : MarConfig) (mar : MarFile) :
    Nat → Nat → List Nat → List (List Byte) → Except Diag (List Nat × List (List Byte) × Nat)
  | 0, mar_position, ids, sigs => .ok (ids, sigs, mar_position)
  | n + 1, mar_position, ids, sigs =>
    match mar_read_buffer mar mar_position 4 with
    | none => .error .couldNotReadAlgorithmID
    | some (idBytes, pos1) =>
      match mar_read_buffer mar pos1 4 with
      | none => .error .couldNotReadSignatureLength
      | some (lengthBytes, pos2) =>
        if ntohl lengthBytes > cfg.MAX_SIGNATURE_LENGTH then .error .signatureLengthTooLarge
        else
          match mar_read_buffer mar pos2 (ntohl lengthBytes) with
          | none => .error .couldNotReadExtractedSignature
          | some (signature, pos3) =>
            if ntohl idBytes ≠ 2 then .error .unknownSignatureAlgorithmID
            else extractLoop cfg mar n pos3 (ids ++ [ntohl idBytes]) (sigs ++ [signature])

/-- The extraction pass of `mar_extract_and_verify_signatures`: everything from
the seek to the signature block up to the call of
`mar_verify_extracted_signatures`. -/
def mar_extract_signatures (cfg : MarConfig) (mar : MarFile) : Except Diag Extracted :=
  match mar_buffer_seek mar 0 cfg.SIGNATURE_BLOCK_OFFSET with
  | none => .error .couldNotSeekToSignatureBlock
  | some pos0 =>
    match mar_read_buffer mar pos0 4 with
    | none => .error .couldNotReadNumberOfSignatures
    | some (countBytes, pos1) =>
      if ntohl countBytes > cfg.MAX_SIGNATURES then .error .atMostMaxSignatures
      else
        match extractLoop cfg mar (ntohl countBytes) pos1 [] [] with
        | .error e => .error e
        | .ok (ids, sigs, pos2) => .ok ⟨ntohl countBytes, ids, sigs, pos2⟩

/-- The result of `mar_extract_and_verify_signatures` and of
`mar_verify_signatures`: the returned integer, the diagnostic printed, the
provider calls made. -/
structure Outcome where
  rv : Int
  diag : Option Diag
  trace : Trace
  deriving DecidableEq, Repr

/-- `mar_extract_and_verify_signatures`.  The keys are named by index, so only
`keyCount` is a parameter. -/
def mar_extract_and_verify_signatures (cfg : MarConfig) (px : CryptoX) (mar : Option MarFile)
    (keyCount : Nat) (tr : Trace) : Outcome :=
  match mar with
  | none => ⟨CryptoX_Error, some .invalidFilePointer, tr⟩
  | some m =>
    match mar_extract_signatures cfg m with
    | .error e => ⟨CryptoX_Error, some e, tr⟩
    | .ok ex =>
      let v := mar_verify_extracted_signatures cfg px m ex.extractedSignatures ex.signatureCount tr
      if v.rv = CryptoX_Error then ⟨CryptoX_Error, v.diag, v.trace⟩
      else if v.numVerified = ex.signatureCount ∧ keyCount = v.numVerified then
        ⟨CryptoX_Success, none, v.trace⟩
      else if v.numVerified = 0 then ⟨CryptoX_Error, some .notAllSignaturesVerified, v.trace⟩
      else
        ⟨CryptoX_Error, some (.onlySomeSignaturesVerified v.numVerified ex.signatureCount), v.trace⟩

/-! ## `mar_verify_signatures` -/

/-- The loop that loads one public key per certificate into `keys[k]`; a slot
is non-null (`true`) once its key is loaded.  `n` iterations left at index `k`.
The array has `MAX_SIGNATURES` slots: a store at an index beyond them is not
represented and leaves the list as it is. -/
def loadKeysLoop (px : CryptoX) (certData : List (List Byte)) (certDataSizes : List Nat) :
    Nat → Nat → List Bool → Trace → Bool × List Bool × Trace
  | 0, _, keys, tr => (true, keys, tr)
  | n + 1, k, keys, tr =>
    if px tr (.LoadPublicKey k (certData.getD k []) (certDataSizes.getD k 0)) then
      loadKeysLoop px certData certDataSizes n (k + 1) (keys.set k true)
        (tr ++ [.LoadPublicKey k (certData.getD k []) (certDataSizes.getD k 0)])
    else
      (false, keys, tr ++ [.LoadPublicKey k (certData.getD k []) (certDataSizes.getD k 0)])

/-- The cleanup loop at the label `failure`: every non-null key is freed. -/
def freeKeys (keys : List Bool) (certCount : Nat) : Trace :=
  ((List.range certCount).filter (fun k => keys.getD k false)).map .FreePublicKey

/-- `mar_verify_signatures`.  A null pointer argument is `none`. -/
def mar_verify_signatures (cfg : MarConfig) (px : CryptoX) (mar : Option MarFile)
    (certData : Option (List (List Byte))) (certDataSizes : Option (List Nat))
    (certCount : Nat) (tr : Trace) : Outcome :=
  match mar, certData, certDataSizes with
  | some m, some cd, some cs =>
    if certCount = 0 then ⟨-1, some .invalidParameter, tr⟩
    else if px tr .InitCryptoProvider then
      match loadKeysLoop px cd cs certCount 0 (List.replicate cfg.MAX_SIGNATURES false)
          (tr ++ [.InitCryptoProvider]) with
      | (false, keys, tr1) =>
        ⟨-1, some .couldNotLoadPublicKey, tr1 ++ freeKeys keys certCount⟩
      | (true, keys, tr1) =>
        let r := mar_extract_and_verify_signatures cfg px (some m) certCount tr1
        ⟨r.rv, r.diag, r.trace ++ freeKeys keys certCount⟩
    else
      ⟨-1, some .couldNotInitCryptoLibrary,
        tr ++ [.InitCryptoProvider] ++ freeKeys (List.replicate cfg.MAX_SIGNATURES false) certCount⟩
  | _, _, _ =>
    ⟨-1, some .invalidParameter, tr ++ freeKeys (List.replicate cfg.MAX_SIGNATURES false) certCount⟩

/-! ## The layout of the signature block

The terms in which the properties are stated: where entry `i` starts when the
lengths declared by the entries before it are followed, what it declares, and
which bytes are its signature. -/

/-- The big-endian number spelled by the four bytes at offset `p`. -/
def be32At (data : List Byte) (p : Nat) : Nat := ntohl (slice data p 4)

/-- The signature count stored at `SIGNATURE_BLOCK_OFFSET`. -/
def countField (cfg : MarConfig) (data : List Byte) : Nat :=
  be32At data cfg.SIGNATURE_BLOCK_OFFSET

/-- The offset `p_i` of entry `i`: `p_0 = SIGNATURE_BLOCK_OFFSET + 4` and
`p_(i+1) = p_i + 8 + L_i`. -/
def entryPos (cfg : MarConfig) (data : List Byte) : Nat → Nat
  | 0 => cfg.SIGNATURE_BLOCK_OFFSET + 4
  | i + 1 => entryPos cfg data i + 8 + be32At data (entryPos cfg data i + 4)

/-- The algorithm id declared by entry `i`. -/
def entryAlg (cfg : MarConfig) (data : List Byte) (i : Nat) : Nat :=
  be32At data (entryPos cfg data i)

/-- The length `L_i` declared by entry `i`. -/
def entryLen (cfg : MarConfig) (data : List Byte) (i : Nat) : Nat :=
  be32At data (entryPos cfg data i + 4)

/-- The raw signature of entry `i`: `data[p_i + 8, p_i + 8 + L_i)`. -/
def entrySig (cfg : MarConfig) (data : List Byte) (i : Nat) : List Byte :=
  slice data (entryPos cfg data i + 8) (entryLen cfg data i)

/-- Entry `i` is acceptable: algorithm id 2, a length within
`MAX_SIGNATURE_LENGTH`, and a signature that lies inside the buffer. -/
def entryOK (cfg : MarConfig) (data : List Byte) (i : Nat) : Bool :=
  decide (entryAlg cfg data i = 2) && decide (entryLen cfg data i ≤ cfg.MAX_SIGNATURE_LENGTH)
    && decide (entryPos cfg data i + 8 + entryLen cfg data i ≤ data.length)

/-- The signature block parses: the count is readable and at most
`MAX_SIGNATURES`, and every declared entry is acceptable. -/
def blockParses (cfg : MarConfig) (data : List Byte) : Bool :=
  decide (cfg.SIGNATURE_BLOCK_OFFSET + 4 ≤ data.length)
    && decide (countField cfg data ≤ cfg.MAX_SIGNATURES)
    && (List.range (countField cfg data)).all (entryOK cfg data)

/-- Offset `j` lies in the raw signature of one of the first `n` entries. -/
def inSignature (cfg : MarConfig) (data : List Byte) (n j : Nat) : Prop :=
  ∃ i, i < n ∧ entryPos cfg data i + 8 ≤ j ∧ j < entryPos cfg data i + 8 + entryLen cfg data i

instance (cfg : MarConfig) (data : List Byte) (n j : Nat) :
    Decidable (inSignature cfg data n j) := by
  unfold inSignature
  infer_instance

/-- Offset `j` lies in a hashed region when the block has `n` entries: the
header up to and including the count, the algorithm id and length of an
entry, or the bytes after the block. -/
def inHashedRegion (cfg : MarConfig) (data : List Byte) (n j : Nat) : Prop :=
  j < cfg.SIGNATURE_BLOCK_OFFSET + 4
    ∨ (∃ i, i < n ∧ entryPos cfg data i ≤ j ∧ j < entryPos cfg data i + 8)
    ∨ (entryPos cfg data n ≤ j ∧ j < data.length)

/-- The byte stream that is to be hashed when the block has `n` entries: the
header with the count, the eight bytes of algorithm id and length of every
entry in order, and everything after the block. -/
def hashedStream (cfg : MarConfig) (data : List Byte) (n : Nat) : List Byte :=
  slice data 0 (cfg.SIGNATURE_BLOCK_OFFSET + 4)
    ++ ((List.range n).map (fun i => slice data (entryPos cfg data i) 8)).flatten
    ++ data.drop (entryPos cfg data n)

/-- The record the extraction pass returns on a block that parses. -/
def extractedOf (cfg : MarConfig) (data : List Byte) : Extracted :=
  ⟨countField cfg data, (List.range (countField cfg data)).map (entryAlg cfg data),
    (List.range (countField cfg data)).map (entrySig cfg data),
    entryPos cfg data (countField cfg data)⟩

/-! ## Observations on a trace -/

/-- The `CryptoX_VerifyUpdate` calls of a trace, in order: context and bytes. -/
def updatesOf (tr : Trace) : List (Nat × List Byte) :=
  tr.filterMap (fun c => match c with
    | .VerifyUpdate k buf => some (k, buf)
    | _ => none)

/-- The concatenation of all bytes passed to `CryptoX_VerifyUpdate` for
context `k`. -/
def fedTo (k : Nat) (tr : Trace) : List Byte :=
  (((updatesOf tr).filter (fun u => u.1 = k)).map (fun u => u.2)).flatten

/-- The `CryptoX_VerifySignature` calls of a trace, in order. -/
def signatureCalls (tr : Trace) : Trace :=
  tr.filter (fun c => match c with
    | .VerifySignature _ _ _ _ => true
    | _ => false)

/-- The calls of a trace that do cryptographic work on the archive: everything
except provider start-up, key loading and the release of handles. -/
def verifyCalls (tr : Trace) : Trace :=
  tr.filter (fun c => match c with
    | .VerifyBegin _ _ => true
    | .VerifyUpdate _ _ => true
    | .VerifySignature _ _ _ _ => true
    | _ => false)

/-- The bytes passed to `CryptoX_VerifyUpdate` for context `k` by the calls that
were made after the trace `tr0`. -/
def fedSince (tr0 : Trace) (k : Nat) (tr : Trace) : List Byte :=
  (fedTo k tr).drop (fedTo k tr0).length

/-! ## Example inputs -/

/-- A provider that accepts every call. -/
def acceptAll : CryptoX := fun _ _ => true

/-- A provider that rejects every call. -/
def rejectAll : CryptoX := fun _ _ => false

/-- A provider that accepts everything except a signature check on a context
that was fed anything other than the stream `signed`. -/
def signedStreamOracle (signed : List Byte) : CryptoX := fun t c =>
  match c with
  | .VerifySignature ctx _ _ _ => decide (fedTo ctx t = signed)
  | _ => true

/-- Small constants for worked examples: a 2-byte header before the count, at
most 2 signatures of at most 4 bytes, chunks of 3 bytes.  The header with the
count (6 bytes) is longer than a chunk here, which the array `buf[BLOCKSIZE]`
of the C code does not allow: with these constants the examples exercise the
definitions above, not a build of the C code. -/
def tinyConfig : MarConfig := ⟨2, 2, 4, 3, by decide⟩

/-- A well-formed archive for `tinyConfig` with one signature: header `1 2`,
count 1, one entry (algorithm 2, length 2, signature `9 8`), payload `7 6 5 4`. -/
def tinyArchive : MarFile :=
  ⟨[1, 2, 0, 0, 0, 1, 0, 0, 0, 2, 0, 0, 0, 2, 9, 8, 7, 6, 5, 4]⟩

/-- A well-formed archive for `tinyConfig` with two signatures, of lengths 1
and 2, and payload `6 5 4 3`. -/
def tinyArchive2 : MarFile :=
  ⟨[1, 2, 0, 0, 0, 2, 0, 0, 0, 2, 0, 0, 0, 1, 9, 0, 0, 0, 2, 0, 0, 0, 2, 8, 7, 6, 5, 4, 3]⟩

/-- An archive for `tinyConfig` whose count field is 3, above `MAX_SIGNATURES`. -/
def tinyTooMany : MarFile := ⟨[1, 2, 0, 0, 0, 3, 0, 0, 0, 2, 0, 0, 0, 0]⟩

/-- An archive for `tinyConfig` whose only entry declares length 5, above
`MAX_SIGNATURE_LENGTH`. -/
def tinyTooLong : MarFile :=
  ⟨[1, 2, 0, 0, 0, 1, 0, 0, 0, 2, 0, 0, 0, 5, 9, 8, 7, 6, 5, 4]⟩

/-- An archive for `tinyConfig` whose only entry declares algorithm id 1. -/
def tinyUnknownAlgorithm : MarFile :=
  ⟨[1, 2, 0, 0, 0, 1, 0, 0, 0, 1, 0, 0, 0, 2, 9, 8, 7, 6, 5, 4]⟩

/-- An archive with the Mozilla constants: a 16-byte header and the count 9,
above `MAX_SIGNATURES = 8`. -/
def nineSignatures : MarFile := ⟨List.replicate 16 0 ++ [0, 0, 0, 9]⟩

/-- The archive `tinyArchive` with its signature bytes `9 8` replaced by `1 1`. -/
def tinyArchiveResigned : MarFile :=
  ⟨[1, 2, 0, 0, 0, 1, 0, 0, 0, 2, 0, 0, 0, 2, 1, 1, 7, 6, 5, 4]⟩

/-- The archive `tinyArchive` with the first payload byte `7` replaced by `0`. -/
def tinyArchiveTampered : MarFile :=
  ⟨[1, 2, 0, 0, 0, 1, 0, 0, 0, 2, 0, 0, 0, 2, 9, 8, 0, 6, 5, 4]⟩

/-- A provider that rejects the signature check on context 0 and accepts every
other call. -/
def rejectFirstSignature : CryptoX := fun _ c =>
  match c with
  | .VerifySignature 0 _ _ _ => false
  | _ => true

/-- The error kinds of the design. -/
inductive ErrorKind where
  | invalidArgument
  | ioFailure
  | malformedArchive
  | cryptoFailure
  | policyViolation
  deriving DecidableEq, Repr

/-- The error kind of each diagnostic: a null or empty argument; a failed read
or seek; a count, length or algorithm id that is out of bounds; a failed
provider call; a mismatch of the verified, embedded and supplied counts. -/
def Diag.kind : Diag → ErrorKind
  | .invalidParameter => .invalidArgument
  | .invalidFilePointer => .invalidArgument
  | .atLeastOneSignature => .invalidArgument
  | .couldNotRead _ => .ioFailure
  | .couldNotSeekToSignatureBlock => .ioFailure
  | .couldNotReadNumberOfSignatures => .ioFailure
  | .couldNotReadAlgorithmID => .ioFailure
  | .couldNotReadSignatureLength => .ioFailure
  | .couldNotReadExtractedSignature => .ioFailure
  | .couldNotSeekPastSignature => .ioFailure
  | .atMostMaxSignatures => .malformedArchive
  | .signatureLengthTooLarge => .malformedArchive
  | .unknownSignatureAlgorithmID => .malformedArchive
  | .embeddedSignatureLengthTooLarge => .malformedArchive
  | .couldNotUpdateVerifyContext _ => .cryptoFailure
  | .couldNotInitCryptoLibrary => .cryptoFailure
  | .couldNotLoadPublicKey => .cryptoFailure
  | .couldNotInitSignatureHandle => .cryptoFailure
  | .errorUpdatingWithDataBlock => .cryptoFailure
  | .errorVerifyingSignature => .cryptoFailure
  | .notAllSignaturesVerified => .policyViolation
  | .onlySomeSignaturesVerified _ _ => .policyViolation

/-- The number of chunks of at most `BLOCKSIZE` bytes between the cursor `p` and
the end of a buffer of `dataLen` bytes: `ceil((dataLen - p) / BLOCKSIZE)`. -/
def chunkCount (cfg : MarConfig) (dataLen p : Nat) : Nat :=
  (dataLen - p + cfg.BLOCKSIZE - 1) / cfg.BLOCKSIZE

/-- The `i`-th chunk after the cursor `p`: the bytes
`data[p + i * BLOCKSIZE, p + (i + 1) * BLOCKSIZE)`, cut at the end of the buffer. -/
def chunkAt (cfg : MarConfig) (data : List Byte) (p i : Nat) : List Byte :=
  slice data (p + i * cfg.BLOCKSIZE) cfg.BLOCKSIZE

/-- The total size the archive declares for itself: the 8-byte big-endian number
at bytes 8-15 of the header. -/
def declaredSize (data : List Byte) : Nat := ntohl (slice data 8 8)

/-- An archive with the Mozilla constants that declares a total size of 100 bytes
and holds 31: `MAR1`, index offset, size 100, count 1, one entry (algorithm 2,
length 1, signature `9`), and two payload bytes. -/
def truncatedPayload : MarFile :=
  ⟨[77, 65, 82, 49, 0, 0, 0, 0, 0, 0, 0, 0, 0, 0, 0, 100, 0, 0, 0, 1,
    0, 0, 0, 2, 0, 0, 0, 1, 9, 7, 6]⟩

/-- An archive with the Mozilla constants and two signatures: `MAR1`, index
offset, size 41, count 2, two entries (algorithm 2; lengths 1 and 2; signatures
`9` and `8 7`), and two payload bytes. -/
def twoSignatures : MarFile :=
  ⟨[77, 65, 82, 49, 0, 0, 0, 0, 0, 0, 0, 0, 0, 0, 0, 41, 0, 0, 0, 2,
    0, 0, 0, 2, 0, 0, 0, 1, 9, 0, 0, 0, 2, 0, 0, 0, 2, 8, 7, 6, 5]⟩

/-! ## `mar_read_entire_file` -/

/-- The file system as `mar_read_entire_file` sees it: the bytes behind each path
that `fopen` can open, and whether the later calls on the opened file succeed
(`fseeko` to the end, `ftello`, `fseeko` back to the start, `malloc` of the
given size, `fread`). -/
structure FileModel where
  content : String → Option (List Byte)
  seekEndOk : String → Bool
  tellOk : String → Bool
  seekSetOk : String → Bool
  mallocOk : Nat → Bool
  freadOk : String → Bool

/-- What `mar_read_entire_file` leaves behind: the returned integer and the values
stored through the out parameters `data` and `size` (`none` when nothing was
stored). -/
structure ReadOutcome where
  rv : Int
  data : Option (List Byte)
  size : Option Nat
  deriving DecidableEq, Repr

/-- `mar_read_entire_file`.  A null `filePath` is `none`; `dataPtr` and `sizePtr` say
whether the out parameters are non-null; `maxSize` is a `uint32_t`. -/
def mar_read_entire_file (fs : FileModel) (filePath : Option String) (maxSize : Nat)
    (dataPtr sizePtr : Bool) : ReadOutcome :=
  match filePath with
  | none => ⟨-1, none, none⟩
  | some path =>
    if !dataPtr || !sizePtr then ⟨-1, none, none⟩
    else
      match fs.content path with
      | none => ⟨-1, none, none⟩
      | some bytes =>
        if fs.seekEndOk path then
          let fileSize : Int := if fs.tellOk path then (bytes.length : Int) else -1
          if fileSize > 0 ∧ fileSize ≤ (maxSize : Int) ∧ fs.seekSetOk path = true then
            let size := fileSize.toNat % 4294967296
            if fs.mallocOk size then
              if fs.freadOk path then ⟨0, some (bytes.take size), some size⟩
              else ⟨-1, none, some size⟩
            else ⟨-1, none, some size⟩
          else ⟨-1, none, none⟩
        else ⟨-1, none, none⟩

/-- A file system with one file, `update.mar`, of three bytes, on which every
operation succeeds. -/
def oneFile : FileModel :=
  { content := fun path => if path = "update.mar" then some [1, 2, 3] else none
    seekEndOk := fun _ => true
    tellOk := fun _ => true
    seekSetOk := fun _ => true
    mallocOk := fun _ => true
    freadOk := fun _ => true }

/-! ## The extracted signature buffers as a set of live allocations -/

/-- The loop `for (i = 0; i < signatureCount; ++i) free(extractedSignatures[i])`:
every buffer of an index below `signatureCount` leaves the live set. -/
def freeExtracted (signatureCount : Nat) (live : List Nat) : List Nat :=
  live.filter (fun i => decide (¬ i < signatureCount))

/-- The extraction loop with the heap made explicit: `live` lists the indices `i`
whose buffer `extractedSignatures[i]` is allocated and not freed.  A failed read
of the algorithm id or of the length, and a length that is too large, return
at once; a failed read of the signature and an unknown algorithm id free every
buffer before they return.  `n` iterations are left at index `i`; the result
is the cursor, when the loop runs to its end, and the live set. -/
def extractLoopLive (cfg : MarConfig) (mar : MarFile) (signatureCount : Nat) :
    Nat → Nat → Nat → List Nat → Option Nat × List Nat
  | 0, _, mar_position, live => (some mar_position, live)
  | n + 1, i, mar_position, live =>
    match mar_read_buffer mar mar_position 4 with
    | none => (none, live)
    | some (idBytes, pos1) =>
      match mar_read_buffer mar pos1 4 with
      | none => (none, live)
      | some (lengthBytes, pos2) =>
        if ntohl lengthBytes > cfg.MAX_SIGNATURE_LENGTH then (none, live)
        else
          match mar_read_buffer mar pos2 (ntohl lengthBytes) with
          | none => (none, freeExtracted signatureCount (live ++ [i]))
          | some (_, pos3) =>
            if ntohl idBytes ≠ 2 then (none, freeExtracted signatureCount (live ++ [i]))
            else extractLoopLive cfg mar signatureCount n (i + 1) pos3 (live ++ [i])

/-- The live set when the extraction pass of `mar_extract_and_verify_signatures` is
over, whether it returned or goes on to the verification pass. -/
def liveAfterExtraction (cfg : MarConfig) (mar : MarFile) : List Nat :=
  match mar_buffer_seek mar 0 cfg.SIGNATURE_BLOCK_OFFSET with
  | none => []
  | some pos0 =>
    match mar_read_buffer mar pos0 4 with
    | none => []
    | some (countBytes, pos1) =>
      if ntohl countBytes > cfg.MAX_SIGNATURES then []
      else (extractLoopLive cfg mar (ntohl countBytes) (ntohl countBytes) 0 pos1 []).2

/-- The signature buffers that are still allocated when
`mar_extract_and_verify_signatures` returns: after a failed extraction those the
extraction pass left; after a failed verification pass the same, since the
function returns at once; otherwise what the final loop of `free` leaves. -/
def liveSignatureBuffers (cfg : MarConfig) (px : CryptoX) (mar : Option MarFile)
    (tr : Trace) : List Nat :=
  match mar with
  | none => []
  | some m =>
    match mar_extract_signatures cfg m with
    | .error _ => liveAfterExtraction cfg m
    | .ok ex =>
      if (mar_verify_extracted_signatures cfg px m ex.extractedSignatures ex.signatureCount
          tr).rv = CryptoX_Error then liveAfterExtraction cfg m
      else freeExtracted ex.signatureCount (liveAfterExtraction cfg m)

/-- An archive for `tinyConfig` with two entries: the first is acceptable (length
1), the second declares length 5, above `MAX_SIGNATURE_LENGTH`. -/
def tinySecondTooLong : MarFile :=
  ⟨[1, 2, 0, 0, 0, 2, 0, 0, 0, 2, 0, 0, 0, 1, 9, 0, 0, 0, 2, 0, 0, 0, 5, 8, 7, 6, 5, 4]⟩

/-! # Theorems -/

/-! ## The extraction pass -/

theorem mar_read_buffer_eq (mar : MarFile) (p n : Nat) :
    mar_read_buffer mar p n =
      if p + n ≤ mar.buffer.length then some (slice mar.buffer p n, p + n) else none := rfl

theorem mar_buffer_seek_eq (mar : MarFile) (p n : Nat) :
    mar_buffer_seek mar p n = if p + n ≤ mar.buffer.length then some (p + n) else none := rfl

theorem entryOK_iff (cfg : MarConfig) (data : List Byte) (i : Nat) :
    entryOK cfg data i = true ↔
      entryAlg cfg data i = 2 ∧ entryLen cfg data i ≤ cfg.MAX_SIGNATURE_LENGTH
        ∧ entryPos cfg data i + 8 + entryLen cfg data i ≤ data.length := by
  simp [entryOK, and_assoc]

theorem entryPos_succ (cfg : MarConfig) (data : List Byte) (i : Nat) :
    entryPos cfg data (i + 1) = entryPos cfg data i + 8 + entryLen cfg data i := rfl

/-- One iteration of the extraction loop, in terms of the layout. -/
theorem extractLoop_succ (cfg : MarConfig) (mar : MarFile) (n i : Nat) (ids : List Nat)
    (sigs : List (List Byte)) :
    extractLoop cfg mar (n + 1) (entryPos cfg mar.buffer i) ids sigs =
      if entryPos cfg mar.buffer i + 4 ≤ mar.buffer.length then
        if entryPos cfg mar.buffer i + 8 ≤ mar.buffer.length then
          if entryLen cfg mar.buffer i > cfg.MAX_SIGNATURE_LENGTH then
            .error .signatureLengthTooLarge
          else if entryPos cfg mar.buffer i + 8 + entryLen cfg mar.buffer i
              ≤ mar.buffer.length then
            if entryAlg cfg mar.buffer i ≠ 2 then .error .unknownSignatureAlgorithmID
            else extractLoop cfg mar n (entryPos cfg mar.buffer (i + 1))
              (ids ++ [entryAlg cfg mar.buffer i]) (sigs ++ [entrySig cfg mar.buffer i])
          else .error .couldNotReadExtractedSignature
        else .error .couldNotReadSignatureLength
      else .error .couldNotReadAlgorithmID := by
  rw [extractLoop, mar_read_buffer_eq]
  by_cases h1 : entryPos cfg mar.buffer i + 4 ≤ mar.buffer.length
  · simp only [h1, if_true]
    rw [mar_read_buffer_eq]
    by_cases h2 : entryPos cfg mar.buffer i + 8 ≤ mar.buffer.length
    · have h2' : entryPos cfg mar.buffer i + 4 + 4 ≤ mar.buffer.length := by omega
      simp only [h2, h2', if_true]
      have hl : ntohl (slice mar.buffer (entryPos cfg mar.buffer i + 4) 4)
          = entryLen cfg mar.buffer i := rfl
      have ha : ntohl (slice mar.buffer (entryPos cfg mar.buffer i) 4)
          = entryAlg cfg mar.buffer i := rfl
      rw [hl, ha]
      by_cases h3 : entryLen cfg mar.buffer i > cfg.MAX_SIGNATURE_LENGTH
      · simp only [h3, if_true]
      · simp only [h3, if_false]
        rw [mar_read_buffer_eq]
        by_cases h4 : entryPos cfg mar.buffer i + 8 + entryLen cfg mar.buffer i
            ≤ mar.buffer.length
        · have h4' : entryPos cfg mar.buffer i + 4 + 4 + entryLen cfg mar.buffer i
              ≤ mar.buffer.length := by omega
          simp only [h4, h4', if_true]
          have hp : entryPos cfg mar.buffer i + 4 + 4 = entryPos cfg mar.buffer i + 8 := by omega
          rw [hp]
          rfl
        · have h4' : ¬ entryPos cfg mar.buffer i + 4 + 4 + entryLen cfg mar.buffer i
              ≤ mar.buffer.length := by omega
          simp only [h4, h4', if_false]
    · have h2' : ¬ entryPos cfg mar.buffer i + 4 + 4 ≤ mar.buffer.length := by omega
      simp only [h2, h2', if_false]
  · simp only [h1, if_false]

/-- The extraction loop succeeds exactly on acceptable entries, and then
returns what the layout says. -/
theorem extractLoop_toOption (cfg : MarConfig) (mar : MarFile) :
    ∀ (n i : Nat) (ids : List Nat) (sigs : List (List Byte)),
      (extractLoop cfg mar n (entryPos cfg mar.buffer i) ids sigs).toOption =
        if (List.range' i n).all (entryOK cfg mar.buffer) then
          some (ids ++ (List.range' i n).map (entryAlg cfg mar.buffer),
            sigs ++ (List.range' i n).map (entrySig cfg mar.buffer),
            entryPos cfg mar.buffer (i + n))
        else none := by
  intro n
  induction n with
  | zero => intro i ids sigs; simp [extractLoop, Except.toOption]
  | succ n ih =>
    intro i ids sigs
    rw [extractLoop_succ, List.range'_succ]
    simp only [List.all_cons, List.map_cons]
    by_cases hok : entryOK cfg mar.buffer i = true
    · obtain ⟨ha, hl, hp⟩ := (entryOK_iff _ _ _).1 hok
      have h1 : entryPos cfg mar.buffer i + 4 ≤ mar.buffer.length := by omega
      have h2 : entryPos cfg mar.buffer i + 8 ≤ mar.buffer.length := by omega
      have h3 : ¬ entryLen cfg mar.buffer i > cfg.MAX_SIGNATURE_LENGTH := by omega
      simp only [h1, h2, h3, hp, if_true, if_false, ha, ne_eq, not_true_eq_false, hok,
        Bool.true_and]
      rw [← ha, ih (i + 1)]
      simp [List.append_assoc, Nat.add_assoc, Nat.add_comm 1 n]
    · have hno : ¬ (entryAlg cfg mar.buffer i = 2 ∧
          entryLen cfg mar.buffer i ≤ cfg.MAX_SIGNATURE_LENGTH
          ∧ entryPos cfg mar.buffer i + 8 + entryLen cfg mar.buffer i ≤ mar.buffer.length) :=
        fun h => hok ((entryOK_iff _ _ _).2 h)
      simp only [Bool.not_eq_true] at hok
      simp only [hok, Bool.false_and, Bool.false_eq_true, if_false]
      split_ifs <;> first | rfl | (exfalso; apply hno; refine ⟨?_, ?_, ?_⟩ <;> omega)

theorem blockParses_iff (cfg : MarConfig) (data : List Byte) :
    blockParses cfg data = true ↔
      cfg.SIGNATURE_BLOCK_OFFSET + 4 ≤ data.length
        ∧ countField cfg data ≤ cfg.MAX_SIGNATURES
        ∧ ∀ i, i < countField cfg data →
            entryAlg cfg data i = 2 ∧ entryLen cfg data i ≤ cfg.MAX_SIGNATURE_LENGTH
              ∧ entryPos cfg data i + 8 + entryLen cfg data i ≤ data.length := by
  simp [blockParses, and_assoc, entryOK_iff]

theorem toOption_eq_some {ε α : Type} {x : Except ε α} {a : α} (h : x.toOption = some a) :
    x = .ok a := by
  cases x with
  | error e => simp [Except.toOption] at h
  | ok b => simp [Except.toOption] at h; rw [h]

theorem toOption_eq_none {ε α : Type} {x : Except ε α} (h : x.toOption = none) :
    ∃ e, x = .error e := by
  cases x with
  | error e => exact ⟨e, rfl⟩
  | ok b => simp [Except.toOption] at h

theorem mar_extract_signatures_toOption (cfg : MarConfig) (mar : MarFile) :
    (mar_extract_signatures cfg mar).toOption =
      if blockParses cfg mar.buffer then some (extractedOf cfg mar.buffer) else none := by
  unfold mar_extract_signatures
  rw [mar_buffer_seek_eq, Nat.zero_add]
  by_cases h0 : cfg.SIGNATURE_BLOCK_OFFSET ≤ mar.buffer.length
  · simp only [h0, if_true]
    rw [mar_read_buffer_eq]
    by_cases h1 : cfg.SIGNATURE_BLOCK_OFFSET + 4 ≤ mar.buffer.length
    · simp only [h1, if_true]
      have hc : ntohl (slice mar.buffer cfg.SIGNATURE_BLOCK_OFFSET 4)
          = countField cfg mar.buffer := rfl
      rw [hc]
      have h1' : cfg.SIGNATURE_BLOCK_OFFSET + 4 ≤ mar.buffer.length := by omega
      by_cases h2 : countField cfg mar.buffer > cfg.MAX_SIGNATURES
      · have : blockParses cfg mar.buffer = false := by
          rw [← Bool.not_eq_true, blockParses_iff]; omega
        simp [h2, this, Except.toOption]
      · simp only [h2, if_false]
        have hp : cfg.SIGNATURE_BLOCK_OFFSET + 4 = entryPos cfg mar.buffer 0 := rfl
        rw [hp]
        have hex := extractLoop_toOption cfg mar (countField cfg mar.buffer) 0 [] []
        rw [← List.range_eq_range'] at hex
        have hbp : blockParses cfg mar.buffer
            = (List.range (countField cfg mar.buffer)).all (entryOK cfg mar.buffer) := by
          have h2' : countField cfg mar.buffer ≤ cfg.MAX_SIGNATURES := by omega
          simp [blockParses, h1', h2']
        rw [hbp]
        by_cases hall : (List.range (countField cfg mar.buffer)).all (entryOK cfg mar.buffer)
            = true
        · rw [hall] at hex ⊢
          simp only [if_true] at hex ⊢
          rw [toOption_eq_some hex]
          simp [Except.toOption, extractedOf]
        · simp only [Bool.not_eq_true] at hall
          rw [hall] at hex ⊢
          simp only [Bool.false_eq_true, if_false] at hex ⊢
          obtain ⟨e, he⟩ := toOption_eq_none hex
          rw [he]
          rfl
    · have : blockParses cfg mar.buffer = false := by
        rw [← Bool.not_eq_true, blockParses_iff]; omega
      simp [h1, this, Except.toOption]
  · have : blockParses cfg mar.buffer = false := by
      rw [← Bool.not_eq_true, blockParses_iff]; omega
    simp [h0, this, Except.toOption]

theorem mar_extract_signatures_ok (cfg : MarConfig) (mar : MarFile)
    (h : blockParses cfg mar.buffer = true) :
    mar_extract_signatures cfg mar = .ok (extractedOf cfg mar.buffer) := by
  have := mar_extract_signatures_toOption cfg mar
  rw [h] at this
  exact toOption_eq_some this

theorem mar_extract_signatures_error (cfg : MarConfig) (mar : MarFile)
    (h : blockParses cfg mar.buffer = false) :
    ∃ e, mar_extract_signatures cfg mar = .error e := by
  have := mar_extract_signatures_toOption cfg mar
  rw [h] at this
  exact toOption_eq_none this

theorem mar_verify_extracted_signatures_zero (cfg : MarConfig) (px : CryptoX) (mar : MarFile)
    (sigs : List (List Byte)) (tr : Trace) :
    mar_verify_extracted_signatures cfg px mar sigs 0 tr
      = ⟨CryptoX_Error, 0, some .atLeastOneSignature, tr⟩ := by
  simp [mar_verify_extracted_signatures, verifyExtractedBody, freeSignatureHandles]

theorem mar_verify_extracted_signatures_rv (cfg : MarConfig) (px : CryptoX) (mar : MarFile)
    (sigs : List (List Byte)) (n : Nat) (tr : Trace) :
    (mar_verify_extracted_signatures cfg px mar sigs n tr).rv = CryptoX_Success
      ∨ (mar_verify_extracted_signatures cfg px mar sigs n tr).rv = CryptoX_Error := by
  unfold mar_verify_extracted_signatures
  split <;> simp

theorem extract_and_verify_of_error (cfg : MarConfig) (px : CryptoX) (mar : MarFile)
    (keyCount : Nat) (tr : Trace) (h : blockParses cfg mar.buffer = false) :
    ∃ e, mar_extract_signatures cfg mar = .error e ∧
      mar_extract_and_verify_signatures cfg px (some mar) keyCount tr
        = ⟨CryptoX_Error, some e, tr⟩ := by
  obtain ⟨e, he⟩ := mar_extract_signatures_error cfg mar h
  exact ⟨e, he, by simp [mar_extract_and_verify_signatures, he]⟩

theorem extract_and_verify_trace (cfg : MarConfig) (px : CryptoX) (mar : MarFile)
    (keyCount : Nat) (tr : Trace) (h : blockParses cfg mar.buffer = true) :
    (mar_extract_and_verify_signatures cfg px (some mar) keyCount tr).trace
      = (mar_verify_extracted_signatures cfg px mar
          ((List.range (countField cfg mar.buffer)).map (entrySig cfg mar.buffer))
          (countField cfg mar.buffer) tr).trace := by
  simp only [mar_extract_and_verify_signatures, mar_extract_signatures_ok cfg mar h, extractedOf]
  split_ifs <;> rfl

/-- If `mar_extract_and_verify_signatures` succeeds, the block parsed, the
verification pass succeeded and verified as many signatures as there are
entries and as there are keys. -/
theorem extract_and_verify_success (cfg : MarConfig) (px : CryptoX) (mar : MarFile)
    (keyCount : Nat) (tr : Trace)
    (h : (mar_extract_and_verify_signatures cfg px (some mar) keyCount tr).rv = CryptoX_Success) :
    blockParses cfg mar.buffer = true ∧
      (mar_verify_extracted_signatures cfg px mar
          ((List.range (countField cfg mar.buffer)).map (entrySig cfg mar.buffer))
          (countField cfg mar.buffer) tr).rv = CryptoX_Success ∧
      (mar_verify_extracted_signatures cfg px mar
          ((List.range (countField cfg mar.buffer)).map (entrySig cfg mar.buffer))
          (countField cfg mar.buffer) tr).numVerified = countField cfg mar.buffer ∧
      keyCount = countField cfg mar.buffer := by
  by_cases hb : blockParses cfg mar.buffer = true
  · simp only [mar_extract_and_verify_signatures, mar_extract_signatures_ok cfg mar hb,
      extractedOf] at h
    refine ⟨hb, ?_⟩
    split_ifs at h with h1 h2 h3
    · simp [CryptoX_Error, CryptoX_Success] at h
    · rcases mar_verify_extracted_signatures_rv cfg px mar
        ((List.range (countField cfg mar.buffer)).map (entrySig cfg mar.buffer))
        (countField cfg mar.buffer) tr with hs | he
      · exact ⟨hs, h2.1, h2.2.trans h2.1⟩
      · exact absurd he h1
    · simp [CryptoX_Error, CryptoX_Success] at h
    · simp [CryptoX_Error, CryptoX_Success] at h
  · simp only [Bool.not_eq_true] at hb
    obtain ⟨e, -, he⟩ := extract_and_verify_of_error cfg px mar keyCount tr hb
    rw [he] at h
    simp [CryptoX_Error, CryptoX_Success] at h

theorem extract_and_verify_rv (cfg : MarConfig) (px : CryptoX) (mar : Option MarFile)
    (keyCount : Nat) (tr : Trace) :
    (mar_extract_and_verify_signatures cfg px mar keyCount tr).rv = CryptoX_Success
      ∨ (mar_extract_and_verify_signatures cfg px mar keyCount tr).rv = CryptoX_Error := by
  unfold mar_extract_and_verify_signatures
  cases mar with
  | none => simp
  | some m =>
    simp only
    split
    · simp
    · split_ifs <;> simp

/-! ## Key loading -/

theorem verifyCalls_append (a b : Trace) : verifyCalls (a ++ b) = verifyCalls a ++ verifyCalls b := by
  simp [verifyCalls]

theorem loadKeysLoop_verifyCalls (px : CryptoX) (cd : List (List Byte)) (cs : List Nat) :
    ∀ (n k : Nat) (keys : List Bool) (tr : Trace),
      verifyCalls (loadKeysLoop px cd cs n k keys tr).2.2 = verifyCalls tr := by
  intro n
  induction n with
  | zero => intro k keys tr; rfl
  | succ n ih =>
    intro k keys tr
    rw [loadKeysLoop]
    split_ifs
    · rw [ih]; simp [verifyCalls]
    · simp [verifyCalls]

theorem freeKeys_verifyCalls (keys : List Bool) (n : Nat) : verifyCalls (freeKeys keys n) = [] := by
  simp only [verifyCalls, freeKeys, List.filter_eq_nil_iff, List.mem_map]
  rintro a ⟨x, -, rfl⟩
  simp

/-- What `mar_verify_signatures` returns: either `-1` before the archive is
looked at, with no verification call made, or the result of
`mar_extract_and_verify_signatures` run after the keys were loaded. -/
theorem mar_verify_signatures_cases (cfg : MarConfig) (px : CryptoX) (mar : Option MarFile)
    (cd : Option (List (List Byte))) (cs : Option (List Nat)) (n : Nat) (tr : Trace) :
    ((mar_verify_signatures cfg px mar cd cs n tr).rv = -1 ∧
        verifyCalls (mar_verify_signatures cfg px mar cd cs n tr).trace = verifyCalls tr)
      ∨ ∃ m tr1, mar = some m ∧ verifyCalls tr1 = verifyCalls tr ∧
          (mar_verify_signatures cfg px mar cd cs n tr).rv
            = (mar_extract_and_verify_signatures cfg px (some m) n tr1).rv ∧
          verifyCalls (mar_verify_signatures cfg px mar cd cs n tr).trace
            = verifyCalls (mar_extract_and_verify_signatures cfg px (some m) n tr1).trace := by
  unfold mar_verify_signatures
  split
  · rename_i m cd cs
    split_ifs with h0 hinit
    · left; simp
    · have hl := loadKeysLoop_verifyCalls px cd cs n 0
        (List.replicate cfg.MAX_SIGNATURES false) (tr ++ [.InitCryptoProvider])
      generalize loadKeysLoop px cd cs n 0 (List.replicate cfg.MAX_SIGNATURES false)
        (tr ++ [.InitCryptoProvider]) = res at hl ⊢
      obtain ⟨ok, keys, tr1⟩ := res
      simp only at hl
      have hl' : verifyCalls tr1 = verifyCalls tr := by
        rw [hl]; simp [verifyCalls]
      cases ok with
      | false =>
        left
        simp [verifyCalls_append, freeKeys_verifyCalls, hl']
      | true =>
        right
        exact ⟨m, tr1, rfl, hl', rfl, by simp [verifyCalls_append, freeKeys_verifyCalls]⟩
    · left
      refine ⟨rfl, ?_⟩
      simp only [verifyCalls_append, freeKeys_verifyCalls, List.append_nil]
      simp [verifyCalls]
  · left
    simp [verifyCalls_append, freeKeys_verifyCalls]

/-! ## Observations distribute over the trace -/

theorem updatesOf_append (a b : Trace) : updatesOf (a ++ b) = updatesOf a ++ updatesOf b := by
  simp [updatesOf, List.filterMap_append]

theorem fedTo_append (k : Nat) (a b : Trace) : fedTo k (a ++ b) = fedTo k a ++ fedTo k b := by
  simp [fedTo, updatesOf_append]

theorem signatureCalls_append (a b : Trace) :
    signatureCalls (a ++ b) = signatureCalls a ++ signatureCalls b := by
  simp [signatureCalls]

theorem fedTo_update (k j : Nat) (buf : List Byte) :
    fedTo k [.VerifyUpdate j buf] = if j = k then buf else [] := by
  by_cases h : j = k <;> simp [fedTo, updatesOf, h]

/-! ## The update loop -/

theorem verifyUpdateLoop_signatureCalls (px : CryptoX) (buf : List Byte) :
    ∀ (n k : Nat) (tr : Trace),
      signatureCalls (verifyUpdateLoop px buf n k tr).2 = signatureCalls tr := by
  intro n
  induction n with
  | zero => intro k tr; rfl
  | succ n ih =>
    intro k tr
    rw [verifyUpdateLoop]
    split_ifs
    · rw [ih]; simp [signatureCalls]
    · simp [signatureCalls]

theorem verifyUpdateLoop_fed (px : CryptoX) (buf : List Byte) :
    ∀ (n k : Nat) (tr tr' : Trace), verifyUpdateLoop px buf n k tr = (true, tr') →
      ∀ j, fedTo j tr' = fedTo j tr ++ if k ≤ j ∧ j < k + n then buf else [] := by
  intro n
  induction n with
  | zero =>
    intro k tr tr' h j
    simp only [verifyUpdateLoop, Prod.mk.injEq, true_and] at h
    subst h
    simp
  | succ n ih =>
    intro k tr tr' h j
    rw [verifyUpdateLoop] at h
    split_ifs at h with hpx
    · rw [ih (k + 1) _ tr' h j, fedTo_append, fedTo_update, List.append_assoc]
      congr 1
      by_cases h1 : k = j
      · subst h1; simp
      · by_cases h2 : k + 1 ≤ j ∧ j < k + 1 + n
        · have h3 : k ≤ j ∧ j < k + (n + 1) := by omega
          simp [h1, h2, h3]
        · have h3 : ¬ (k ≤ j ∧ j < k + (n + 1)) := by omega
          simp [h1, h2, h3]
    · simp at h

theorem verifyUpdateLoop_accept (px : CryptoX) (buf : List Byte)
    (h : ∀ t k, px t (.VerifyUpdate k buf) = true) :
    ∀ (n k : Nat) (tr : Trace), (verifyUpdateLoop px buf n k tr).1 = true := by
  intro n
  induction n with
  | zero => intro k tr; rfl
  | succ n ih =>
    intro k tr
    rw [verifyUpdateLoop, if_pos (h tr k)]
    exact ih _ _

/-! ## `ReadAndUpdateVerifyContext` -/

theorem readAndUpdate_signatureCalls (px : CryptoX) (mar : MarFile) (p size count : Nat)
    (err : ReadTarget) (tr : Trace) :
    signatureCalls (ReadAndUpdateVerifyContext px mar p size count err tr).2
      = signatureCalls tr := by
  unfold ReadAndUpdateVerifyContext
  split_ifs
  · rfl
  · rfl
  · split
    · rfl
    · rename_i buffer pos _
      have := verifyUpdateLoop_signatureCalls px buffer count 0 tr
      split <;> rename_i heq <;> rw [heq] at this <;> exact this

theorem readAndUpdate_ok (px : CryptoX) (mar : MarFile) (p size count : Nat)
    (err : ReadTarget) (tr tr' : Trace) (p' : Nat) (buf : List Byte) (hsize : size ≠ 0)
    (h : ReadAndUpdateVerifyContext px mar p size count err tr = (.ok (p', buf), tr')) :
    p + size ≤ mar.buffer.length ∧ p' = p + size ∧ buf = slice mar.buffer p size
      ∧ ∀ j, j < count → fedTo j tr' = fedTo j tr ++ slice mar.buffer p size := by
  unfold ReadAndUpdateVerifyContext at h
  rw [mar_read_buffer_eq] at h
  split_ifs at h with hc hb
  · simp at h
  · simp only at h
    split at h
    · simp at h
    · rename_i tr1 heq
      simp only [Prod.mk.injEq, Except.ok.injEq] at h
      obtain ⟨⟨rfl, rfl⟩, rfl⟩ := h
      refine ⟨hb, rfl, rfl, fun j hj => ?_⟩
      rw [verifyUpdateLoop_fed px _ count 0 tr tr1 heq j]
      simp [hj]
  · simp at h

theorem readAndUpdate_accept (px : CryptoX) (mar : MarFile) (p size count : Nat)
    (err : ReadTarget) (tr : Trace) (hupd : ∀ t k b, px t (.VerifyUpdate k b) = true)
    (hcount : count ≠ 0) (hsize : size ≠ 0) (hb : p + size ≤ mar.buffer.length) :
    ∃ tr', ReadAndUpdateVerifyContext px mar p size count err tr
      = (.ok (p + size, slice mar.buffer p size), tr') := by
  unfold ReadAndUpdateVerifyContext
  rw [mar_read_buffer_eq, if_neg hcount, if_neg hsize, if_pos hb]
  simp only
  have := verifyUpdateLoop_accept px (slice mar.buffer p size) (fun t k => hupd t k _) count 0 tr
  generalize verifyUpdateLoop px (slice mar.buffer p size) count 0 tr = res at this
  obtain ⟨ok, tr1⟩ := res
  simp only at this
  subst this
  exact ⟨tr1, rfl⟩

theorem readAndUpdate_congr (px : CryptoX) (A B : MarFile) (p size count : Nat)
    (err : ReadTarget) (tr : Trace) (hlen : A.buffer.length = B.buffer.length)
    (hs : slice A.buffer p size = slice B.buffer p size) :
    ReadAndUpdateVerifyContext px A p size count err tr
      = ReadAndUpdateVerifyContext px B p size count err tr := by
  unfold ReadAndUpdateVerifyContext
  rw [mar_read_buffer_eq, mar_read_buffer_eq, hlen, hs]

/-! ## Slices -/

theorem slice_add (data : List Byte) (p a b : Nat) :
    slice data p (a + b) = slice data p a ++ slice data (p + a) b := by
  simp [slice, List.take_add, List.drop_drop]

theorem length_slice (data : List Byte) (p n : Nat) (h : p + n ≤ data.length) :
    (slice data p n).length = n := by
  simp [slice, List.length_take, List.length_drop]; omega

theorem slice_congr (A B : List Byte) (p n : Nat)
    (h : ∀ j, p ≤ j → j < p + n → A[j]? = B[j]?) : slice A p n = slice B p n := by
  apply List.ext_getElem?
  intro m
  simp only [slice, List.getElem?_take, List.getElem?_drop]
  split_ifs with hm
  · exact h (p + m) (by omega) (by omega)
  · rfl

theorem drop_congr (A B : List Byte) (p : Nat)
    (h : ∀ j, p ≤ j → A[j]? = B[j]?) : A.drop p = B.drop p := by
  apply List.ext_getElem?
  intro m
  simp only [List.getElem?_drop]
  exact h (p + m) (by omega)

/-! ## The signature block loop -/

theorem signatureBlockLoop_signatureCalls (cfg : MarConfig) (px : CryptoX) (mar : MarFile)
    (c : Nat) : ∀ (n p : Nat) (lens : List Nat) (tr : Trace),
      signatureCalls (signatureBlockLoop cfg px mar c n p lens tr).2 = signatureCalls tr := by
  intro n
  induction n with
  | zero => intro p lens tr; rfl
  | succ n ih =>
    intro p lens tr
    rw [signatureBlockLoop]
    have h1 := readAndUpdate_signatureCalls px mar p 4 c .signatureAlgorithmID tr
    split
    · rename_i e tr1 heq1
      rw [heq1] at h1; exact h1
    · rename_i pos1 b1 tr1 heq1
      rw [heq1] at h1
      have h2 := readAndUpdate_signatureCalls px mar pos1 4 c .signatureLength tr1
      split
      · rename_i e tr2 heq2
        rw [heq2] at h2; exact h2.trans h1
      · rename_i pos2 lb tr2 heq2
        rw [heq2] at h2
        split_ifs
        · exact h2.trans h1
        · split
          · exact h2.trans h1
          · rw [ih]; exact h2.trans h1

theorem signatureBlockLoop_ok (cfg : MarConfig) (px : CryptoX) (mar : MarFile) (c : Nat) :
    ∀ (n i : Nat) (lens : List Nat) (tr : Trace) (p' : Nat) (lens' : List Nat) (tr' : Trace),
      signatureBlockLoop cfg px mar c n (entryPos cfg mar.buffer i) lens tr
          = (.ok (p', lens'), tr') →
        p' = entryPos cfg mar.buffer (i + n)
          ∧ lens' = lens ++ (List.range' i n).map (entryLen cfg mar.buffer)
          ∧ (∀ j, i ≤ j → j < i + n →
              entryLen cfg mar.buffer j ≤ cfg.MAX_SIGNATURE_LENGTH
                ∧ entryPos cfg mar.buffer j + 8 + entryLen cfg mar.buffer j ≤ mar.buffer.length)
          ∧ ∀ k, k < c → fedTo k tr' = fedTo k tr
              ++ ((List.range' i n).map
                  (fun j => slice mar.buffer (entryPos cfg mar.buffer j) 8)).flatten := by
  intro n
  induction n with
  | zero =>
    intro i lens tr p' lens' tr' h
    simp only [signatureBlockLoop, Prod.mk.injEq, Except.ok.injEq] at h
    obtain ⟨⟨rfl, rfl⟩, rfl⟩ := h
    refine ⟨rfl, by simp, fun j h1 h2 => by omega, fun k _ => by simp⟩
  | succ n ih =>
    intro i lens tr p' lens' tr' h
    rw [signatureBlockLoop] at h
    split at h
    · simp at h
    · rename_i pos1 b1 tr1 heq1
      obtain ⟨hb1, rfl, -, hfed1⟩ := readAndUpdate_ok px mar _ 4 c _ tr tr1 pos1 b1 (by decide) heq1
      split at h
      · simp at h
      · rename_i pos2 lb tr2 heq2
        obtain ⟨hb2, rfl, rfl, hfed2⟩ :=
          readAndUpdate_ok px mar _ 4 c _ tr1 tr2 pos2 lb (by decide) heq2
        have hl : ntohl (slice mar.buffer (entryPos cfg mar.buffer i + 4) 4)
            = entryLen cfg mar.buffer i := rfl
        rw [hl] at h
        split_ifs at h with hmax
        · simp at h
        · rw [mar_buffer_seek_eq] at h
          split_ifs at h with hseek
          · simp only at h
            have hp : entryPos cfg mar.buffer i + 4 + 4 + entryLen cfg mar.buffer i
                = entryPos cfg mar.buffer (i + 1) := by
              have := entryPos_succ cfg mar.buffer i; omega
            rw [hp] at h
            obtain ⟨h1, h2, h3, h4⟩ := ih (i + 1) _ tr2 p' lens' tr' h
            refine ⟨?_, ?_, ?_, ?_⟩
            · rw [h1, show i + 1 + n = i + (n + 1) by omega]
            · rw [h2, List.range'_succ]; simp
            · intro j hj1 hj2
              rcases Nat.eq_or_lt_of_le hj1 with rfl | hlt
              · exact ⟨by omega, by omega⟩
              · exact h3 j hlt (by omega)
            · intro k hk
              rw [h4 k hk, hfed2 k hk, hfed1 k hk, List.range'_succ]
              simp only [List.map_cons, List.flatten_cons, List.append_assoc]
              rw [show (8 : Nat) = 4 + 4 from rfl, slice_add]
              simp
          · simp at h

theorem signatureBlockLoop_accept (cfg : MarConfig) (px : CryptoX) (mar : MarFile) (c : Nat)
    (hupd : ∀ t k b, px t (.VerifyUpdate k b) = true) (hc : c ≠ 0) :
    ∀ (n i : Nat) (lens : List Nat) (tr : Trace),
      (∀ j, i ≤ j → j < i + n →
          entryLen cfg mar.buffer j ≤ cfg.MAX_SIGNATURE_LENGTH
            ∧ entryPos cfg mar.buffer j + 8 + entryLen cfg mar.buffer j ≤ mar.buffer.length) →
      ∃ r tr', signatureBlockLoop cfg px mar c n (entryPos cfg mar.buffer i) lens tr
        = (.ok r, tr') := by
  intro n
  induction n with
  | zero => intro i lens tr _; exact ⟨_, _, rfl⟩
  | succ n ih =>
    intro i lens tr hent
    obtain ⟨hmax, hin⟩ := hent i (Nat.le_refl _) (by omega)
    rw [signatureBlockLoop]
    obtain ⟨tr1, h1⟩ := readAndUpdate_accept px mar (entryPos cfg mar.buffer i) 4 c
      .signatureAlgorithmID tr hupd hc (by decide) (by omega)
    rw [h1]
    simp only
    obtain ⟨tr2, h2⟩ := readAndUpdate_accept px mar (entryPos cfg mar.buffer i + 4) 4 c
      .signatureLength tr1 hupd hc (by decide) (by omega)
    rw [h2]
    simp only
    have hl : ntohl (slice mar.buffer (entryPos cfg mar.buffer i + 4) 4)
        = entryLen cfg mar.buffer i := rfl
    have hseek : entryPos cfg mar.buffer i + 4 + 4 + entryLen cfg mar.buffer i
        ≤ mar.buffer.length := by omega
    rw [hl, if_neg (show ¬ entryLen cfg mar.buffer i > cfg.MAX_SIGNATURE_LENGTH by omega),
      mar_buffer_seek_eq, if_pos hseek]
    have hp : entryPos cfg mar.buffer i + 4 + 4 + entryLen cfg mar.buffer i
        = entryPos cfg mar.buffer (i + 1) := by
      have := entryPos_succ cfg mar.buffer i; omega
    rw [hp]
    exact ih (i + 1) _ tr2 (fun j h1 h2 => hent j (by omega) (by omega))

/-! ## The remainder loop -/

theorem restLoop_signatureCalls (cfg : MarConfig) (px : CryptoX) (mar : MarFile) (c : Nat) :
    ∀ (fuel p : Nat) (tr : Trace),
      signatureCalls (restLoop cfg px mar c fuel p tr).2 = signatureCalls tr := by
  intro fuel
  induction fuel with
  | zero => intro p tr; rfl
  | succ fuel ih =>
    intro p tr
    rw [restLoop]
    split_ifs
    · have h1 := verifyUpdateLoop_signatureCalls px
        (mar_read_buffer_max mar p cfg.BLOCKSIZE).1 c 0 tr
      split
      · rename_i tr1 heq; rw [heq] at h1; exact h1
      · rename_i tr1 heq; rw [heq] at h1; rw [ih]; exact h1
    · rfl

theorem slice_append_drop (data : List Byte) (p m : Nat) :
    slice data p m ++ data.drop (p + m) = data.drop p := by
  rw [slice, ← List.drop_drop, List.take_append_drop]

theorem restLoop_ok (cfg : MarConfig) (px : CryptoX) (mar : MarFile) (c : Nat) :
    ∀ (fuel p : Nat) (tr : Trace) (p' : Nat) (tr' : Trace),
      restLoop cfg px mar c fuel p tr = (.ok p', tr') →
      mar.buffer.length - p ≤ fuel → p ≤ mar.buffer.length →
        p' = mar.buffer.length
          ∧ ∀ k, k < c → fedTo k tr' = fedTo k tr ++ mar.buffer.drop p := by
  intro fuel
  induction fuel with
  | zero =>
    intro p tr p' tr' h hf hp
    simp only [restLoop, Prod.mk.injEq, Except.ok.injEq] at h
    obtain ⟨rfl, rfl⟩ := h
    have : p = mar.buffer.length := by omega
    subst this
    exact ⟨rfl, fun k _ => by simp⟩
  | succ fuel ih =>
    intro p tr p' tr' h hf hp
    rw [restLoop] at h
    have hblock := cfg.BLOCKSIZE_pos
    split_ifs at h with hlt
    · simp only [MarFile.data_len] at hlt
      split at h
      · simp at h
      · rename_i tr1 heq
        have hfed := verifyUpdateLoop_fed px _ c 0 tr tr1 heq
        simp only [mar_read_buffer_max, MarFile.data_len] at h hfed
        obtain ⟨h1, h2⟩ := ih _ tr1 p' tr' h (by omega) (by omega)
        refine ⟨h1, fun k hk => ?_⟩
        rw [h2 k hk, hfed k, if_pos ⟨Nat.zero_le _, by omega⟩, List.append_assoc,
          slice_append_drop]
    · simp only [MarFile.data_len] at hlt
      simp only [Prod.mk.injEq, Except.ok.injEq] at h
      obtain ⟨rfl, rfl⟩ := h
      have : p = mar.buffer.length := by omega
      subst this
      exact ⟨rfl, fun k _ => by simp⟩

theorem restLoop_accept (cfg : MarConfig) (px : CryptoX) (mar : MarFile) (c : Nat)
    (hupd : ∀ t k b, px t (.VerifyUpdate k b) = true) :
    ∀ (fuel p : Nat) (tr : Trace), ∃ p' tr', restLoop cfg px mar c fuel p tr = (.ok p', tr') := by
  intro fuel
  induction fuel with
  | zero => intro p tr; exact ⟨_, _, rfl⟩
  | succ fuel ih =>
    intro p tr
    rw [restLoop]
    split_ifs
    · have := verifyUpdateLoop_accept px (mar_read_buffer_max mar p cfg.BLOCKSIZE).1
        (fun t k => hupd t k _) c 0 tr
      generalize verifyUpdateLoop px (mar_read_buffer_max mar p cfg.BLOCKSIZE).1 c 0 tr
        = res at this
      obtain ⟨ok, tr1⟩ := res
      simp only at this
      subst this
      exact ih _ _
    · exact ⟨_, _, rfl⟩

/-! ## Opening the contexts and the final loop -/

theorem verifyBeginLoop_signatureCalls (px : CryptoX) : ∀ (n i : Nat) (tr : Trace),
    signatureCalls (verifyBeginLoop px n i tr).2 = signatureCalls tr := by
  intro n
  induction n with
  | zero => intro i tr; rfl
  | succ n ih =>
    intro i tr
    rw [verifyBeginLoop]
    split_ifs
    · rw [ih]; simp [signatureCalls]
    · simp [signatureCalls]

theorem verifyBeginLoop_updatesOf (px : CryptoX) : ∀ (n i : Nat) (tr : Trace),
    updatesOf (verifyBeginLoop px n i tr).2 = updatesOf tr := by
  intro n
  induction n with
  | zero => intro i tr; rfl
  | succ n ih =>
    intro i tr
    rw [verifyBeginLoop]
    split_ifs
    · rw [ih]; simp [updatesOf]
    · simp [updatesOf]

theorem verifyBeginLoop_accept (px : CryptoX) :
    ∀ (n i : Nat) (tr : Trace), (∀ t j, i ≤ j → j < i + n → px t (.VerifyBegin j j) = true) →
      (verifyBeginLoop px n i tr).1 = true := by
  intro n
  induction n with
  | zero => intro i tr _; rfl
  | succ n ih =>
    intro i tr h
    rw [verifyBeginLoop, if_pos (h tr i (Nat.le_refl _) (by omega))]
    exact ih _ _ (fun t j h1 h2 => h t j (by omega) (by omega))

theorem verifySignatureLoop_updatesOf (px : CryptoX) (sigs : List (List Byte))
    (lens : List Nat) : ∀ (n i nv : Nat) (tr : Trace),
      updatesOf (verifySignatureLoop px sigs lens n i nv tr).2.2 = updatesOf tr := by
  intro n
  induction n with
  | zero => intro i nv tr; rfl
  | succ n ih =>
    intro i nv tr
    rw [verifySignatureLoop]
    split_ifs
    · rw [ih]; simp [updatesOf]
    · simp [updatesOf]

/-- The final loop makes its calls in index order, each with the context, key,
signature and length of one index, and counts the successful ones. -/
theorem verifySignatureLoop_calls (px : CryptoX) (sigs : List (List Byte)) (lens : List Nat) :
    ∀ (n i nv : Nat) (tr : Trace), ∃ m, m ≤ n
      ∧ signatureCalls (verifySignatureLoop px sigs lens n i nv tr).2.2
          = signatureCalls tr ++ (List.range' i m).map
              (fun j => .VerifySignature j j (sigs.getD j []) (lens.getD j 0))
      ∧ ((verifySignatureLoop px sigs lens n i nv tr).1 = true →
          m = n ∧ (verifySignatureLoop px sigs lens n i nv tr).2.1 = nv + n)
      ∧ ((verifySignatureLoop px sigs lens n i nv tr).1 = false →
          1 ≤ m ∧ (verifySignatureLoop px sigs lens n i nv tr).2.1 = nv + (m - 1)) := by
  intro n
  induction n with
  | zero =>
    intro i nv tr
    exact ⟨0, Nat.le_refl _, by simp [verifySignatureLoop], fun _ => ⟨rfl, rfl⟩,
      fun h => by simp [verifySignatureLoop] at h⟩
  | succ n ih =>
    intro i nv tr
    rw [verifySignatureLoop]
    split_ifs with hpx
    · obtain ⟨m, hm, hcalls, hok, hfail⟩ := ih (i + 1) (nv + 1)
        (tr ++ [.VerifySignature i i (sigs.getD i []) (lens.getD i 0)])
      refine ⟨m + 1, by omega, ?_, ?_, ?_⟩
      · rw [hcalls, List.range'_succ]
        simp [signatureCalls]
      · intro h
        obtain ⟨h1, h2⟩ := hok h
        exact ⟨by omega, by omega⟩
      · intro h
        obtain ⟨h1, h2⟩ := hfail h
        exact ⟨by omega, by omega⟩
    · refine ⟨1, by omega, ?_, ?_, ?_⟩
      · simp [signatureCalls]
      · intro h; simp at h
      · intro _; exact ⟨Nat.le_refl _, rfl⟩

theorem verifySignatureLoop_accept (px : CryptoX) (sigs : List (List Byte)) (lens : List Nat) :
    ∀ (n i nv : Nat) (tr : Trace),
      (∀ t j, i ≤ j → j < i + n →
        px t (.VerifySignature j j (sigs.getD j []) (lens.getD j 0)) = true) →
      (verifySignatureLoop px sigs lens n i nv tr).1 = true := by
  intro n
  induction n with
  | zero => intro i nv tr _; rfl
  | succ n ih =>
    intro i nv tr h
    rw [verifySignatureLoop, if_pos (h tr i (Nat.le_refl _) (by omega))]
    exact ih _ _ _ (fun t j h1 h2 => h t j (by omega) (by omega))

theorem freeSignatureHandles_signatureCalls (n : Nat) :
    signatureCalls (freeSignatureHandles n) = [] := by
  simp only [signatureCalls, freeSignatureHandles, List.filter_eq_nil_iff, List.mem_map]
  rintro a ⟨x, -, rfl⟩
  simp

theorem freeSignatureHandles_updatesOf (n : Nat) : updatesOf (freeSignatureHandles n) = [] := by
  simp only [updatesOf, freeSignatureHandles, List.filterMap_eq_nil_iff, List.mem_map]
  rintro a ⟨x, -, rfl⟩
  rfl

/-! ## The streaming pass -/

theorem readAndUpdate_ok_count (px : CryptoX) (mar : MarFile) (p size count : Nat)
    (err : ReadTarget) (tr tr' : Trace) (r : Nat × List Byte)
    (h : ReadAndUpdateVerifyContext px mar p size count err tr = (.ok r, tr')) : count ≠ 0 := by
  intro hc
  simp [ReadAndUpdateVerifyContext, hc] at h

theorem fedTo_of_updatesOf (k : Nat) (a b : Trace) (h : updatesOf a = updatesOf b) :
    fedTo k a = fedTo k b := by
  simp [fedTo, h]

theorem streamPass_signatureCalls (cfg : MarConfig) (px : CryptoX) (mar : MarFile) (n : Nat)
    (tr : Trace) : signatureCalls (streamPass cfg px mar n tr).2 = signatureCalls tr := by
  unfold streamPass
  have h1 := readAndUpdate_signatureCalls px mar 0 (cfg.SIGNATURE_BLOCK_OFFSET + 4) n
    .signatureBlock tr
  split
  · rename_i e tr1 heq1; rw [heq1] at h1; exact h1
  · rename_i pos1 b1 tr1 heq1
    rw [heq1] at h1
    have h2 := signatureBlockLoop_signatureCalls cfg px mar n n pos1 [] tr1
    split
    · rename_i e tr2 heq2; rw [heq2] at h2; exact h2.trans h1
    · rename_i pos2 lens tr2 heq2
      rw [heq2] at h2
      have h3 := restLoop_signatureCalls cfg px mar n (mar.data_len - pos2) pos2 tr2
      unfold streamRest
      split
      · rename_i e tr3 heq3; rw [heq3] at h3; exact (h3.trans h2).trans h1
      · rename_i pos3 tr3 heq3; rw [heq3] at h3; exact (h3.trans h2).trans h1

/-- What a successful streaming pass has done: it has walked the whole buffer,
found the lengths the layout declares, and fed every context the hashed stream. -/
theorem streamPass_ok (cfg : MarConfig) (px : CryptoX) (mar : MarFile) (n : Nat)
    (tr tr' : Trace) (p : Nat) (lens : List Nat)
    (h : streamPass cfg px mar n tr = (.ok (p, lens), tr')) :
    n ≠ 0 ∧ cfg.SIGNATURE_BLOCK_OFFSET + 4 ≤ mar.buffer.length
      ∧ (∀ j, j < n → entryLen cfg mar.buffer j ≤ cfg.MAX_SIGNATURE_LENGTH
          ∧ entryPos cfg mar.buffer j + 8 + entryLen cfg mar.buffer j ≤ mar.buffer.length)
      ∧ lens = (List.range n).map (entryLen cfg mar.buffer)
      ∧ p = mar.buffer.length
      ∧ ∀ k, k < n → fedTo k tr' = fedTo k tr ++ hashedStream cfg mar.buffer n := by
  unfold streamPass at h
  split at h
  · simp at h
  · rename_i pos1 b1 tr1 heq1
    have hn := readAndUpdate_ok_count _ _ _ _ _ _ _ _ _ heq1
    obtain ⟨hb1, rfl, -, hfed1⟩ := readAndUpdate_ok px mar 0 _ n _ tr tr1 pos1 b1 (by omega) heq1
    rw [Nat.zero_add] at hb1 h
    split at h
    · simp at h
    · rename_i pos2 lens2 tr2 heq2
      rw [show cfg.SIGNATURE_BLOCK_OFFSET + 4 = entryPos cfg mar.buffer 0 from rfl] at heq2
      obtain ⟨rfl, rfl, hent, hfed2⟩ := signatureBlockLoop_ok cfg px mar n n 0 [] tr1 _ _ tr2 heq2
      rw [Nat.zero_add] at hent h
      have hent' : ∀ j, j < n → entryLen cfg mar.buffer j ≤ cfg.MAX_SIGNATURE_LENGTH
          ∧ entryPos cfg mar.buffer j + 8 + entryLen cfg mar.buffer j ≤ mar.buffer.length :=
        fun j hj => hent j (Nat.zero_le _) (by omega)
      have hend : entryPos cfg mar.buffer n ≤ mar.buffer.length := by
        obtain ⟨m, rfl⟩ := Nat.exists_eq_succ_of_ne_zero hn
        have := (hent' m (by omega)).2
        rw [Nat.succ_eq_add_one, entryPos_succ]
        exact this
      unfold streamRest at h
      split at h
      · simp at h
      · rename_i pos3 tr3 heq3
        simp only [Prod.mk.injEq, Except.ok.injEq] at h
        obtain ⟨⟨rfl, rfl⟩, rfl⟩ := h
        obtain ⟨hp3, hfed3⟩ := restLoop_ok cfg px mar n _ _ tr2 pos3 tr3 heq3
          (by simp [MarFile.data_len]) hend
        refine ⟨hn, hb1, hent', ?_, hp3, fun k hk => ?_⟩
        · simp [List.range_eq_range']
        · rw [hfed3 k hk, hfed2 k hk, hfed1 k hk, hashedStream, List.range_eq_range']
          simp [List.append_assoc]

theorem streamPass_accept (cfg : MarConfig) (px : CryptoX) (mar : MarFile) (n : Nat) (tr : Trace)
    (hupd : ∀ t k b, px t (.VerifyUpdate k b) = true) (hn : n ≠ 0)
    (hb : cfg.SIGNATURE_BLOCK_OFFSET + 4 ≤ mar.buffer.length)
    (hent : ∀ j, j < n → entryLen cfg mar.buffer j ≤ cfg.MAX_SIGNATURE_LENGTH
      ∧ entryPos cfg mar.buffer j + 8 + entryLen cfg mar.buffer j ≤ mar.buffer.length) :
    ∃ r tr', streamPass cfg px mar n tr = (.ok r, tr') := by
  unfold streamPass
  obtain ⟨tr1, h1⟩ := readAndUpdate_accept px mar 0 (cfg.SIGNATURE_BLOCK_OFFSET + 4) n
    .signatureBlock tr hupd hn (by omega) (by omega)
  rw [h1]
  simp only [Nat.zero_add]
  obtain ⟨r2, tr2, h2⟩ := signatureBlockLoop_accept cfg px mar n hupd hn n 0 [] tr1
    (fun j _ hj => hent j (by omega))
  rw [show entryPos cfg mar.buffer 0 = cfg.SIGNATURE_BLOCK_OFFSET + 4 from rfl] at h2
  rw [h2]
  simp only
  obtain ⟨p3, tr3, h3⟩ := restLoop_accept cfg px mar n hupd (mar.data_len - r2.1) r2.1 tr2
  unfold streamRest
  rw [h3]
  exact ⟨_, _, rfl⟩

/-! ## `mar_verify_extracted_signatures` as a whole -/

/-- Either the finalisation step is not reached, and then no signature is
checked and none counted, or contexts were opened, the streaming pass
succeeded, and the outcome is that of the final loop. -/
theorem verifyExtractedBody_cases (cfg : MarConfig) (px : CryptoX) (mar : MarFile)
    (sigs : List (List Byte)) (n : Nat) (tr : Trace) :
    (signatureCalls (verifyExtractedBody cfg px mar sigs n tr).2.2 = signatureCalls tr
        ∧ (verifyExtractedBody cfg px mar sigs n tr).2.1 = 0
        ∧ (verifyExtractedBody cfg px mar sigs n tr).1 ≠ none)
      ∨ ∃ tr1 tr2 p lens, n ≠ 0 ∧ verifyBeginLoop px n 0 tr = (true, tr1)
          ∧ streamPass cfg px mar n tr1 = (.ok (p, lens), tr2)
          ∧ verifyExtractedBody cfg px mar sigs n tr
            = (if (verifySignatureLoop px sigs lens n 0 0 tr2).1 then none
                else some .errorVerifyingSignature,
               (verifySignatureLoop px sigs lens n 0 0 tr2).2.1,
               (verifySignatureLoop px sigs lens n 0 0 tr2).2.2) := by
  unfold verifyExtractedBody
  split_ifs with hn
  · left; simp
  · have hb := verifyBeginLoop_signatureCalls px n 0 tr
    split
    · rename_i tr1 heq1
      rw [heq1] at hb
      left; exact ⟨hb, rfl, by simp⟩
    · rename_i tr1 heq1
      rw [heq1] at hb
      have hs := streamPass_signatureCalls cfg px mar n tr1
      split
      · rename_i e tr2 heq2
        rw [heq2] at hs
        left; exact ⟨hs.trans hb, rfl, by simp⟩
      · rename_i p lens tr2 heq2
        right
        refine ⟨tr1, tr2, p, lens, hn, heq1, heq2, ?_⟩
        split <;> rename_i heq3 <;> rw [heq3] <;> simp

theorem mar_verify_extracted_signatures_fields (cfg : MarConfig) (px : CryptoX) (mar : MarFile)
    (sigs : List (List Byte)) (n : Nat) (tr : Trace) :
    (mar_verify_extracted_signatures cfg px mar sigs n tr).trace
        = (verifyExtractedBody cfg px mar sigs n tr).2.2 ++ freeSignatureHandles n
      ∧ (mar_verify_extracted_signatures cfg px mar sigs n tr).numVerified
        = (verifyExtractedBody cfg px mar sigs n tr).2.1
      ∧ (mar_verify_extracted_signatures cfg px mar sigs n tr).diag
        = (verifyExtractedBody cfg px mar sigs n tr).1
      ∧ ((mar_verify_extracted_signatures cfg px mar sigs n tr).rv = CryptoX_Success
        ↔ (verifyExtractedBody cfg px mar sigs n tr).1 = none) := by
  unfold mar_verify_extracted_signatures
  generalize verifyExtractedBody cfg px mar sigs n tr = r
  obtain ⟨d, nv, t⟩ := r
  cases d <;> simp [CryptoX_Success, CryptoX_Error]

theorem getD_map_range {α : Type} (f : Nat → α) (n j : Nat) (d : α) (h : j < n) :
    ((List.range n).map f).getD j d = f j := by
  simp [List.getD_eq_getElem?_getD, List.getElem?_map, List.getElem?_range h]

theorem entryPos_eq_sum (cfg : MarConfig) (data : List Byte) : ∀ n,
    entryPos cfg data n
      = cfg.SIGNATURE_BLOCK_OFFSET + 4 + ((List.range n).map (fun i => 8 + entryLen cfg data i)).sum
  | 0 => by simp [entryPos]
  | n + 1 => by
    rw [entryPos_succ, entryPos_eq_sum cfg data n, List.range_succ]
    simp
    omega

/-! ## Completeness -/

theorem loadKeysLoop_accept (px : CryptoX) (cd : List (List Byte)) (cs : List Nat) :
    ∀ (n k : Nat) (keys : List Bool) (tr : Trace),
      (∀ t j, k ≤ j → j < k + n → px t (.LoadPublicKey j (cd.getD j []) (cs.getD j 0)) = true) →
      (loadKeysLoop px cd cs n k keys tr).1 = true := by
  intro n
  induction n with
  | zero => intro k keys tr _; rfl
  | succ n ih =>
    intro k keys tr h
    rw [loadKeysLoop, if_pos (h tr k (Nat.le_refl _) (by omega))]
    exact ih _ _ _ (fun t j h1 h2 => h t j (by omega) (by omega))

/-- With a provider that accepts the updates, the context openings and the
check of every signature against the key of its index, the verification pass
succeeds on a block whose entries stay within bounds and verifies them all. -/
theorem mar_verify_extracted_signatures_accept (cfg : MarConfig) (px : CryptoX) (mar : MarFile)
    (n : Nat) (tr : Trace) (hn : n ≠ 0)
    (hb : cfg.SIGNATURE_BLOCK_OFFSET + 4 ≤ mar.buffer.length)
    (hent : ∀ j, j < n → entryLen cfg mar.buffer j ≤ cfg.MAX_SIGNATURE_LENGTH
      ∧ entryPos cfg mar.buffer j + 8 + entryLen cfg mar.buffer j ≤ mar.buffer.length)
    (hbegin : ∀ t i, i < n → px t (.VerifyBegin i i) = true)
    (hupd : ∀ t k b, px t (.VerifyUpdate k b) = true)
    (hsig : ∀ t i, i < n → px t (.VerifySignature i i (entrySig cfg mar.buffer i)
      (entryLen cfg mar.buffer i)) = true) :
    (mar_verify_extracted_signatures cfg px mar
        ((List.range n).map (entrySig cfg mar.buffer)) n tr).rv = CryptoX_Success
      ∧ (mar_verify_extracted_signatures cfg px mar
        ((List.range n).map (entrySig cfg mar.buffer)) n tr).numVerified = n := by
  obtain ⟨-, hnv, -, hrv⟩ := mar_verify_extracted_signatures_fields cfg px mar
    ((List.range n).map (entrySig cfg mar.buffer)) n tr
  rw [hrv, hnv]
  have hbl := verifyBeginLoop_accept px n 0 tr (fun t j _ hj => hbegin t j (by omega))
  rcases verifyExtractedBody_cases cfg px mar
    ((List.range n).map (entrySig cfg mar.buffer)) n tr with h | h
  · exfalso
    apply h.2.2
    unfold verifyExtractedBody
    rw [if_neg hn]
    generalize verifyBeginLoop px n 0 tr = rb at hbl
    obtain ⟨okb, tr1⟩ := rb
    simp only at hbl
    subst hbl
    simp only
    obtain ⟨r, tr2, hs⟩ := streamPass_accept cfg px mar n tr1 hupd hn hb hent
    obtain ⟨p, lens⟩ := r
    rw [hs]
    simp only
    obtain ⟨-, -, -, hlens, -, -⟩ := streamPass_ok cfg px mar n tr1 tr2 p lens hs
    have hv := verifySignatureLoop_accept px ((List.range n).map (entrySig cfg mar.buffer)) lens
      n 0 0 tr2 (fun t j _ hj => by
        have hj' : j < n := by omega
        rw [hlens, getD_map_range _ _ _ _ hj', getD_map_range _ _ _ _ hj']
        exact hsig t j hj')
    generalize verifySignatureLoop px ((List.range n).map (entrySig cfg mar.buffer)) lens
      n 0 0 tr2 = rv at hv
    obtain ⟨okv, nv, tr3⟩ := rv
    simp only at hv
    subst hv
    rfl
  · obtain ⟨tr1, tr2, p, lens, -, -, hstream, hbody⟩ := h
    obtain ⟨-, -, -, hlens, -, -⟩ := streamPass_ok cfg px mar n tr1 tr2 p lens hstream
    have hv := verifySignatureLoop_accept px ((List.range n).map (entrySig cfg mar.buffer)) lens
      n 0 0 tr2 (fun t j _ hj => by
        have hj' : j < n := by omega
        rw [hlens, getD_map_range _ _ _ _ hj', getD_map_range _ _ _ _ hj']
        exact hsig t j hj')
    obtain ⟨m, -, -, hok, -⟩ := verifySignatureLoop_calls px
      ((List.range n).map (entrySig cfg mar.buffer)) lens n 0 0 tr2
    rw [hbody]
    simp only [hv, if_true, true_and]
    rw [(hok hv).2, Nat.zero_add]

/-! ## Two archives that differ only inside the raw signatures -/

theorem entryPos_mono (cfg : MarConfig) (data : List Byte) (i : Nat) :
    ∀ d, entryPos cfg data i + 8 + entryLen cfg data i ≤ entryPos cfg data (i + 1 + d)
  | 0 => by rw [Nat.add_zero, entryPos_succ]
  | d + 1 => by
    have := entryPos_mono cfg data i d
    rw [show i + 1 + (d + 1) = (i + 1 + d) + 1 by omega, entryPos_succ]
    omega

theorem entryPos_lt (cfg : MarConfig) (data : List Byte) (i j : Nat) (h : i < j) :
    entryPos cfg data i + 8 + entryLen cfg data i ≤ entryPos cfg data j := by
  obtain ⟨d, rfl⟩ : ∃ d, j = i + 1 + d := ⟨j - (i + 1), by omega⟩
  exact entryPos_mono cfg data i d

theorem entryPos_le (cfg : MarConfig) (data : List Byte) (i j : Nat) (h : i ≤ j) :
    entryPos cfg data i ≤ entryPos cfg data j := by
  rcases Nat.eq_or_lt_of_le h with rfl | hlt
  · exact Nat.le_refl _
  · have := entryPos_lt cfg data i j hlt
    omega

theorem entryPos_ge (cfg : MarConfig) (data : List Byte) (i : Nat) :
    cfg.SIGNATURE_BLOCK_OFFSET + 4 ≤ entryPos cfg data i :=
  entryPos_le cfg data 0 i (Nat.zero_le _)

/-- The algorithm id and length fields of an entry lie in no raw signature. -/
theorem not_inSignature_of_meta (cfg : MarConfig) (data : List Byte) (n i j : Nat)
    (h1 : entryPos cfg data i ≤ j) (h2 : j < entryPos cfg data i + 8) :
    ¬ inSignature cfg data n j := by
  rintro ⟨i', -, h3, h4⟩
  rcases Nat.lt_or_ge i' i with hlt | hge
  · have := entryPos_lt cfg data i' i hlt
    omega
  · have := entryPos_le cfg data i i' hge
    omega

theorem not_inSignature_of_header (cfg : MarConfig) (data : List Byte) (n j : Nat)
    (h : j < cfg.SIGNATURE_BLOCK_OFFSET + 4) : ¬ inSignature cfg data n j := by
  rintro ⟨i', -, h3, -⟩
  have := entryPos_ge cfg data i'
  omega

theorem not_inSignature_of_rest (cfg : MarConfig) (data : List Byte) (n j : Nat)
    (h : entryPos cfg data n ≤ j) : ¬ inSignature cfg data n j := by
  rintro ⟨i', hi, -, h4⟩
  have := entryPos_lt cfg data i' n hi
  omega

/-- Archives that agree outside the raw signatures have the same layout. -/
theorem layout_congr (cfg : MarConfig) (A B : List Byte) (n : Nat)
    (hagree : ∀ j, ¬ inSignature cfg A n j → A[j]? = B[j]?) :
    ∀ i, entryPos cfg B i = entryPos cfg A i ∧ entryAlg cfg B i = entryAlg cfg A i
      ∧ entryLen cfg B i = entryLen cfg A i := by
  have hmeta : ∀ i, entryPos cfg B i = entryPos cfg A i →
      entryAlg cfg B i = entryAlg cfg A i ∧ entryLen cfg B i = entryLen cfg A i := by
    intro i hp
    unfold entryAlg entryLen be32At
    rw [hp]
    constructor
    · rw [slice_congr B A (entryPos cfg A i) 4 (fun j h1 h2 =>
        (hagree j (not_inSignature_of_meta cfg A n i j h1 (by omega))).symm)]
    · rw [slice_congr B A (entryPos cfg A i + 4) 4 (fun j h1 h2 =>
        (hagree j (not_inSignature_of_meta cfg A n i j (by omega) (by omega))).symm)]
  intro i
  induction i with
  | zero => exact ⟨rfl, hmeta 0 rfl⟩
  | succ i ih =>
    have hp : entryPos cfg B (i + 1) = entryPos cfg A (i + 1) := by
      rw [entryPos_succ, entryPos_succ, ih.1, ih.2.2]
    exact ⟨hp, hmeta (i + 1) hp⟩

theorem countField_congr (cfg : MarConfig) (A B : List Byte) (n : Nat)
    (hagree : ∀ j, ¬ inSignature cfg A n j → A[j]? = B[j]?) :
    countField cfg B = countField cfg A := by
  unfold countField be32At
  rw [slice_congr B A cfg.SIGNATURE_BLOCK_OFFSET 4 (fun j h1 h2 =>
    (hagree j (not_inSignature_of_header cfg A n j (by omega))).symm)]

theorem blockParses_congr (cfg : MarConfig) (A B : List Byte) (n : Nat)
    (hlen : A.length = B.length)
    (hagree : ∀ j, ¬ inSignature cfg A n j → A[j]? = B[j]?) :
    blockParses cfg B = blockParses cfg A := by
  have hl := layout_congr cfg A B n hagree
  have hok : entryOK cfg B = entryOK cfg A := by
    funext i
    simp only [entryOK, (hl i).1, (hl i).2.1, (hl i).2.2, hlen]
  simp only [blockParses, countField_congr cfg A B n hagree, hok, hlen]

theorem signatureBlockLoop_congr (cfg : MarConfig) (px : CryptoX) (A B : MarFile) (c N : Nat)
    (hlen : A.buffer.length = B.buffer.length)
    (hagree : ∀ j, ¬ inSignature cfg A.buffer N j → A.buffer[j]? = B.buffer[j]?) :
    ∀ (n i : Nat) (lens : List Nat) (tr : Trace),
      signatureBlockLoop cfg px B c n (entryPos cfg A.buffer i) lens tr
        = signatureBlockLoop cfg px A c n (entryPos cfg A.buffer i) lens tr := by
  intro n
  induction n with
  | zero => intro i lens tr; rfl
  | succ n ih =>
    intro i lens tr
    rw [signatureBlockLoop, signatureBlockLoop]
    rw [readAndUpdate_congr px B A (entryPos cfg A.buffer i) 4 c _ tr hlen.symm
      (slice_congr _ _ _ _ (fun j h1 h2 =>
        (hagree j (not_inSignature_of_meta cfg A.buffer N i j h1 (by omega))).symm))]
    generalize hr1 : ReadAndUpdateVerifyContext px A (entryPos cfg A.buffer i) 4 c
      .signatureAlgorithmID tr = r1
    obtain ⟨res1, tr1⟩ := r1
    cases res1 with
    | error e => rfl
    | ok v1 =>
      obtain ⟨pos1, b1⟩ := v1
      obtain ⟨-, rfl, -, -⟩ := readAndUpdate_ok px A _ 4 c _ tr tr1 pos1 b1 (by decide) hr1
      simp only
      rw [readAndUpdate_congr px B A (entryPos cfg A.buffer i + 4) 4 c _ tr1 hlen.symm
        (slice_congr _ _ _ _ (fun j h1 h2 =>
          (hagree j (not_inSignature_of_meta cfg A.buffer N i j (by omega) (by omega))).symm))]
      generalize hr2 : ReadAndUpdateVerifyContext px A (entryPos cfg A.buffer i + 4) 4 c
        .signatureLength tr1 = r2
      obtain ⟨res2, tr2⟩ := r2
      cases res2 with
      | error e => rfl
      | ok v2 =>
        obtain ⟨pos2, lb⟩ := v2
        obtain ⟨-, rfl, rfl, -⟩ := readAndUpdate_ok px A _ 4 c _ tr1 tr2 pos2 lb (by decide) hr2
        simp only
        have hl : ntohl (slice A.buffer (entryPos cfg A.buffer i + 4) 4)
            = entryLen cfg A.buffer i := rfl
        rw [hl, mar_buffer_seek_eq, mar_buffer_seek_eq, hlen]
        have hp : entryPos cfg A.buffer i + 4 + 4 + entryLen cfg A.buffer i
            = entryPos cfg A.buffer (i + 1) := by
          have := entryPos_succ cfg A.buffer i; omega
        rw [hp]
        split_ifs
        · rfl
        · exact ih (i + 1) _ tr2
        · rfl

theorem restLoop_congr (cfg : MarConfig) (px : CryptoX) (A B : MarFile) (c N : Nat)
    (hlen : A.buffer.length = B.buffer.length)
    (hagree : ∀ j, ¬ inSignature cfg A.buffer N j → A.buffer[j]? = B.buffer[j]?) :
    ∀ (fuel p : Nat) (tr : Trace), entryPos cfg A.buffer N ≤ p →
      restLoop cfg px B c fuel p tr = restLoop cfg px A c fuel p tr := by
  intro fuel
  induction fuel with
  | zero => intro p tr _; rfl
  | succ fuel ih =>
    intro p tr hp
    have hmax : mar_read_buffer_max B p cfg.BLOCKSIZE = mar_read_buffer_max A p cfg.BLOCKSIZE := by
      simp only [mar_read_buffer_max, MarFile.data_len, hlen]
      rw [slice_congr B.buffer A.buffer p _ (fun j h1 _ =>
        (hagree j (not_inSignature_of_rest cfg A.buffer N j (by omega))).symm)]
    rw [restLoop, restLoop, hmax]
    simp only [MarFile.data_len, hlen]
    split_ifs
    · split
      · rfl
      · apply ih
        simp only [mar_read_buffer_max]
        omega
    · rfl

theorem streamPass_congr (cfg : MarConfig) (px : CryptoX) (A B : MarFile) (N : Nat)
    (hlen : A.buffer.length = B.buffer.length)
    (hagree : ∀ j, ¬ inSignature cfg A.buffer N j → A.buffer[j]? = B.buffer[j]?) (tr : Trace) :
    streamPass cfg px B N tr = streamPass cfg px A N tr := by
  unfold streamPass
  rw [readAndUpdate_congr px B A 0 (cfg.SIGNATURE_BLOCK_OFFSET + 4) N _ tr hlen.symm
    (slice_congr _ _ _ _ (fun j _ h2 =>
      (hagree j (not_inSignature_of_header cfg A.buffer N j (by omega))).symm))]
  generalize hr1 : ReadAndUpdateVerifyContext px A 0 (cfg.SIGNATURE_BLOCK_OFFSET + 4) N
    .signatureBlock tr = r1
  obtain ⟨res1, tr1⟩ := r1
  cases res1 with
  | error e => rfl
  | ok v1 =>
    obtain ⟨pos1, b1⟩ := v1
    obtain ⟨-, rfl, -, -⟩ := readAndUpdate_ok px A 0 _ N _ tr tr1 pos1 b1 (by omega) hr1
    simp only [Nat.zero_add]
    have h2 := signatureBlockLoop_congr cfg px A B N N hlen hagree N 0 [] tr1
    rw [show entryPos cfg A.buffer 0 = cfg.SIGNATURE_BLOCK_OFFSET + 4 from rfl] at h2
    rw [h2]
    generalize hr2 : signatureBlockLoop cfg px A N N (cfg.SIGNATURE_BLOCK_OFFSET + 4) [] tr1 = r2
    obtain ⟨res2, tr2⟩ := r2
    cases res2 with
    | error e => rfl
    | ok v2 =>
      obtain ⟨pos2, lens⟩ := v2
      rw [show cfg.SIGNATURE_BLOCK_OFFSET + 4 = entryPos cfg A.buffer 0 from rfl] at hr2
      obtain ⟨rfl, -, -, -⟩ := signatureBlockLoop_ok cfg px A N N 0 [] tr1 _ _ tr2 hr2
      simp only [streamRest, MarFile.data_len, hlen]
      rw [restLoop_congr cfg px A B N N hlen hagree _ _ tr2 (by rw [Nat.zero_add])]

/-- The `CryptoX_VerifyUpdate` calls of the verification pass depend neither on the
extracted signatures nor on the bytes of the archive inside the raw signatures. -/
theorem verify_extracted_updates_congr (cfg : MarConfig) (px : CryptoX) (A B : MarFile)
    (sigsA sigsB : List (List Byte)) (N : Nat) (tr : Trace)
    (hlen : A.buffer.length = B.buffer.length)
    (hagree : ∀ j, ¬ inSignature cfg A.buffer N j → A.buffer[j]? = B.buffer[j]?) :
    updatesOf (mar_verify_extracted_signatures cfg px B sigsB N tr).trace
      = updatesOf (mar_verify_extracted_signatures cfg px A sigsA N tr).trace := by
  rw [(mar_verify_extracted_signatures_fields cfg px A sigsA N tr).1,
    (mar_verify_extracted_signatures_fields cfg px B sigsB N tr).1, updatesOf_append,
    updatesOf_append]
  congr 1
  unfold verifyExtractedBody
  split_ifs with hn
  · rfl
  · generalize verifyBeginLoop px N 0 tr = rb
    obtain ⟨okb, tr1⟩ := rb
    cases okb with
    | false => rfl
    | true =>
      simp only
      rw [streamPass_congr cfg px A B N hlen hagree tr1]
      generalize streamPass cfg px A N tr1 = rs
      obtain ⟨res, tr2⟩ := rs
      cases res with
      | error e => rfl
      | ok v =>
        obtain ⟨p, lens⟩ := v
        simp only
        have hA := verifySignatureLoop_updatesOf px sigsA lens N 0 0 tr2
        have hB := verifySignatureLoop_updatesOf px sigsB lens N 0 0 tr2
        generalize verifySignatureLoop px sigsA lens N 0 0 tr2 = ra at hA
        generalize verifySignatureLoop px sigsB lens N 0 0 tr2 = rb at hB
        obtain ⟨oka, nva, tra⟩ := ra
        obtain ⟨okb, nvb, trb⟩ := rb
        simp only at hA hB
        cases oka <;> cases okb <;> simp only [hA, hB]

/-! ## The hashed stream determines the hashed bytes -/

/-- Once the finalisation step is reached, every context has been fed the
hashed stream of the archive, and the block was within bounds. -/
theorem verify_extracted_final (cfg : MarConfig) (px : CryptoX) (mar : MarFile)
    (sigs : List (List Byte)) (n : Nat) (tr : Trace)
    (hfinal : signatureCalls (mar_verify_extracted_signatures cfg px mar sigs n tr).trace
      ≠ signatureCalls tr) :
    n ≠ 0 ∧ cfg.SIGNATURE_BLOCK_OFFSET + 4 ≤ mar.buffer.length
      ∧ (∀ j, j < n → entryLen cfg mar.buffer j ≤ cfg.MAX_SIGNATURE_LENGTH
          ∧ entryPos cfg mar.buffer j + 8 + entryLen cfg mar.buffer j ≤ mar.buffer.length)
      ∧ ∀ k, k < n → fedTo k (mar_verify_extracted_signatures cfg px mar sigs n tr).trace
          = fedTo k tr ++ hashedStream cfg mar.buffer n := by
  obtain ⟨htrace, -, -, -⟩ := mar_verify_extracted_signatures_fields cfg px mar sigs n tr
  rw [htrace] at hfinal ⊢
  rcases verifyExtractedBody_cases cfg px mar sigs n tr with h | h
  · exfalso
    apply hfinal
    rw [signatureCalls_append, freeSignatureHandles_signatureCalls, List.append_nil]
    exact h.1
  · obtain ⟨tr1, tr2, p, lens, -, hbegin, hstream, hbody⟩ := h
    rw [hbody]
    simp only
    obtain ⟨hn, hb, hent, -, -, hfed⟩ := streamPass_ok cfg px mar n tr1 tr2 p lens hstream
    refine ⟨hn, hb, hent, fun k hk => ?_⟩
    have hbu := verifyBeginLoop_updatesOf px n 0 tr
    rw [hbegin] at hbu
    have hfree : fedTo k (freeSignatureHandles n) = [] := by
      simp [fedTo, freeSignatureHandles_updatesOf]
    rw [fedTo_append, hfree, List.append_nil,
      fedTo_of_updatesOf k _ _ (verifySignatureLoop_updatesOf px sigs lens n 0 0 tr2),
      hfed k hk, fedTo_of_updatesOf k tr1 tr hbu]

theorem extract_and_verify_final (cfg : MarConfig) (px : CryptoX) (mar : MarFile)
    (keyCount : Nat) (tr : Trace)
    (hfinal : signatureCalls (mar_extract_and_verify_signatures cfg px (some mar) keyCount
      tr).trace ≠ signatureCalls tr) :
    countField cfg mar.buffer ≠ 0 ∧ cfg.SIGNATURE_BLOCK_OFFSET + 4 ≤ mar.buffer.length
      ∧ (∀ j, j < countField cfg mar.buffer →
          entryPos cfg mar.buffer j + 8 + entryLen cfg mar.buffer j ≤ mar.buffer.length)
      ∧ ∀ k, k < countField cfg mar.buffer →
          fedSince tr k (mar_extract_and_verify_signatures cfg px (some mar) keyCount tr).trace
            = hashedStream cfg mar.buffer (countField cfg mar.buffer) := by
  by_cases hb : blockParses cfg mar.buffer = true
  · rw [extract_and_verify_trace cfg px mar keyCount tr hb] at hfinal ⊢
    obtain ⟨hn, hlen, hent, hfed⟩ := verify_extracted_final cfg px mar _ _ tr hfinal
    refine ⟨hn, hlen, fun j hj => (hent j hj).2, fun k hk => ?_⟩
    rw [fedSince, hfed k hk, List.drop_left]
  · exfalso
    simp only [Bool.not_eq_true] at hb
    obtain ⟨e, -, he⟩ := extract_and_verify_of_error cfg px mar keyCount tr hb
    rw [he] at hfinal
    exact hfinal rfl

theorem slice_drop (data : List Byte) (p a b : Nat) :
    (slice data p (a + b)).drop a = slice data (p + a) b := by
  simp [slice, List.drop_take, List.drop_drop]

theorem getElem?_slice (data : List Byte) (p n t : Nat) (h : t < n) :
    (slice data p n)[t]? = data[p + t]? := by
  simp [slice, List.getElem?_take, List.getElem?_drop, h]

theorem blockStream_inj (cfg : MarConfig) (A B : List Byte) :
    ∀ (n i : Nat), entryPos cfg A i = entryPos cfg B i →
      (∀ j, i ≤ j → j < i + n → entryPos cfg A j + 8 ≤ A.length) →
      (∀ j, i ≤ j → j < i + n → entryPos cfg B j + 8 ≤ B.length) →
      ((List.range' i n).map (fun j => slice A (entryPos cfg A j) 8)).flatten
          ++ A.drop (entryPos cfg A (i + n))
        = ((List.range' i n).map (fun j => slice B (entryPos cfg B j) 8)).flatten
          ++ B.drop (entryPos cfg B (i + n)) →
      (∀ j, i ≤ j → j < i + n →
          slice A (entryPos cfg A j) 8 = slice B (entryPos cfg A j) 8)
        ∧ A.drop (entryPos cfg A (i + n)) = B.drop (entryPos cfg A (i + n)) := by
  intro n
  induction n with
  | zero =>
    intro i hp _ _ hS
    simp only [List.range'_zero, List.map_nil, List.flatten_nil, List.nil_append,
      Nat.add_zero] at hS ⊢
    rw [← hp] at hS
    exact ⟨fun j h1 h2 => by omega, hS⟩
  | succ n ih =>
    intro i hp hA hB hS
    rw [List.range'_succ] at hS
    simp only [List.map_cons, List.flatten_cons, List.append_assoc] at hS
    have hAi := hA i (Nat.le_refl _) (by omega)
    have hBi := hB i (Nat.le_refl _) (by omega)
    obtain ⟨h8, hrest⟩ := List.append_inj hS (by
      rw [length_slice A _ 8 hAi, length_slice B _ 8 hBi])
    rw [← hp] at h8
    have hL : entryLen cfg A i = entryLen cfg B i := by
      unfold entryLen be32At
      rw [← hp, ← slice_drop A (entryPos cfg A i) 4 4, ← slice_drop B (entryPos cfg A i) 4 4, h8]
    have hp' : entryPos cfg A (i + 1) = entryPos cfg B (i + 1) := by
      rw [entryPos_succ, entryPos_succ, hp, hL]
    rw [show i + (n + 1) = i + 1 + n by omega] at hrest ⊢
    obtain ⟨h1, h2⟩ := ih (i + 1) hp' (fun j h1 h2 => hA j (by omega) (by omega))
      (fun j h1 h2 => hB j (by omega) (by omega)) hrest
    refine ⟨fun j hj1 hj2 => ?_, h2⟩
    rcases Nat.eq_or_lt_of_le hj1 with rfl | hlt
    · exact h8
    · exact h1 j hlt (by omega)

/-- Two archives of equal length whose blocks are within bounds and whose
hashed streams coincide agree on every byte of the hashed regions. -/
theorem hashedStream_inj (cfg : MarConfig) (A B : List Byte) (hlen : A.length = B.length)
    (hA : cfg.SIGNATURE_BLOCK_OFFSET + 4 ≤ A.length)
    (hentA : ∀ j, j < countField cfg A → entryPos cfg A j + 8 + entryLen cfg A j ≤ A.length)
    (hentB : ∀ j, j < countField cfg B → entryPos cfg B j + 8 + entryLen cfg B j ≤ B.length)
    (hS : hashedStream cfg A (countField cfg A) = hashedStream cfg B (countField cfg B)) :
    ∀ j, inHashedRegion cfg A (countField cfg A) j → A[j]? = B[j]? := by
  unfold hashedStream at hS
  simp only [List.append_assoc] at hS
  obtain ⟨hH, hR⟩ := List.append_inj hS (by
    rw [length_slice A 0 _ (by omega), length_slice B 0 _ (by omega)])
  have hc : countField cfg A = countField cfg B := by
    unfold countField be32At
    have h1 := slice_drop A 0 cfg.SIGNATURE_BLOCK_OFFSET 4
    have h2 := slice_drop B 0 cfg.SIGNATURE_BLOCK_OFFSET 4
    rw [Nat.zero_add] at h1 h2
    rw [← h1, ← h2, hH]
  rw [← hc] at hR hentB
  rw [List.range_eq_range'] at hR
  have hR' := hR
  rw [show entryPos cfg A (countField cfg A) = entryPos cfg A (0 + countField cfg A) by
      rw [Nat.zero_add],
    show entryPos cfg B (countField cfg A) = entryPos cfg B (0 + countField cfg A) by
      rw [Nat.zero_add]] at hR'
  obtain ⟨hmeta, hrest⟩ := blockStream_inj cfg A B (countField cfg A) 0 rfl
    (fun j _ hj => by have := hentA j (by omega); omega)
    (fun j _ hj => by have := hentB j (by omega); omega) hR'
  rw [Nat.zero_add] at hrest
  intro j hj
  rcases hj with hj | ⟨i, hi, h1, h2⟩ | ⟨h1, -⟩
  · have := congrArg (fun l => l[j]?) hH
    simp only [getElem?_slice _ _ _ _ hj, Nat.zero_add] at this
    exact this
  · have := congrArg (fun l => l[j - entryPos cfg A i]?) (hmeta i (Nat.zero_le _) (by omega))
    simp only [getElem?_slice _ _ _ _ (show j - entryPos cfg A i < 8 by omega)] at this
    rw [show entryPos cfg A i + (j - entryPos cfg A i) = j by omega] at this
    exact this
  · have := congrArg (fun l => l[j - entryPos cfg A (countField cfg A)]?) hrest
    simp only [List.getElem?_drop] at this
    rw [show entryPos cfg A (countField cfg A) + (j - entryPos cfg A (countField cfg A)) = j by
      omega] at this
    exact this

theorem verifySignatureLoop_first (px : CryptoX) (sigs : List (List Byte)) (lens : List Nat)
    (n i nv : Nat) (tr : Trace) (hn : n ≠ 0)
    (h : (verifySignatureLoop px sigs lens n i nv tr).1 = true) :
    px tr (.VerifySignature i i (sigs.getD i []) (lens.getD i 0)) = true := by
  cases n with
  | zero => exact absurd rfl hn
  | succ m =>
    rw [verifySignatureLoop] at h
    by_contra hpx
    rw [if_neg hpx] at h
    simp at h

/-- On a success return the first signature check was accepted in a state in
which context 0 had been fed the hashed stream of the archive. -/
theorem extract_and_verify_success_first_call (cfg : MarConfig) (px : CryptoX) (mar : MarFile)
    (keyCount : Nat) (tr : Trace)
    (hs : (mar_extract_and_verify_signatures cfg px (some mar) keyCount tr).rv
      = CryptoX_Success) :
    ∃ t sig len, px t (.VerifySignature 0 0 sig len) = true
      ∧ fedSince tr 0 t = hashedStream cfg mar.buffer (countField cfg mar.buffer) := by
  obtain ⟨-, hv, -, -⟩ := extract_and_verify_success cfg px mar keyCount tr hs
  have hnone := (mar_verify_extracted_signatures_fields cfg px mar _ _ tr).2.2.2.1 hv
  rcases verifyExtractedBody_cases cfg px mar
    ((List.range (countField cfg mar.buffer)).map (entrySig cfg mar.buffer))
    (countField cfg mar.buffer) tr with h | h
  · exact absurd hnone h.2.2
  · obtain ⟨tr1, tr2, p, lens, hn, hbegin, hstream, hbody⟩ := h
    obtain ⟨-, -, -, -, -, hfed⟩ := streamPass_ok cfg px mar _ tr1 tr2 p lens hstream
    have hbu := verifyBeginLoop_updatesOf px (countField cfg mar.buffer) 0 tr
    rw [hbegin] at hbu
    rw [hbody] at hnone
    simp only at hnone
    refine ⟨tr2, ((List.range (countField cfg mar.buffer)).map (entrySig cfg mar.buffer)).getD 0 [],
      lens.getD 0 0, ?_, ?_⟩
    · apply verifySignatureLoop_first px _ lens _ 0 0 tr2 hn
      by_contra hv1
      rw [if_neg hv1] at hnone
      simp at hnone
    · rw [fedSince, hfed 0 (by omega), fedTo_of_updatesOf 0 tr1 tr hbu, List.drop_left]

/-! ## The final loop stops at the first rejected signature -/

/-- The final loop call by call: it verifies the indices before the first
rejected one, the rejected call is its last, and it counts the accepted ones. -/
theorem verifySignatureLoop_attempts (px : CryptoX) (sigs : List (List Byte))
    (lens : List Nat) : ∀ (n i nv : Nat) (tr : Trace), ∃ m ext, m ≤ n
      ∧ (verifySignatureLoop px sigs lens n i nv tr).2.2 = tr ++ ext
      ∧ (verifySignatureLoop px sigs lens n i nv tr).2.1 = nv + m
      ∧ (∀ j, j < m → ∃ t rest,
          (verifySignatureLoop px sigs lens n i nv tr).2.2
              = t ++ .VerifySignature (i + j) (i + j) (sigs.getD (i + j) [])
                  (lens.getD (i + j) 0) :: rest
            ∧ px t (.VerifySignature (i + j) (i + j) (sigs.getD (i + j) [])
                  (lens.getD (i + j) 0)) = true)
      ∧ (((verifySignatureLoop px sigs lens n i nv tr).1 = true ∧ m = n
          ∧ signatureCalls ext = (List.range' i n).map
              (fun j => .VerifySignature j j (sigs.getD j []) (lens.getD j 0)))
        ∨ ((verifySignatureLoop px sigs lens n i nv tr).1 = false ∧ m < n
          ∧ (∃ t, (verifySignatureLoop px sigs lens n i nv tr).2.2
                = t ++ [.VerifySignature (i + m) (i + m) (sigs.getD (i + m) [])
                  (lens.getD (i + m) 0)]
              ∧ px t (.VerifySignature (i + m) (i + m) (sigs.getD (i + m) [])
                  (lens.getD (i + m) 0)) = false)
          ∧ signatureCalls ext = (List.range' i (m + 1)).map
              (fun j => .VerifySignature j j (sigs.getD j []) (lens.getD j 0)))) := by
  intro n
  induction n with
  | zero =>
    intro i nv tr
    exact ⟨0, [], Nat.le_refl _, by simp [verifySignatureLoop], rfl, fun j hj => by omega,
      Or.inl ⟨rfl, rfl, rfl⟩⟩
  | succ n ih =>
    intro i nv tr
    rw [verifySignatureLoop]
    by_cases hpx : px tr (.VerifySignature i i (sigs.getD i []) (lens.getD i 0)) = true
    · rw [if_pos hpx]
      obtain ⟨m, ext, hm, htr, hnv, hacc, hend⟩ := ih (i + 1) (nv + 1)
        (tr ++ [.VerifySignature i i (sigs.getD i []) (lens.getD i 0)])
      refine ⟨m + 1, .VerifySignature i i (sigs.getD i []) (lens.getD i 0) :: ext, by omega,
        by rw [htr]; simp, by rw [hnv]; omega, ?_, ?_⟩
      · intro j hj
        rcases Nat.eq_zero_or_pos j with rfl | hpos
        · exact ⟨tr, ext, by rw [htr]; simp, hpx⟩
        · obtain ⟨t, rest, h1, h2⟩ := hacc (j - 1) (by omega)
          rw [show i + 1 + (j - 1) = i + j by omega] at h1 h2
          exact ⟨t, rest, h1, h2⟩
      · rcases hend with ⟨h1, h2, h3⟩ | ⟨h1, h2, ⟨t, h3, h4⟩, h5⟩
        · left
          refine ⟨h1, by omega, ?_⟩
          rw [List.range'_succ]
          simp [signatureCalls] at h3 ⊢
          exact h3
        · right
          rw [show i + 1 + m = i + (m + 1) by omega] at h3 h4
          refine ⟨h1, by omega, ⟨t, h3, h4⟩, ?_⟩
          rw [List.range'_succ]
          simp [signatureCalls] at h5 ⊢
          exact h5
    · rw [if_neg hpx]
      refine ⟨0, [.VerifySignature i i (sigs.getD i []) (lens.getD i 0)], by omega, rfl, rfl,
        fun j hj => by omega, Or.inr ⟨rfl, by omega, ⟨tr, rfl, by simpa using hpx⟩, ?_⟩⟩
      simp [signatureCalls]

/-! ## Failures before the archive is looked at -/

theorem loadKeysLoop_reject (px : CryptoX) (cd : List (List Byte)) (cs : List Nat) :
    ∀ (n k : Nat) (keys : List Bool) (tr : Trace) (j : Nat), k ≤ j → j < k + n →
      (∀ t, px t (.LoadPublicKey j (cd.getD j []) (cs.getD j 0)) = false) →
      (loadKeysLoop px cd cs n k keys tr).1 = false := by
  intro n
  induction n with
  | zero => intro k keys tr j h1 h2 _; omega
  | succ n ih =>
    intro k keys tr j h1 h2 hrej
    rw [loadKeysLoop]
    split_ifs with hpx
    · rcases Nat.eq_or_lt_of_le h1 with rfl | hlt
      · rw [hrej tr] at hpx
        simp at hpx
      · exact ih (k + 1) _ _ j (by omega) (by omega) hrej
    · rfl

theorem freeKeys_replicate (n certCount : Nat) :
    freeKeys (List.replicate n false) certCount = [] := by
  simp only [freeKeys, List.map_eq_nil_iff, List.filter_eq_nil_iff, List.getD_eq_getElem?_getD,
    List.getElem?_replicate]
  intro a _
  split_ifs <;> simp

/-! ## Which diagnostics each pass can give -/

theorem readAndUpdate_error (px : CryptoX) (mar : MarFile) (p size count : Nat)
    (err : ReadTarget) (tr tr' : Trace) (e : Diag)
    (h : ReadAndUpdateVerifyContext px mar p size count err tr = (.error e, tr')) :
    (e = .invalidParameter ∧ count = 0)
      ∨ (e = .couldNotRead err ∧ ¬ p + size ≤ mar.buffer.length)
      ∨ e = .couldNotUpdateVerifyContext err := by
  unfold ReadAndUpdateVerifyContext at h
  rw [mar_read_buffer_eq] at h
  split_ifs at h with hc hs hb
  · simp only [Prod.mk.injEq, Except.error.injEq] at h
    exact Or.inl ⟨h.1.symm, hc⟩
  · simp at h
  · simp only at h
    split at h
    · simp only [Prod.mk.injEq, Except.error.injEq] at h
      exact Or.inr (Or.inr h.1.symm)
    · simp at h
  · simp only [Prod.mk.injEq, Except.error.injEq] at h
    exact Or.inr (Or.inl ⟨h.1.symm, hb⟩)

theorem readAndUpdate_error_kind (px : CryptoX) (mar : MarFile) (p size count : Nat)
    (err : ReadTarget) (tr tr' : Trace) (e : Diag)
    (h : ReadAndUpdateVerifyContext px mar p size count err tr = (.error e, tr')) :
    e.kind ≠ .policyViolation := by
  rcases readAndUpdate_error px mar p size count err tr tr' e h with ⟨rfl, -⟩ | ⟨rfl, -⟩ | rfl <;>
    simp [Diag.kind]

theorem signatureBlockLoop_error_kind (cfg : MarConfig) (px : CryptoX) (mar : MarFile)
    (c : Nat) : ∀ (n p : Nat) (lens : List Nat) (tr tr' : Trace) (e : Diag),
      signatureBlockLoop cfg px mar c n p lens tr = (.error e, tr') →
        e.kind ≠ .policyViolation := by
  intro n
  induction n with
  | zero => intro p lens tr tr' e h; simp [signatureBlockLoop] at h
  | succ n ih =>
    intro p lens tr tr' e h
    rw [signatureBlockLoop] at h
    split at h
    · rename_i e1 tr1 heq1
      simp only [Prod.mk.injEq, Except.error.injEq] at h
      rw [← h.1]
      exact readAndUpdate_error_kind _ _ _ _ _ _ _ _ _ heq1
    · split at h
      · rename_i e2 tr2 heq2
        simp only [Prod.mk.injEq, Except.error.injEq] at h
        rw [← h.1]
        exact readAndUpdate_error_kind _ _ _ _ _ _ _ _ _ heq2
      · split_ifs at h
        · simp only [Prod.mk.injEq, Except.error.injEq] at h
          rw [← h.1]; simp [Diag.kind]
        · split at h
          · simp only [Prod.mk.injEq, Except.error.injEq] at h
            rw [← h.1]; simp [Diag.kind]
          · exact ih _ _ _ _ _ h

theorem restLoop_error (cfg : MarConfig) (px : CryptoX) (mar : MarFile) (c : Nat) :
    ∀ (fuel p : Nat) (tr tr' : Trace) (e : Diag),
      restLoop cfg px mar c fuel p tr = (.error e, tr') → e = .errorUpdatingWithDataBlock := by
  intro fuel
  induction fuel with
  | zero => intro p tr tr' e h; simp [restLoop] at h
  | succ fuel ih =>
    intro p tr tr' e h
    rw [restLoop] at h
    split_ifs at h
    · split at h
      · simp only [Prod.mk.injEq, Except.error.injEq] at h
        exact h.1.symm
      · exact ih _ _ _ _ h
    · simp at h

theorem streamPass_error_kind (cfg : MarConfig) (px : CryptoX) (mar : MarFile) (n : Nat)
    (tr tr' : Trace) (e : Diag) (h : streamPass cfg px mar n tr = (.error e, tr')) :
    e.kind ≠ .policyViolation := by
  unfold streamPass at h
  split at h
  · rename_i e1 tr1 heq1
    simp only [Prod.mk.injEq, Except.error.injEq] at h
    rw [← h.1]
    exact readAndUpdate_error_kind _ _ _ _ _ _ _ _ _ heq1
  · split at h
    · rename_i e2 tr2 heq2
      simp only [Prod.mk.injEq, Except.error.injEq] at h
      rw [← h.1]
      exact signatureBlockLoop_error_kind _ _ _ _ _ _ _ _ _ _ heq2
    · unfold streamRest at h
      split at h
      · rename_i e3 tr3 heq3
        simp only [Prod.mk.injEq, Except.error.injEq] at h
        rw [← h.1, restLoop_error _ _ _ _ _ _ _ _ _ heq3]
        simp [Diag.kind]
      · simp at h

theorem verifyExtractedBody_kind (cfg : MarConfig) (px : CryptoX) (mar : MarFile)
    (sigs : List (List Byte)) (n : Nat) (tr : Trace) (e : Diag)
    (h : (verifyExtractedBody cfg px mar sigs n tr).1 = some e) :
    e.kind ≠ .policyViolation := by
  unfold verifyExtractedBody at h
  split_ifs at h
  · simp only [Option.some.injEq] at h
    rw [← h]; simp [Diag.kind]
  · split at h
    · simp only [Option.some.injEq] at h
      rw [← h]; simp [Diag.kind]
    · split at h
      · rename_i e2 tr2 heq2
        simp only [Option.some.injEq] at h
        rw [← h]
        exact streamPass_error_kind _ _ _ _ _ _ _ heq2
      · split at h
        · simp only [Option.some.injEq] at h
          rw [← h]; simp [Diag.kind]
        · simp at h

theorem extractLoop_error_kind (cfg : MarConfig) (mar : MarFile) :
    ∀ (n p : Nat) (ids : List Nat) (sigs : List (List Byte)) (e : Diag),
      extractLoop cfg mar n p ids sigs = .error e →
        e.kind = .ioFailure ∨ e.kind = .malformedArchive := by
  intro n
  induction n with
  | zero => intro p ids sigs e h; simp [extractLoop] at h
  | succ n ih =>
    intro p ids sigs e h
    rw [extractLoop] at h
    split at h
    · simp only [Except.error.injEq] at h
      rw [← h]; simp [Diag.kind]
    · split at h
      · simp only [Except.error.injEq] at h
        rw [← h]; simp [Diag.kind]
      · split_ifs at h
        · simp only [Except.error.injEq] at h
          rw [← h]; simp [Diag.kind]
        · split at h <;>
          · simp only [Except.error.injEq] at h
            rw [← h]; simp [Diag.kind]
        · split at h
          · simp only [Except.error.injEq] at h
            rw [← h]; simp [Diag.kind]
          · exact ih _ _ _ _ h

theorem mar_extract_signatures_error_kind (cfg : MarConfig) (mar : MarFile) (e : Diag)
    (h : mar_extract_signatures cfg mar = .error e) :
    e.kind = .ioFailure ∨ e.kind = .malformedArchive := by
  unfold mar_extract_signatures at h
  split at h
  · simp only [Except.error.injEq] at h
    rw [← h]; simp [Diag.kind]
  · split at h
    · simp only [Except.error.injEq] at h
      rw [← h]; simp [Diag.kind]
    · split_ifs at h
      · simp only [Except.error.injEq] at h
        rw [← h]; simp [Diag.kind]
      · split at h
        · rename_i e1 heq1
          simp only [Except.error.injEq] at h
          rw [← h]
          exact extractLoop_error_kind _ _ _ _ _ _ _ heq1
        · simp at h

/-! ## The verification pass on a block that was extracted -/

theorem mar_extract_signatures_ok_inv (cfg : MarConfig) (mar : MarFile) (ex : Extracted)
    (h : mar_extract_signatures cfg mar = .ok ex) :
    blockParses cfg mar.buffer = true ∧ ex = extractedOf cfg mar.buffer := by
  have ht := mar_extract_signatures_toOption cfg mar
  rw [h] at ht
  by_cases hb : blockParses cfg mar.buffer = true
  · rw [if_pos hb] at ht
    simp only [Except.toOption, Option.some.injEq] at ht
    exact ⟨hb, ht⟩
  · rw [if_neg hb] at ht
    simp [Except.toOption] at ht

theorem signatureBlockLoop_error_parsed (cfg : MarConfig) (px : CryptoX) (mar : MarFile)
    (c : Nat) (hc : c ≠ 0) :
    ∀ (n i : Nat) (lens : List Nat) (tr tr' : Trace) (e : Diag),
      (∀ j, i ≤ j → j < i + n →
          entryLen cfg mar.buffer j ≤ cfg.MAX_SIGNATURE_LENGTH
            ∧ entryPos cfg mar.buffer j + 8 + entryLen cfg mar.buffer j ≤ mar.buffer.length) →
      signatureBlockLoop cfg px mar c n (entryPos cfg mar.buffer i) lens tr = (.error e, tr') →
        ∃ w, e = .couldNotUpdateVerifyContext w := by
  intro n
  induction n with
  | zero => intro i lens tr tr' e _ h; simp [signatureBlockLoop] at h
  | succ n ih =>
    intro i lens tr tr' e hent h
    obtain ⟨hmax, hin⟩ := hent i (Nat.le_refl _) (by omega)
    rw [signatureBlockLoop] at h
    split at h
    · rename_i e1 tr1 heq1
      simp only [Prod.mk.injEq, Except.error.injEq] at h
      rcases readAndUpdate_error _ _ _ _ _ _ _ _ _ heq1 with ⟨-, h0⟩ | ⟨-, hb⟩ | he
      · exact absurd h0 hc
      · omega
      · exact ⟨_, h.1.symm.trans he⟩
    · rename_i pos1 b1 tr1 heq1
      obtain ⟨-, rfl, -, -⟩ := readAndUpdate_ok px mar _ 4 c _ tr tr1 pos1 b1 (by decide) heq1
      split at h
      · rename_i e2 tr2 heq2
        simp only [Prod.mk.injEq, Except.error.injEq] at h
        rcases readAndUpdate_error _ _ _ _ _ _ _ _ _ heq2 with ⟨-, h0⟩ | ⟨-, hb⟩ | he
        · exact absurd h0 hc
        · omega
        · exact ⟨_, h.1.symm.trans he⟩
      · rename_i pos2 lb tr2 heq2
        obtain ⟨-, rfl, rfl, -⟩ := readAndUpdate_ok px mar _ 4 c _ tr1 tr2 pos2 lb (by decide) heq2
        have hl : ntohl (slice mar.buffer (entryPos cfg mar.buffer i + 4) 4)
            = entryLen cfg mar.buffer i := rfl
        have hseek : entryPos cfg mar.buffer i + 4 + 4 + entryLen cfg mar.buffer i
            ≤ mar.buffer.length := by omega
        rw [hl, if_neg (show ¬ entryLen cfg mar.buffer i > cfg.MAX_SIGNATURE_LENGTH by omega),
          mar_buffer_seek_eq, if_pos hseek] at h
        have hp : entryPos cfg mar.buffer i + 4 + 4 + entryLen cfg mar.buffer i
            = entryPos cfg mar.buffer (i + 1) := by
          have := entryPos_succ cfg mar.buffer i; omega
        rw [hp] at h
        exact ih (i + 1) _ tr2 tr' e (fun j h1 h2 => hent j (by omega) (by omega)) h

theorem streamPass_error_parsed (cfg : MarConfig) (px : CryptoX) (mar : MarFile) (n : Nat)
    (tr tr' : Trace) (e : Diag) (hn : n ≠ 0)
    (hb : cfg.SIGNATURE_BLOCK_OFFSET + 4 ≤ mar.buffer.length)
    (hent : ∀ j, j < n → entryLen cfg mar.buffer j ≤ cfg.MAX_SIGNATURE_LENGTH
      ∧ entryPos cfg mar.buffer j + 8 + entryLen cfg mar.buffer j ≤ mar.buffer.length)
    (h : streamPass cfg px mar n tr = (.error e, tr')) :
    (∃ w, e = .couldNotUpdateVerifyContext w) ∨ e = .errorUpdatingWithDataBlock := by
  unfold streamPass at h
  split at h
  · rename_i e1 tr1 heq1
    simp only [Prod.mk.injEq, Except.error.injEq] at h
    rcases readAndUpdate_error _ _ _ _ _ _ _ _ _ heq1 with ⟨-, h0⟩ | ⟨-, hbad⟩ | he
    · exact absurd h0 hn
    · omega
    · exact Or.inl ⟨_, h.1.symm.trans he⟩
  · rename_i pos1 b1 tr1 heq1
    obtain ⟨-, rfl, -, -⟩ := readAndUpdate_ok px mar 0 _ n _ tr tr1 pos1 b1 (by omega) heq1
    rw [Nat.zero_add] at h
    split at h
    · rename_i e2 tr2 heq2
      simp only [Prod.mk.injEq, Except.error.injEq] at h
      rw [show cfg.SIGNATURE_BLOCK_OFFSET + 4 = entryPos cfg mar.buffer 0 from rfl] at heq2
      obtain ⟨w, hw⟩ := signatureBlockLoop_error_parsed cfg px mar n hn n 0 [] tr1 tr2 e2
        (fun j _ hj => hent j (by omega)) heq2
      exact Or.inl ⟨w, h.1.symm.trans hw⟩
    · unfold streamRest at h
      split at h
      · rename_i e3 tr3 heq3
        simp only [Prod.mk.injEq, Except.error.injEq] at h
        exact Or.inr (h.1.symm.trans (restLoop_error _ _ _ _ _ _ _ _ _ heq3))
      · simp at h

theorem verifyExtractedBody_parsed (cfg : MarConfig) (px : CryptoX) (mar : MarFile)
    (sigs : List (List Byte)) (n : Nat) (tr : Trace) (e : Diag) (hn : n ≠ 0)
    (hb : cfg.SIGNATURE_BLOCK_OFFSET + 4 ≤ mar.buffer.length)
    (hent : ∀ j, j < n → entryLen cfg mar.buffer j ≤ cfg.MAX_SIGNATURE_LENGTH
      ∧ entryPos cfg mar.buffer j + 8 + entryLen cfg mar.buffer j ≤ mar.buffer.length)
    (h : (verifyExtractedBody cfg px mar sigs n tr).1 = some e) :
    e = .couldNotInitSignatureHandle ∨ (∃ w, e = .couldNotUpdateVerifyContext w)
      ∨ e = .errorUpdatingWithDataBlock ∨ e = .errorVerifyingSignature := by
  unfold verifyExtractedBody at h
  rw [if_neg hn] at h
  split at h
  · simp only [Option.some.injEq] at h
    exact Or.inl h.symm
  · split at h
    · rename_i e2 tr2 heq2
      simp only [Option.some.injEq] at h
      rcases streamPass_error_parsed cfg px mar n _ _ e2 hn hb hent heq2 with ⟨w, hw⟩ | hw
      · exact Or.inr (Or.inl ⟨w, h.symm.trans hw⟩)
      · exact Or.inr (Or.inr (Or.inl (h.symm.trans hw)))
    · split at h
      · simp only [Option.some.injEq] at h
        exact Or.inr (Or.inr (Or.inr h.symm))
      · simp at h

/-! ## The remainder loop, chunk by chunk -/

theorem chunkCount_end (cfg : MarConfig) (dataLen p : Nat) (h : dataLen ≤ p) :
    chunkCount cfg dataLen p = 0 := by
  have hB := cfg.BLOCKSIZE_pos
  unfold chunkCount
  apply Nat.div_eq_of_lt
  omega

theorem chunkCount_step (cfg : MarConfig) (dataLen p : Nat) (h : p < dataLen) :
    chunkCount cfg dataLen p
      = chunkCount cfg dataLen (p + min cfg.BLOCKSIZE (dataLen - p)) + 1 := by
  have hB := cfg.BLOCKSIZE_pos
  unfold chunkCount
  rcases Nat.lt_or_ge (dataLen - p) cfg.BLOCKSIZE with hlt | hge
  · rw [Nat.min_eq_right (Nat.le_of_lt hlt)]
    have h1 : (dataLen - (p + (dataLen - p)) + cfg.BLOCKSIZE - 1) / cfg.BLOCKSIZE = 0 := by
      apply Nat.div_eq_of_lt
      omega
    rw [h1]
    apply Nat.div_eq_of_lt_le <;> omega
  · rw [Nat.min_eq_left hge]
    have h1 : dataLen - p + cfg.BLOCKSIZE - 1
        = (dataLen - (p + cfg.BLOCKSIZE) + cfg.BLOCKSIZE - 1) + cfg.BLOCKSIZE := by omega
    rw [h1, Nat.add_div_right _ hB]

theorem slice_min (data : List Byte) (p n : Nat) :
    slice data p (min n (data.length - p)) = slice data p n := by
  simp only [slice]
  rw [← List.length_drop, List.take_eq_take]
  simp [Nat.min_assoc]

theorem verifyUpdateLoop_updatesOf (px : CryptoX) (buf : List Byte)
    (h : ∀ t k, px t (.VerifyUpdate k buf) = true) :
    ∀ (n k : Nat) (tr : Trace),
      verifyUpdateLoop px buf n k tr
        = (true, (verifyUpdateLoop px buf n k tr).2)
      ∧ updatesOf (verifyUpdateLoop px buf n k tr).2
        = updatesOf tr ++ (List.range' k n).map (fun j => (j, buf)) := by
  intro n
  induction n with
  | zero => intro k tr; simp [verifyUpdateLoop]
  | succ n ih =>
    intro k tr
    rw [verifyUpdateLoop, if_pos (h tr k)]
    obtain ⟨h1, h2⟩ := ih (k + 1) (tr ++ [.VerifyUpdate k buf])
    refine ⟨h1, ?_⟩
    rw [h2, List.range'_succ]
    simp [updatesOf]

/-- With updates that succeed, `fuel` iterations of the remainder loop move the
cursor by `fuel` chunks, or to the end of the buffer if that comes first, and
feed every context one chunk per iteration. -/
theorem restLoop_exact (cfg : MarConfig) (px : CryptoX) (mar : MarFile) (N : Nat)
    (hupd : ∀ t k b, px t (.VerifyUpdate k b) = true) :
    ∀ (fuel p : Nat) (tr : Trace), p ≤ mar.buffer.length →
      (restLoop cfg px mar N fuel p tr).1
          = .ok (min mar.buffer.length (p + fuel * cfg.BLOCKSIZE))
        ∧ updatesOf (restLoop cfg px mar N fuel p tr).2
          = updatesOf tr ++ (List.range (min fuel (chunkCount cfg mar.buffer.length p))).flatMap
              (fun i => (List.range N).map (fun k => (k, chunkAt cfg mar.buffer p i))) := by
  have hB := cfg.BLOCKSIZE_pos
  intro fuel
  induction fuel with
  | zero =>
    intro p tr hp
    simp [restLoop, Nat.min_eq_right hp]
  | succ fuel ih =>
    intro p tr hp
    rw [restLoop]
    by_cases hlt : p < mar.data_len
    · rw [if_pos hlt]
      simp only [MarFile.data_len] at hlt
      have hchunk : (mar_read_buffer_max mar p cfg.BLOCKSIZE).1 = chunkAt cfg mar.buffer p 0 := by
        simp only [mar_read_buffer_max, MarFile.data_len, chunkAt, Nat.zero_mul, Nat.add_zero]
        exact slice_min _ _ _
      have hpos : (mar_read_buffer_max mar p cfg.BLOCKSIZE).2
          = p + min cfg.BLOCKSIZE (mar.buffer.length - p) := rfl
      obtain ⟨hu1, hu2⟩ := verifyUpdateLoop_updatesOf px
        (mar_read_buffer_max mar p cfg.BLOCKSIZE).1 (fun t k => hupd t k _) N 0 tr
      rw [hu1]
      simp only
      have hle : (mar_read_buffer_max mar p cfg.BLOCKSIZE).2 ≤ mar.buffer.length := by
        rw [hpos]
        rcases Nat.lt_or_ge (mar.buffer.length - p) cfg.BLOCKSIZE with hs | hs
        · rw [Nat.min_eq_right (Nat.le_of_lt hs)]; omega
        · rw [Nat.min_eq_left hs]; omega
      obtain ⟨h1, h2⟩ := ih (mar_read_buffer_max mar p cfg.BLOCKSIZE).2
        (verifyUpdateLoop px (mar_read_buffer_max mar p cfg.BLOCKSIZE).1 N 0 tr).2 hle
      rw [h1, h2, hu2, hchunk, hpos, chunkCount_step cfg _ p hlt, Nat.succ_min_succ,
        List.range_succ_eq_map, List.flatMap_cons, List.append_assoc, ← List.range_eq_range']
      constructor
      · congr 1
        rcases Nat.lt_or_ge (mar.buffer.length - p) cfg.BLOCKSIZE with hs | hs
        · rw [Nat.min_eq_right (Nat.le_of_lt hs)]
          have : p + (fuel + 1) * cfg.BLOCKSIZE = p + cfg.BLOCKSIZE + fuel * cfg.BLOCKSIZE := by
            rw [Nat.succ_mul]; omega
          rw [this, Nat.min_eq_left (by omega), Nat.min_eq_left (by omega)]
        · rw [Nat.min_eq_left hs]
          congr 1
          rw [Nat.succ_mul]; omega
      · congr 2
        rw [List.flatMap_map]
        rcases Nat.lt_or_ge (mar.buffer.length - p) cfg.BLOCKSIZE with hs | hs
        · rw [Nat.min_eq_right (Nat.le_of_lt hs),
            chunkCount_end cfg _ _ (by omega : mar.buffer.length ≤ p + (mar.buffer.length - p))]
          simp
        · rw [Nat.min_eq_left hs]
          apply List.flatMap_congr
          intro i _
          have hi : p + cfg.BLOCKSIZE + i * cfg.BLOCKSIZE = p + (i + 1) * cfg.BLOCKSIZE := by
            rw [Nat.succ_mul]; omega
          simp only [Function.comp, chunkAt, hi]
    · rw [if_neg hlt]
      simp only [MarFile.data_len] at hlt
      have hpe : p = mar.buffer.length := by omega
      rw [chunkCount_end cfg _ _ (by omega)]
      simp only [Nat.min_zero, List.range_zero, List.flatMap_nil, List.append_nil, and_true]
      congr 1
      rw [Nat.min_eq_left (by omega)]
      exact hpe

/-- Once the loop has left through its condition, more iterations change nothing. -/
theorem restLoop_extra (cfg : MarConfig) (px : CryptoX) (mar : MarFile) (N : Nat) :
    ∀ (fuel p : Nat) (tr : Trace) (q : Nat), (restLoop cfg px mar N fuel p tr).1 = .ok q →
      mar.buffer.length ≤ q →
      ∀ extra, restLoop cfg px mar N (fuel + extra) p tr = restLoop cfg px mar N fuel p tr := by
  intro fuel
  induction fuel with
  | zero =>
    intro p tr q h hq extra
    simp only [restLoop, Except.ok.injEq] at h
    subst h
    cases extra with
    | zero => rfl
    | succ e =>
      have hnot : ¬ p < mar.data_len := by simp only [MarFile.data_len]; omega
      rw [Nat.zero_add]
      conv_lhs => rw [restLoop, if_neg hnot]
      rfl
  | succ fuel ih =>
    intro p tr q h hq extra
    rw [show fuel + 1 + extra = (fuel + extra) + 1 by omega]
    conv_lhs => rw [restLoop]
    conv_rhs => rw [restLoop]
    rw [restLoop] at h
    by_cases hlt : p < mar.data_len
    · simp only [if_pos hlt] at h ⊢
      generalize verifyUpdateLoop px (mar_read_buffer_max mar p cfg.BLOCKSIZE).1 N 0 tr
        = r at h ⊢
      obtain ⟨ok, tr1⟩ := r
      cases ok with
      | false => rfl
      | true => exact ih _ _ q h hq extra
    · simp only [if_neg hlt]

theorem chunkCount_mul_ge (cfg : MarConfig) (dataLen p : Nat) :
    dataLen - p ≤ chunkCount cfg dataLen p * cfg.BLOCKSIZE := by
  have hB := cfg.BLOCKSIZE_pos
  have h := (Nat.div_lt_iff_lt_mul hB).1 (Nat.lt_succ_self (chunkCount cfg dataLen p))
  unfold chunkCount at h ⊢
  rw [Nat.succ_mul] at h
  omega

theorem lt_chunkCount (cfg : MarConfig) (dataLen p i : Nat) (h : i < chunkCount cfg dataLen p) :
    p + i * cfg.BLOCKSIZE < dataLen := by
  have hB := cfg.BLOCKSIZE_pos
  have h1 := (Nat.le_div_iff_mul_le hB).1 (Nat.succ_le_of_lt h)
  rw [Nat.succ_mul] at h1
  omega

theorem flatten_chunks (cfg : MarConfig) (data : List Byte) (p : Nat) : ∀ n,
    ((List.range n).map (chunkAt cfg data p)).flatten = slice data p (n * cfg.BLOCKSIZE)
  | 0 => by simp [slice]
  | n + 1 => by
    rw [List.range_succ, List.map_append, List.flatten_append, flatten_chunks cfg data p n,
      Nat.succ_mul, slice_add]
    simp [chunkAt]

/-! ## Truncated archives -/

theorem slice_take (data : List Byte) (n p k : Nat) (h : p + k ≤ n) :
    slice (data.take n) p k = slice data p k := by
  apply slice_congr
  intro j _ hj
  rw [List.getElem?_take, if_pos (by omega)]

/-- The extraction loop on a truncation `A` of an archive `F` whose entries are
acceptable: it can only fail at a read, and when it succeeds the block of `F`
ends inside `A`. -/
theorem extractLoop_truncated (cfg : MarConfig) (F A : MarFile)
    (hpre : ∀ p k, p + k ≤ A.buffer.length → slice A.buffer p k = slice F.buffer p k) :
    ∀ (k i : Nat) (ids : List Nat) (sigs : List (List Byte)),
      (∀ j, i ≤ j → j < i + k → entryOK cfg F.buffer j = true) →
      (∃ e, extractLoop cfg A k (entryPos cfg F.buffer i) ids sigs = .error e
          ∧ e.kind = .ioFailure)
        ∨ ((∃ r, extractLoop cfg A k (entryPos cfg F.buffer i) ids sigs = .ok r)
          ∧ (entryPos cfg F.buffer i ≤ A.buffer.length →
              entryPos cfg F.buffer (i + k) ≤ A.buffer.length)) := by
  intro k
  induction k with
  | zero => intro i ids sigs _; exact Or.inr ⟨⟨_, rfl⟩, fun h => h⟩
  | succ k ih =>
    intro i ids sigs hok
    obtain ⟨halg, hmax, -⟩ := (entryOK_iff _ _ _).1 (hok i (Nat.le_refl _) (by omega))
    rw [extractLoop, mar_read_buffer_eq]
    by_cases h1 : entryPos cfg F.buffer i + 4 ≤ A.buffer.length
    · rw [if_pos h1]
      simp only
      rw [mar_read_buffer_eq]
      by_cases h2 : entryPos cfg F.buffer i + 4 + 4 ≤ A.buffer.length
      · rw [if_pos h2]
        simp only
        have hl : ntohl (slice A.buffer (entryPos cfg F.buffer i + 4) 4)
            = entryLen cfg F.buffer i := by
          rw [hpre _ _ h2]; rfl
        have ha : ntohl (slice A.buffer (entryPos cfg F.buffer i) 4)
            = entryAlg cfg F.buffer i := by
          rw [hpre _ _ h1]; rfl
        rw [hl, ha, if_neg (show ¬ entryLen cfg F.buffer i > cfg.MAX_SIGNATURE_LENGTH by omega),
          mar_read_buffer_eq]
        by_cases h3 : entryPos cfg F.buffer i + 4 + 4 + entryLen cfg F.buffer i
            ≤ A.buffer.length
        · rw [if_pos h3]
          simp only
          rw [if_neg (by simp [halg])]
          have hp : entryPos cfg F.buffer i + 4 + 4 + entryLen cfg F.buffer i
              = entryPos cfg F.buffer (i + 1) := by
            have := entryPos_succ cfg F.buffer i; omega
          rw [hp]
          rcases ih (i + 1) (ids ++ [entryAlg cfg F.buffer i])
            (sigs ++ [slice A.buffer (entryPos cfg F.buffer i + 4 + 4) (entryLen cfg F.buffer i)])
            (fun j h1 h2 => hok j (by omega) (by omega)) with h | ⟨h, hend⟩
          · exact Or.inl h
          · refine Or.inr ⟨h, fun _ => ?_⟩
            rw [show i + (k + 1) = i + 1 + k by omega]
            exact hend (by omega)
        · rw [if_neg h3]
          exact Or.inl ⟨_, rfl, rfl⟩
      · rw [if_neg h2]
        exact Or.inl ⟨_, rfl, rfl⟩
    · rw [if_neg h1]
      exact Or.inl ⟨_, rfl, rfl⟩

/-- The extraction pass on a truncation `A` of a well-formed archive `F` that ends
before the signature block of `F` does: it fails at a read or seek. -/
theorem mar_extract_signatures_truncated (cfg : MarConfig) (F A : MarFile)
    (hpre : ∀ p k, p + k ≤ A.buffer.length → slice A.buffer p k = slice F.buffer p k)
    (hF : blockParses cfg F.buffer = true)
    (hshort : A.buffer.length < entryPos cfg F.buffer (countField cfg F.buffer)) :
    ∃ e, mar_extract_signatures cfg A = .error e ∧ e.kind = .ioFailure := by
  obtain ⟨-, hmax, hent⟩ := (blockParses_iff cfg F.buffer).1 hF
  unfold mar_extract_signatures
  rw [mar_buffer_seek_eq, Nat.zero_add]
  by_cases h0 : cfg.SIGNATURE_BLOCK_OFFSET ≤ A.buffer.length
  · rw [if_pos h0]
    simp only
    rw [mar_read_buffer_eq]
    by_cases h1 : cfg.SIGNATURE_BLOCK_OFFSET + 4 ≤ A.buffer.length
    · rw [if_pos h1]
      simp only
      have hc : ntohl (slice A.buffer cfg.SIGNATURE_BLOCK_OFFSET 4) = countField cfg F.buffer := by
        rw [hpre _ _ h1]; rfl
      rw [hc, if_neg (show ¬ countField cfg F.buffer > cfg.MAX_SIGNATURES by omega)]
      rcases extractLoop_truncated cfg F A hpre (countField cfg F.buffer) 0 [] []
        (fun j _ hj => (entryOK_iff _ _ _).2 (hent j (by omega))) with ⟨e, he, hk⟩ | ⟨-, hend⟩
      · rw [show entryPos cfg F.buffer 0 = cfg.SIGNATURE_BLOCK_OFFSET + 4 from rfl] at he
        rw [he]
        exact ⟨e, rfl, hk⟩
      · exfalso
        have := hend h1
        rw [Nat.zero_add] at this
        omega
    · rw [if_neg h1]
      exact ⟨_, rfl, rfl⟩
  · rw [if_neg h0]
    exact ⟨_, rfl, rfl⟩

/-- A truncation `A` of a well-formed archive `F` that keeps the whole signature
block has the layout of `F` and parses. -/
theorem blockParses_truncated (cfg : MarConfig) (F A : MarFile)
    (hpre : ∀ p k, p + k ≤ A.buffer.length → slice A.buffer p k = slice F.buffer p k)
    (hF : blockParses cfg F.buffer = true)
    (hlong : entryPos cfg F.buffer (countField cfg F.buffer) ≤ A.buffer.length) :
    blockParses cfg A.buffer = true ∧ countField cfg A.buffer = countField cfg F.buffer := by
  obtain ⟨-, hmax, hent⟩ := (blockParses_iff cfg F.buffer).1 hF
  have hE := entryPos_ge cfg F.buffer (countField cfg F.buffer)
  have hcount : countField cfg A.buffer = countField cfg F.buffer := by
    unfold countField be32At
    rw [hpre _ _ (by omega)]
  have hpos : ∀ i, i ≤ countField cfg F.buffer →
      entryPos cfg A.buffer i = entryPos cfg F.buffer i := by
    intro i
    induction i with
    | zero => intro _; rfl
    | succ i ih =>
      intro hi
      have hlt := entryPos_lt cfg F.buffer i (countField cfg F.buffer) (by omega)
      rw [entryPos_succ, entryPos_succ, entryLen, entryLen, ih (by omega), be32At, be32At,
        hpre _ _ (by omega)]
  rw [blockParses_iff, hcount]
  refine ⟨⟨by omega, hmax, fun i hi => ?_⟩, rfl⟩
  have hlt := entryPos_lt cfg F.buffer i (countField cfg F.buffer) hi
  obtain ⟨h1, h2, -⟩ := hent i hi
  have ha : entryAlg cfg A.buffer i = entryAlg cfg F.buffer i := by
    rw [entryAlg, entryAlg, hpos i (by omega), be32At, be32At, hpre _ _ (by omega)]
  have hl : entryLen cfg A.buffer i = entryLen cfg F.buffer i := by
    rw [entryLen, entryLen, hpos i (by omega), be32At, be32At, hpre _ _ (by omega)]
  rw [ha, hl, hpos i (by omega)]
  exact ⟨h1, h2, by omega⟩

/-- With a provider that opens the contexts and accepts the updates, the
verification pass on a block within bounds reaches its finalisation step. -/
theorem verify_extracted_reaches_final (cfg : MarConfig) (px : CryptoX) (mar : MarFile)
    (sigs : List (List Byte)) (n : Nat) (tr : Trace) (hn : n ≠ 0)
    (hb : cfg.SIGNATURE_BLOCK_OFFSET + 4 ≤ mar.buffer.length)
    (hent : ∀ j, j < n → entryLen cfg mar.buffer j ≤ cfg.MAX_SIGNATURE_LENGTH
      ∧ entryPos cfg mar.buffer j + 8 + entryLen cfg mar.buffer j ≤ mar.buffer.length)
    (hbegin : ∀ t i, px t (.VerifyBegin i i) = true)
    (hupd : ∀ t k b, px t (.VerifyUpdate k b) = true) :
    signatureCalls (mar_verify_extracted_signatures cfg px mar sigs n tr).trace
      ≠ signatureCalls tr := by
  rw [(mar_verify_extracted_signatures_fields cfg px mar sigs n tr).1, signatureCalls_append,
    freeSignatureHandles_signatureCalls, List.append_nil]
  have hbl := verifyBeginLoop_accept px n 0 tr (fun t j _ _ => hbegin t j)
  have hbs := verifyBeginLoop_signatureCalls px n 0 tr
  unfold verifyExtractedBody
  rw [if_neg hn]
  generalize verifyBeginLoop px n 0 tr = rb at hbl hbs
  obtain ⟨okb, tr1⟩ := rb
  simp only at hbl hbs
  subst hbl
  simp only
  obtain ⟨r, tr2, hs⟩ := streamPass_accept cfg px mar n tr1 hupd hn hb hent
  obtain ⟨p, lens⟩ := r
  have hss := streamPass_signatureCalls cfg px mar n tr1
  rw [hs] at hss ⊢
  simp only at hss ⊢
  obtain ⟨m, ext, -, hext, -, -, hend⟩ := verifySignatureLoop_attempts px sigs lens n 0 0 tr2
  have hne : signatureCalls ext ≠ [] := by
    obtain ⟨n', rfl⟩ := Nat.exists_eq_succ_of_ne_zero hn
    rcases hend with ⟨-, -, h3⟩ | ⟨-, -, -, h3⟩ <;>
      · rw [h3, List.range'_succ]
        simp
  have hgoal : signatureCalls (verifySignatureLoop px sigs lens n 0 0 tr2).2.2
      ≠ signatureCalls tr := by
    rw [hext, signatureCalls_append, hss, hbs]
    intro h
    exact hne (List.append_right_eq_self.1 h)
  generalize verifySignatureLoop px sigs lens n 0 0 tr2 = rv at hgoal
  obtain ⟨okv, nv, tr3⟩ := rv
  cases okv <;> exact hgoal

/-! ## Live signature buffers -/

/-- The heap-tracking loop takes the branches of the extraction loop: it runs to
its end exactly when the extraction loop succeeds, on the same cursor. -/
theorem extractLoopLive_cursor (cfg : MarConfig) (mar : MarFile) (c : Nat) :
    ∀ (n i p : Nat) (live : List Nat) (ids : List Nat) (sigs : List (List Byte)),
      (extractLoopLive cfg mar c n i p live).1
        = (extractLoop cfg mar n p ids sigs).toOption.map (fun r => r.2.2) := by
  intro n
  induction n with
  | zero => intro i p live ids sigs; rfl
  | succ n ih =>
    intro i p live ids sigs
    rw [extractLoopLive, extractLoop]
    cases mar_read_buffer mar p 4 with
    | none => rfl
    | some r1 =>
      obtain ⟨idBytes, pos1⟩ := r1
      simp only
      cases mar_read_buffer mar pos1 4 with
      | none => rfl
      | some r2 =>
        obtain ⟨lengthBytes, pos2⟩ := r2
        simp only
        split_ifs
        · rfl
        · cases mar_read_buffer mar pos2 (ntohl lengthBytes) with
          | none => rfl
          | some r3 => rfl
        · cases mar_read_buffer mar pos2 (ntohl lengthBytes) with
          | none => rfl
          | some r3 =>
            obtain ⟨sig, pos3⟩ := r3
            exact ih _ _ _ _ _

/-! ## The final loop is entered once the streaming pass has succeeded -/

/-- When the contexts were opened and the streaming pass succeeded, the count is
not zero and the body of `mar_verify_extracted_signatures` ends in the final
loop, run on the lengths and the trace the streaming pass left. -/
theorem verifyExtractedBody_of_stream (cfg : MarConfig) (px : CryptoX) (mar : MarFile)
    (sigs : List (List Byte)) (n : Nat) (tr : Trace) (r : Nat × List Nat)
    (hbegin : (verifyBeginLoop px n 0 tr).1 = true)
    (hstream : (streamPass cfg px mar n (verifyBeginLoop px n 0 tr).2).1 = .ok r) :
    n ≠ 0
      ∧ streamPass cfg px mar n (verifyBeginLoop px n 0 tr).2
        = (.ok r, (streamPass cfg px mar n (verifyBeginLoop px n 0 tr).2).2)
      ∧ verifyExtractedBody cfg px mar sigs n tr
        = (if (verifySignatureLoop px sigs r.2 n 0 0
                (streamPass cfg px mar n (verifyBeginLoop px n 0 tr).2).2).1 then none
            else some .errorVerifyingSignature,
           (verifySignatureLoop px sigs r.2 n 0 0
                (streamPass cfg px mar n (verifyBeginLoop px n 0 tr).2).2).2.1,
           (verifySignatureLoop px sigs r.2 n 0 0
                (streamPass cfg px mar n (verifyBeginLoop px n 0 tr).2).2).2.2) := by
  have hb : verifyBeginLoop px n 0 tr = (true, (verifyBeginLoop px n 0 tr).2) := by
    rw [← hbegin]
  have hs : streamPass cfg px mar n (verifyBeginLoop px n 0 tr).2
      = (.ok r, (streamPass cfg px mar n (verifyBeginLoop px n 0 tr).2).2) := by
    rw [← hstream]
  obtain ⟨p, lens⟩ := r
  have hn : n ≠ 0 := (streamPass_ok cfg px mar n _ _ p lens hs).1
  refine ⟨hn, hs, ?_⟩
  generalize (verifyBeginLoop px n 0 tr).2 = tr1 at hb hs ⊢
  generalize (streamPass cfg px mar n tr1).2 = tr2 at hs ⊢
  unfold verifyExtractedBody
  rw [if_neg hn, hb]
  simp only
  rw [hs]
  simp only
  split <;> rename_i heq3 <;> rw [heq3] <;> simp

/-! ## The state in which a signature is rejected -/

theorem loadKeysLoop_updatesOf (px : CryptoX) (cd : List (List Byte)) (cs : List Nat) :
    ∀ (n k : Nat) (keys : List Bool) (tr : Trace),
      updatesOf (loadKeysLoop px cd cs n k keys tr).2.2 = updatesOf tr := by
  intro n
  induction n with
  | zero => intro k keys tr; rfl
  | succ n ih =>
    intro k keys tr
    rw [loadKeysLoop]
    split_ifs
    · rw [ih]; simp [updatesOf]
    · simp [updatesOf]

/-- With a provider that opens the contexts and accepts the updates, on a block
whose entries stay within bounds, the verification pass either succeeds with
every signature verified, or it made a `CryptoX_VerifySignature` call for some
index `m` that the provider rejected, in a state in which every context had
been fed the hashed stream. -/
theorem verify_extracted_success_or_rejected (cfg : MarConfig) (px : CryptoX) (mar : MarFile)
    (sigs : List (List Byte)) (n : Nat) (tr : Trace) (hn : n ≠ 0)
    (hb : cfg.SIGNATURE_BLOCK_OFFSET + 4 ≤ mar.buffer.length)
    (hent : ∀ j, j < n → entryLen cfg mar.buffer j ≤ cfg.MAX_SIGNATURE_LENGTH
      ∧ entryPos cfg mar.buffer j + 8 + entryLen cfg mar.buffer j ≤ mar.buffer.length)
    (hbegin : ∀ t i, i < n → px t (.VerifyBegin i i) = true)
    (hupd : ∀ t k b, px t (.VerifyUpdate k b) = true) :
    ((mar_verify_extracted_signatures cfg px mar sigs n tr).rv = CryptoX_Success
        ∧ (mar_verify_extracted_signatures cfg px mar sigs n tr).numVerified = n)
      ∨ ∃ m t rest, m < n
          ∧ (mar_verify_extracted_signatures cfg px mar sigs n tr).trace
            = t ++ .VerifySignature m m (sigs.getD m []) (entryLen cfg mar.buffer m) :: rest
          ∧ (∀ k, k < n → fedTo k t = fedTo k tr ++ hashedStream cfg mar.buffer n)
          ∧ px t (.VerifySignature m m (sigs.getD m []) (entryLen cfg mar.buffer m)) = false := by
  obtain ⟨htrace, hnum, -, hrv⟩ := mar_verify_extracted_signatures_fields cfg px mar sigs n tr
  have hbl := verifyBeginLoop_accept px n 0 tr (fun t j _ hj => hbegin t j (by omega))
  obtain ⟨r, tr2', hs⟩ := streamPass_accept cfg px mar n (verifyBeginLoop px n 0 tr).2 hupd hn hb hent
  have hs1 : (streamPass cfg px mar n (verifyBeginLoop px n 0 tr).2).1 = .ok r := by rw [hs]
  obtain ⟨-, hstream, hbody⟩ := verifyExtractedBody_of_stream cfg px mar sigs n tr r hbl hs1
  have hbu := verifyBeginLoop_updatesOf px n 0 tr
  generalize (verifyBeginLoop px n 0 tr).2 = tr1 at hstream hbody hbu
  generalize (streamPass cfg px mar n tr1).2 = tr2 at hstream hbody
  obtain ⟨p, lens⟩ := r
  simp only at hbody
  obtain ⟨-, -, -, hlens, -, hfed⟩ := streamPass_ok cfg px mar n tr1 tr2 p lens hstream
  have hlen : ∀ j, j < n → lens.getD j 0 = entryLen cfg mar.buffer j := fun j hj => by
    rw [hlens, getD_map_range _ _ _ _ hj]
  have hvu := verifySignatureLoop_updatesOf px sigs lens n 0 0 tr2
  obtain ⟨m, ext, hm, -, hnv, -, hend⟩ := verifySignatureLoop_attempts px sigs lens n 0 0 tr2
  rw [htrace, hnum, hrv, hbody]
  simp only [Nat.zero_add] at hnv hend ⊢
  rcases hend with ⟨h1, h2, -⟩ | ⟨-, h2, ⟨t, h3, h4⟩, -⟩
  · left
    exact ⟨by rw [if_pos h1], by rw [hnv, h2]⟩
  · right
    rw [hlen m h2] at h3 h4
    refine ⟨m, t, freeSignatureHandles n, h2, by rw [h3]; simp, fun k hk => ?_, h4⟩
    rw [h3] at hvu
    have hu : updatesOf t = updatesOf tr2 := by
      rw [← hvu, updatesOf_append]
      simp [updatesOf]
    rw [fedTo_of_updatesOf k t tr2 hu, hfed k hk, fedTo_of_updatesOf k tr1 tr hbu]

/-! # The claims -/

/-- C1: on a well-formed archive (count `N` between 1 and `MAX_SIGNATURES`, every
entry with algorithm id 2, a length within `MAX_SIGNATURE_LENGTH` and its signature
inside the buffer) and `certCount = N` certificates, if the provider initialises,
loads every key, accepts every `VerifyBegin` and `VerifyUpdate`, and accepts
signature `i` under context `i` and key `i` at the call, for every `i < N`,
then `mar_verify_signatures` returns 0.  Acceptance is asked for only in the
state `t` in which the run makes the `CryptoX_VerifySignature` call for index `i`,
where context `i` has been fed exactly the hashed stream of the archive. -/
theorem verify_signatures_complete (cfg : MarConfig) (px : CryptoX) (mar : MarFile)
    (certData : List (List Byte)) (certDataSizes : List Nat) (certCount : Nat) (tr : Trace)
    (hlen : cfg.SIGNATURE_BLOCK_OFFSET + 4 ≤ mar.buffer.length)
    (hpos : 1 ≤ countField cfg mar.buffer)
    (hmax : countField cfg mar.buffer ≤ cfg.MAX_SIGNATURES)
    (hent : ∀ i, i < countField cfg mar.buffer →
      entryAlg cfg mar.buffer i = 2
        ∧ entryLen cfg mar.buffer i ≤ cfg.MAX_SIGNATURE_LENGTH
        ∧ entryPos cfg mar.buffer i + 8 + entryLen cfg mar.buffer i ≤ mar.buffer.length)
    (hcount : certCount = countField cfg mar.buffer)
    (hinit : ∀ t, px t .InitCryptoProvider = true)
    (hload : ∀ t k, k < certCount →
      px t (.LoadPublicKey k (certData.getD k []) (certDataSizes.getD k 0)) = true)
    (hbegin : ∀ t i, i < countField cfg mar.buffer → px t (.VerifyBegin i i) = true)
    (hupd : ∀ t k b, px t (.VerifyUpdate k b) = true)
    (hsig : ∀ t rest i, i < countField cfg mar.buffer →
      (mar_verify_signatures cfg px (some mar) (some certData) (some certDataSizes) certCount
          tr).trace
        = t ++ .VerifySignature i i
            (slice mar.buffer (entryPos cfg mar.buffer i + 8) (entryLen cfg mar.buffer i))
            (entryLen cfg mar.buffer i) :: rest →
      fedTo i t = fedTo i tr ++ hashedStream cfg mar.buffer (countField cfg mar.buffer) →
      px t (.VerifySignature i i
        (slice mar.buffer (entryPos cfg mar.buffer i + 8) (entryLen cfg mar.buffer i))
        (entryLen cfg mar.buffer i)) = true) :
    (mar_verify_signatures cfg px (some mar) (some certData) (some certDataSizes) certCount
      tr).rv = 0 := by
  have hb : blockParses cfg mar.buffer = true :=
    (blockParses_iff cfg mar.buffer).2 ⟨hlen, hmax, hent⟩
  have hn : countField cfg mar.buffer ≠ 0 := by omega
  have hl := loadKeysLoop_accept px certData certDataSizes certCount 0
    (List.replicate cfg.MAX_SIGNATURES false) (tr ++ [.InitCryptoProvider])
    (fun t j _ hj => hload t j (by omega))
  have hlu := loadKeysLoop_updatesOf px certData certDataSizes certCount 0
    (List.replicate cfg.MAX_SIGNATURES false) (tr ++ [.InitCryptoProvider])
  have hrun : mar_verify_signatures cfg px (some mar) (some certData) (some certDataSizes)
      certCount tr
      = ⟨(mar_extract_and_verify_signatures cfg px (some mar) certCount
            (loadKeysLoop px certData certDataSizes certCount 0
              (List.replicate cfg.MAX_SIGNATURES false) (tr ++ [.InitCryptoProvider])).2.2).rv,
          (mar_extract_and_verify_signatures cfg px (some mar) certCount
            (loadKeysLoop px certData certDataSizes certCount 0
              (List.replicate cfg.MAX_SIGNATURES false) (tr ++ [.InitCryptoProvider])).2.2).diag,
          (mar_extract_and_verify_signatures cfg px (some mar) certCount
            (loadKeysLoop px certData certDataSizes certCount 0
              (List.replicate cfg.MAX_SIGNATURES false) (tr ++ [.InitCryptoProvider])).2.2).trace
          ++ freeKeys (loadKeysLoop px certData certDataSizes certCount 0
              (List.replicate cfg.MAX_SIGNATURES false) (tr ++ [.InitCryptoProvider])).2.1
            certCount⟩ := by
    unfold mar_verify_signatures
    simp only
    rw [if_neg (by omega), if_pos (hinit tr)]
    generalize loadKeysLoop px certData certDataSizes certCount 0
      (List.replicate cfg.MAX_SIGNATURES false) (tr ++ [.InitCryptoProvider]) = rl at hl
    obtain ⟨okl, keys, tr1⟩ := rl
    simp only at hl
    subst hl
    rfl
  rw [hrun] at hsig ⊢
  simp only at hsig ⊢
  generalize (loadKeysLoop px certData certDataSizes certCount 0
    (List.replicate cfg.MAX_SIGNATURES false) (tr ++ [.InitCryptoProvider])).2.1 = keys at hsig
  generalize (loadKeysLoop px certData certDataSizes certCount 0
    (List.replicate cfg.MAX_SIGNATURES false) (tr ++ [.InitCryptoProvider])).2.2 = tr1
    at hsig hlu ⊢
  have hfed1 : ∀ k, fedTo k tr1 = fedTo k tr := fun k => by
    rw [fedTo_of_updatesOf k tr1 (tr ++ [.InitCryptoProvider]) hlu, fedTo_append]
    simp [fedTo, updatesOf]
  rw [extract_and_verify_trace cfg px mar certCount tr1 hb] at hsig
  have hv : (mar_verify_extracted_signatures cfg px mar
        ((List.range (countField cfg mar.buffer)).map (entrySig cfg mar.buffer))
        (countField cfg mar.buffer) tr1).rv = CryptoX_Success
      ∧ (mar_verify_extracted_signatures cfg px mar
        ((List.range (countField cfg mar.buffer)).map (entrySig cfg mar.buffer))
        (countField cfg mar.buffer) tr1).numVerified = countField cfg mar.buffer := by
    rcases verify_extracted_success_or_rejected cfg px mar
      ((List.range (countField cfg mar.buffer)).map (entrySig cfg mar.buffer))
      (countField cfg mar.buffer) tr1 hn hlen (fun j hj => (hent j hj).2) hbegin hupd
      with h | ⟨m, t, rest, hm, htr, hfed, hrej⟩
    · exact h
    · exfalso
      rw [getD_map_range _ _ _ _ hm] at htr hrej
      have hacc := hsig t (rest ++ freeKeys keys certCount) m hm
        (by rw [htr]; simp [entrySig]) (by rw [hfed m hm, hfed1 m])
      rw [entrySig, hacc] at hrej
      exact Bool.noConfusion hrej
  simp only [mar_extract_and_verify_signatures, mar_extract_signatures_ok cfg mar hb,
    extractedOf]
  rw [hv.1, hv.2]
  simp [CryptoX_Success, CryptoX_Error, hcount]
theorem verify_signatures_complete_witness :
    signedStreamOracle (hashedStream mozillaConfig twoSignatures.buffer 2) []
        (.VerifySignature 0 0 [9] 1) = false
      ∧ (mar_verify_signatures mozillaConfig
          (signedStreamOracle (hashedStream mozillaConfig twoSignatures.buffer 2))
          (some twoSignatures) (some [[1], [2]]) (some [1, 1]) 2 []).rv = 0 :=
  ⟨by decide,
    verify_signatures_complete mozillaConfig
      (signedStreamOracle (hashedStream mozillaConfig twoSignatures.buffer 2))
      twoSignatures [[1], [2]] [1, 1] 2 []
      (by decide) (by decide) (by decide) (by decide) (by decide)
      (fun _ => rfl) (fun _ _ _ => rfl) (fun _ _ _ => rfl) (fun _ _ _ => rfl)
      (fun _ _ _ _ _ h => decide_eq_true h)⟩

/-- C2: when the signature count stored in the archive differs from the number of
keys, `mar_extract_and_verify_signatures` fails, and so does
`mar_verify_signatures`, whatever the provider does; a success return implies
that the number of verified signatures, the signature count and the key count
are all equal. -/
theorem exact_count_policy (cfg : MarConfig) (px : CryptoX) (mar : MarFile)
    (keyCount : Nat) (tr : Trace) :
    (countField cfg mar.buffer ≠ keyCount →
      (mar_extract_and_verify_signatures cfg px (some mar) keyCount tr).rv = CryptoX_Error
        ∧ ∀ certData certDataSizes,
            (mar_verify_signatures cfg px (some mar) certData certDataSizes keyCount tr).rv
              = CryptoX_Error)
    ∧ ((mar_extract_and_verify_signatures cfg px (some mar) keyCount tr).rv = CryptoX_Success →
        (mar_verify_extracted_signatures cfg px mar
            ((List.range (countField cfg mar.buffer)).map (entrySig cfg mar.buffer))
            (countField cfg mar.buffer) tr).numVerified = countField cfg mar.buffer
          ∧ countField cfg mar.buffer = keyCount) := by
  have key : ∀ tr1, countField cfg mar.buffer ≠ keyCount →
      (mar_extract_and_verify_signatures cfg px (some mar) keyCount tr1).rv = CryptoX_Error := by
    intro tr1 hne
    rcases extract_and_verify_rv cfg px (some mar) keyCount tr1 with hs | he
    · exact absurd (extract_and_verify_success cfg px mar keyCount tr1 hs).2.2.2.symm hne
    · exact he
  refine ⟨fun hne => ⟨key tr hne, ?_⟩, fun hs => ?_⟩
  · intro cd cs
    rcases mar_verify_signatures_cases cfg px (some mar) cd cs keyCount tr with h | h
    · exact h.1
    · obtain ⟨m, tr1, hm, -, hrv, -⟩ := h
      cases hm
      rw [hrv]
      exact key tr1 hne
  · obtain ⟨-, -, hnv, hk⟩ := extract_and_verify_success cfg px mar keyCount tr hs
    exact ⟨hnv, hk.symm⟩

theorem exact_count_policy_witness :
    (countField tinyConfig tinyArchive.buffer ≠ 2
      ∧ (mar_extract_and_verify_signatures tinyConfig acceptAll (some tinyArchive) 2 []).rv
          = CryptoX_Error)
    ∧ ((mar_extract_and_verify_signatures tinyConfig acceptAll (some tinyArchive) 1 []).rv
          = CryptoX_Success
      ∧ countField tinyConfig tinyArchive.buffer = 1) :=
  ⟨⟨by decide, ((exact_count_policy tinyConfig acceptAll tinyArchive 2 []).1 (by decide)).1⟩,
    ⟨by decide, ((exact_count_policy tinyConfig acceptAll tinyArchive 1 []).2 (by decide)).2⟩⟩

/-- C3: when `mar_verify_extracted_signatures` reaches the finalisation step (it
makes a `CryptoX_VerifySignature` call), the bytes it has passed to
`CryptoX_VerifyUpdate` for each context `k < N` are, in order, `data[0, OFF + 4)`,
the 8 bytes of algorithm id and length of every entry, and `data[E, data_len)`,
where `E = OFF + 4 + sum_i (8 + L_i)`: the archive without the raw signatures. -/
theorem hashed_byte_stream (cfg : MarConfig) (px : CryptoX) (mar : MarFile)
    (extractedSignatures : List (List Byte)) (N : Nat) (tr : Trace)
    (hfinal : signatureCalls
        (mar_verify_extracted_signatures cfg px mar extractedSignatures N tr).trace
      ≠ signatureCalls tr) :
    (∀ k, k < N →
      fedTo k (mar_verify_extracted_signatures cfg px mar extractedSignatures N tr).trace
        = fedTo k tr
          ++ (slice mar.buffer 0 (cfg.SIGNATURE_BLOCK_OFFSET + 4)
            ++ ((List.range N).map (fun i => slice mar.buffer (entryPos cfg mar.buffer i) 8)).flatten
            ++ mar.buffer.drop (entryPos cfg mar.buffer N)))
    ∧ entryPos cfg mar.buffer N
        = cfg.SIGNATURE_BLOCK_OFFSET + 4
          + ((List.range N).map (fun i => 8 + entryLen cfg mar.buffer i)).sum :=
  ⟨(verify_extracted_final cfg px mar extractedSignatures N tr hfinal).2.2.2,
    entryPos_eq_sum cfg mar.buffer N⟩

theorem hashed_byte_stream_witness :
    fedTo 1 (mar_verify_extracted_signatures tinyConfig acceptAll tinyArchive2
        [[9], [8, 7]] 2 []).trace
      = [1, 2, 0, 0, 0, 2, 0, 0, 0, 2, 0, 0, 0, 1, 0, 0, 0, 2, 0, 0, 0, 2, 6, 5, 4, 3] := by
  have h := (hashed_byte_stream tinyConfig acceptAll tinyArchive2 [[9], [8, 7]] 2 []
    (by decide)).1 1 (by decide)
  rw [h]
  decide

/-- C4: the `CryptoX_VerifySignature` calls made by `mar_extract_and_verify_signatures`
are, in order, the calls for the indices `0, 1, ..., m - 1`, the call for index `i`
using context `i`, key `i`, the signature bytes of entry `i` and the length of
entry `i`; on a success return all `N` calls were made. -/
theorem index_aligned_pairing (cfg : MarConfig) (px : CryptoX) (mar : MarFile)
    (keyCount : Nat) (tr : Trace) :
    ∃ m, m ≤ countField cfg mar.buffer
      ∧ signatureCalls (mar_extract_and_verify_signatures cfg px (some mar) keyCount tr).trace
          = signatureCalls tr ++ (List.range m).map (fun i =>
              .VerifySignature i i
                (slice mar.buffer (entryPos cfg mar.buffer i + 8) (entryLen cfg mar.buffer i))
                (entryLen cfg mar.buffer i))
      ∧ ((mar_extract_and_verify_signatures cfg px (some mar) keyCount tr).rv = CryptoX_Error
          ∨ m = countField cfg mar.buffer) := by
  by_cases hb : blockParses cfg mar.buffer = true
  · have hrv : (mar_extract_and_verify_signatures cfg px (some mar) keyCount tr).rv
          = CryptoX_Success →
        (verifyExtractedBody cfg px mar
          ((List.range (countField cfg mar.buffer)).map (entrySig cfg mar.buffer))
          (countField cfg mar.buffer) tr).1 = none := by
      intro hs
      obtain ⟨-, hv, -, -⟩ := extract_and_verify_success cfg px mar keyCount tr hs
      exact (mar_verify_extracted_signatures_fields cfg px mar _ _ tr).2.2.2.1 hv
    rw [extract_and_verify_trace cfg px mar keyCount tr hb,
      (mar_verify_extracted_signatures_fields cfg px mar _ _ tr).1, signatureCalls_append,
      freeSignatureHandles_signatureCalls, List.append_nil]
    rcases verifyExtractedBody_cases cfg px mar
      ((List.range (countField cfg mar.buffer)).map (entrySig cfg mar.buffer))
      (countField cfg mar.buffer) tr with h | h
    · refine ⟨0, Nat.zero_le _, by simpa using h.1, ?_⟩
      rcases extract_and_verify_rv cfg px (some mar) keyCount tr with hs | he
      · exact absurd (hrv hs) h.2.2
      · exact Or.inl he
    · obtain ⟨tr1, tr2, p, lens, -, hbegin, hstream, hbody⟩ := h
      obtain ⟨-, -, -, hlens, -, -⟩ := streamPass_ok cfg px mar _ tr1 tr2 p lens hstream
      obtain ⟨m, hm, hcalls, hok, -⟩ := verifySignatureLoop_calls px
        ((List.range (countField cfg mar.buffer)).map (entrySig cfg mar.buffer)) lens
        (countField cfg mar.buffer) 0 0 tr2
      have hsb := streamPass_signatureCalls cfg px mar (countField cfg mar.buffer) tr1
      have hbb := verifyBeginLoop_signatureCalls px (countField cfg mar.buffer) 0 tr
      rw [hstream] at hsb
      rw [hbegin] at hbb
      refine ⟨m, hm, ?_, ?_⟩
      · rw [hbody]
        simp only
        rw [hcalls, hsb, hbb, ← List.range_eq_range']
        congr 1
        apply List.map_congr_left
        intro j hj
        have hj' : j < countField cfg mar.buffer := by
          have := List.mem_range.1 hj
          omega
        rw [hlens, getD_map_range _ _ _ _ hj', getD_map_range _ _ _ _ hj']
        rfl
      · rcases extract_and_verify_rv cfg px (some mar) keyCount tr with hs | he
        · right
          have hnone := hrv hs
          rw [hbody] at hnone
          simp only at hnone
          by_cases hv : (verifySignatureLoop px
              ((List.range (countField cfg mar.buffer)).map (entrySig cfg mar.buffer)) lens
              (countField cfg mar.buffer) 0 0 tr2).1 = true
          · exact (hok hv).1
          · rw [if_neg hv] at hnone
            simp at hnone
        · exact Or.inl he
  · simp only [Bool.not_eq_true] at hb
    obtain ⟨e, -, he⟩ := extract_and_verify_of_error cfg px mar keyCount tr hb
    rw [he]
    exact ⟨0, Nat.zero_le _, by simp, Or.inl rfl⟩

/-- C5: two archives of equal length that agree on every byte outside the raw
signatures of the first have the same count and the same declared lengths, and
`mar_extract_and_verify_signatures` makes the same `CryptoX_VerifyUpdate` calls on
both, so every verification context is fed the same bytes: the signature
bytes reach the provider only through `CryptoX_VerifySignature`. -/
theorem signature_bytes_not_hashed (cfg : MarConfig) (px : CryptoX) (A B : MarFile)
    (keyCount : Nat) (tr : Trace) (hlen : A.buffer.length = B.buffer.length)
    (hagree : ∀ j, j < A.buffer.length →
      ¬ inSignature cfg A.buffer (countField cfg A.buffer) j → A.buffer[j]? = B.buffer[j]?) :
    countField cfg B.buffer = countField cfg A.buffer
      ∧ (∀ i, entryLen cfg B.buffer i = entryLen cfg A.buffer i)
      ∧ updatesOf (mar_extract_and_verify_signatures cfg px (some B) keyCount tr).trace
          = updatesOf (mar_extract_and_verify_signatures cfg px (some A) keyCount tr).trace
      ∧ ∀ k, fedTo k (mar_extract_and_verify_signatures cfg px (some B) keyCount tr).trace
          = fedTo k (mar_extract_and_verify_signatures cfg px (some A) keyCount tr).trace := by
  have hagree' : ∀ j, ¬ inSignature cfg A.buffer (countField cfg A.buffer) j →
      A.buffer[j]? = B.buffer[j]? := by
    intro j hj
    rcases Nat.lt_or_ge j A.buffer.length with h | h
    · exact hagree j h hj
    · rw [List.getElem?_eq_none h, List.getElem?_eq_none (by omega)]
  have hcount := countField_congr cfg A.buffer B.buffer _ hagree'
  have hparse := blockParses_congr cfg A.buffer B.buffer _ hlen hagree'
  have hupd : updatesOf (mar_extract_and_verify_signatures cfg px (some B) keyCount tr).trace
      = updatesOf (mar_extract_and_verify_signatures cfg px (some A) keyCount tr).trace := by
    by_cases hb : blockParses cfg A.buffer = true
    · rw [extract_and_verify_trace cfg px A keyCount tr hb,
        extract_and_verify_trace cfg px B keyCount tr (hparse.trans hb), hcount]
      exact verify_extracted_updates_congr cfg px A B _ _ _ tr hlen hagree'
    · simp only [Bool.not_eq_true] at hb
      obtain ⟨e, -, he⟩ := extract_and_verify_of_error cfg px A keyCount tr hb
      obtain ⟨e', -, he'⟩ := extract_and_verify_of_error cfg px B keyCount tr (hparse.trans hb)
      rw [he, he']
  exact ⟨hcount, fun i => (layout_congr cfg A.buffer B.buffer _ hagree' i).2.2, hupd,
    fun k => fedTo_of_updatesOf k _ _ hupd⟩

theorem signature_bytes_not_hashed_witness :
    updatesOf (mar_extract_and_verify_signatures tinyConfig acceptAll (some tinyArchiveResigned)
        1 []).trace
      = updatesOf (mar_extract_and_verify_signatures tinyConfig acceptAll (some tinyArchive)
        1 []).trace :=
  (signature_bytes_not_hashed tinyConfig acceptAll tinyArchive tinyArchiveResigned 1 []
    (by decide) (by decide)).2.2.1

/-- C6: let the verification pass on archive `A` reach its finalisation step, and
let `B`, of the same length, differ from `A` in a byte of a hashed region of `A`
(the header with the count, the algorithm id or length of an entry, the bytes
after the block).  Then the pass on `B` does not reach the finalisation step, or
the bytes fed to the contexts for `B` differ from those fed for `A`, whatever
the providers, the keys and the earlier calls are; hence, if the provider used
for `B` accepts a signature only on a context that was fed the stream of `A`,
the verification of `B` fails. -/
theorem hashed_regions_tamper_sensitive (cfg : MarConfig) (pxA pxB : CryptoX) (A B : MarFile)
    (keyCountA keyCountB : Nat) (trA trB : Trace) (j : Nat)
    (hlen : A.buffer.length = B.buffer.length)
    (hfinal : signatureCalls
        (mar_extract_and_verify_signatures cfg pxA (some A) keyCountA trA).trace
      ≠ signatureCalls trA)
    (hj : inHashedRegion cfg A.buffer (countField cfg A.buffer) j)
    (hne : A.buffer[j]? ≠ B.buffer[j]?) :
    (signatureCalls (mar_extract_and_verify_signatures cfg pxB (some B) keyCountB trB).trace
        = signatureCalls trB
      ∨ ∀ k k', k < countField cfg A.buffer → k' < countField cfg B.buffer →
          fedSince trA k (mar_extract_and_verify_signatures cfg pxA (some A) keyCountA trA).trace
            ≠ fedSince trB k'
                (mar_extract_and_verify_signatures cfg pxB (some B) keyCountB trB).trace)
    ∧ ((∀ t ctx key sig len, pxB t (.VerifySignature ctx key sig len) = true →
          fedSince trB ctx t = hashedStream cfg A.buffer (countField cfg A.buffer)) →
        (mar_extract_and_verify_signatures cfg pxB (some B) keyCountB trB).rv = CryptoX_Error) := by
  obtain ⟨-, hlenA, hentA, hfedA⟩ := extract_and_verify_final cfg pxA A keyCountA trA hfinal
  constructor
  · by_cases hB : signatureCalls
        (mar_extract_and_verify_signatures cfg pxB (some B) keyCountB trB).trace
        = signatureCalls trB
    · exact Or.inl hB
    · right
      intro k k' hk hk' heq
      obtain ⟨-, -, hentB, hfedB⟩ := extract_and_verify_final cfg pxB B keyCountB trB hB
      rw [hfedA k hk, hfedB k' hk'] at heq
      exact hne (hashedStream_inj cfg A.buffer B.buffer hlen hlenA hentA hentB heq j hj)
  · intro horacle
    rcases extract_and_verify_rv cfg pxB (some B) keyCountB trB with hs | he
    · exfalso
      obtain ⟨hb, -, -, -⟩ := extract_and_verify_success cfg pxB B keyCountB trB hs
      obtain ⟨-, -, hentB⟩ := (blockParses_iff cfg B.buffer).1 hb
      obtain ⟨t, sig, len, hacc, hfedB⟩ :=
        extract_and_verify_success_first_call cfg pxB B keyCountB trB hs
      have heq := (horacle t 0 0 sig len hacc).symm.trans hfedB
      exact hne (hashedStream_inj cfg A.buffer B.buffer hlen hlenA hentA
        (fun i hi => (hentB i hi).2.2) heq j hj)
    · exact he

theorem hashed_regions_tamper_sensitive_witness :
    fedSince [] 0 (mar_extract_and_verify_signatures tinyConfig acceptAll (some tinyArchive)
        1 []).trace
      ≠ fedSince [] 0 (mar_extract_and_verify_signatures tinyConfig
        (signedStreamOracle (hashedStream tinyConfig tinyArchive.buffer 1))
        (some tinyArchiveTampered) 1 []).trace
    ∧ (mar_extract_and_verify_signatures tinyConfig
        (signedStreamOracle (hashedStream tinyConfig tinyArchive.buffer 1))
        (some tinyArchiveTampered) 1 []).rv = CryptoX_Error :=
  have h := hashed_regions_tamper_sensitive tinyConfig acceptAll
    (signedStreamOracle (hashedStream tinyConfig tinyArchive.buffer 1))
    tinyArchive tinyArchiveTampered 1 1 [] [] 16 (by decide) (by decide)
    (Or.inr (Or.inr ⟨by decide, by decide⟩)) (by decide)
  ⟨h.1.resolve_left (by decide) 0 0 (by decide) (by decide),
    h.2 (fun t ctx key sig len hacc => by
      simp only [signedStreamOracle, decide_eq_true_eq] at hacc
      simpa [fedSince, fedTo, updatesOf] using hacc)⟩

/-- C7: the extraction pass of `mar_extract_and_verify_signatures` succeeds
exactly when the buffer holds `SIGNATURE_BLOCK_OFFSET + 4` bytes, the big-endian
count `N` is at most `MAX_SIGNATURES` and every entry `i < N` has algorithm id 2,
a length `L_i` within `MAX_SIGNATURE_LENGTH` and its `L_i` signature bytes inside the
buffer; it then yields signature `i` as `data[p_i + 8, p_i + 8 + L_i)`, and the
verification pass is run (on these signatures) in that case and in no other. -/
theorem signature_block_parse_result (cfg : MarConfig) (px : CryptoX) (mar : MarFile)
    (keyCount : Nat) (tr : Trace) :
    ((mar_extract_signatures cfg mar).toOption =
      if cfg.SIGNATURE_BLOCK_OFFSET + 4 ≤ mar.buffer.length
          ∧ countField cfg mar.buffer ≤ cfg.MAX_SIGNATURES
          ∧ ∀ i, i < countField cfg mar.buffer →
              entryAlg cfg mar.buffer i = 2
                ∧ entryLen cfg mar.buffer i ≤ cfg.MAX_SIGNATURE_LENGTH
                ∧ entryPos cfg mar.buffer i + 8 + entryLen cfg mar.buffer i ≤ mar.buffer.length
      then
        some ⟨countField cfg mar.buffer,
          (List.range (countField cfg mar.buffer)).map (entryAlg cfg mar.buffer),
          (List.range (countField cfg mar.buffer)).map
            (fun i => slice mar.buffer (entryPos cfg mar.buffer i + 8) (entryLen cfg mar.buffer i)),
          entryPos cfg mar.buffer (countField cfg mar.buffer)⟩
      else none)
    ∧ (mar_extract_and_verify_signatures cfg px (some mar) keyCount tr).trace =
      if cfg.SIGNATURE_BLOCK_OFFSET + 4 ≤ mar.buffer.length
          ∧ countField cfg mar.buffer ≤ cfg.MAX_SIGNATURES
          ∧ ∀ i, i < countField cfg mar.buffer →
              entryAlg cfg mar.buffer i = 2
                ∧ entryLen cfg mar.buffer i ≤ cfg.MAX_SIGNATURE_LENGTH
                ∧ entryPos cfg mar.buffer i + 8 + entryLen cfg mar.buffer i ≤ mar.buffer.length
      then
        (mar_verify_extracted_signatures cfg px mar
          ((List.range (countField cfg mar.buffer)).map
            (fun i => slice mar.buffer (entryPos cfg mar.buffer i + 8) (entryLen cfg mar.buffer i)))
          (countField cfg mar.buffer) tr).trace
      else tr := by
  have hiff := blockParses_iff cfg mar.buffer
  by_cases hb : blockParses cfg mar.buffer = true
  · rw [if_pos (hiff.1 hb), if_pos (hiff.1 hb)]
    refine ⟨?_, ?_⟩
    · rw [mar_extract_signatures_toOption, if_pos hb]; rfl
    · exact extract_and_verify_trace cfg px mar keyCount tr hb
  · rw [if_neg (fun h => hb (hiff.2 h)), if_neg (fun h => hb (hiff.2 h))]
    simp only [Bool.not_eq_true] at hb
    refine ⟨?_, ?_⟩
    · rw [mar_extract_signatures_toOption, hb]; rfl
    · obtain ⟨e, -, he⟩ := extract_and_verify_of_error cfg px mar keyCount tr hb
      rw [he]

/-- C8: an archive whose count is 0 or above `MAX_SIGNATURES`, or one of whose
entries declares a length above `MAX_SIGNATURE_LENGTH`, makes
`mar_extract_and_verify_signatures` fail, whatever the keys and the provider. -/
theorem count_and_length_bounds (cfg : MarConfig) (px : CryptoX) (mar : MarFile)
    (keyCount : Nat) (tr : Trace)
    (h : countField cfg mar.buffer = 0 ∨ countField cfg mar.buffer > cfg.MAX_SIGNATURES
      ∨ ∃ i, i < countField cfg mar.buffer
          ∧ entryLen cfg mar.buffer i > cfg.MAX_SIGNATURE_LENGTH) :
    (mar_extract_and_verify_signatures cfg px (some mar) keyCount tr).rv = CryptoX_Error := by
  rcases extract_and_verify_rv cfg px (some mar) keyCount tr with hs | he
  · exfalso
    obtain ⟨hb, hrv, -, -⟩ := extract_and_verify_success cfg px mar keyCount tr hs
    obtain ⟨-, hmax, hent⟩ := (blockParses_iff cfg mar.buffer).1 hb
    rcases h with h0 | hgt | ⟨i, hi, hlen⟩
    · rw [h0, mar_verify_extracted_signatures_zero] at hrv
      simp [CryptoX_Error, CryptoX_Success] at hrv
    · omega
    · have := (hent i hi).2.1
      omega
  · exact he

theorem count_and_length_bounds_witness :
    (countField tinyConfig tinyTooLong.buffer = 0
        ∨ countField tinyConfig tinyTooLong.buffer > tinyConfig.MAX_SIGNATURES
        ∨ ∃ i, i < countField tinyConfig tinyTooLong.buffer
            ∧ entryLen tinyConfig tinyTooLong.buffer i > tinyConfig.MAX_SIGNATURE_LENGTH)
      ∧ (mar_extract_and_verify_signatures tinyConfig acceptAll (some tinyTooLong) 1 []).rv
          = CryptoX_Error :=
  ⟨Or.inr (Or.inr ⟨0, by decide, by decide⟩),
    count_and_length_bounds tinyConfig acceptAll tinyTooLong 1 []
      (Or.inr (Or.inr ⟨0, by decide, by decide⟩))⟩

/-- C9, as stated, fails: with the Mozilla constants and a count of 9, above
`MAX_SIGNATURES`, `mar_verify_signatures` has initialised the provider and loaded
the key before the archive is rejected. -/
theorem oversized_rejected_after_key_load :
    countField mozillaConfig nineSignatures.buffer > mozillaConfig.MAX_SIGNATURES
      ∧ mar_verify_signatures mozillaConfig acceptAll (some nineSignatures) (some [[1]])
          (some [1]) 1 []
        = ⟨-1, some .atMostMaxSignatures,
            [.InitCryptoProvider, .LoadPublicKey 0 [1] 1, .FreePublicKey 0]⟩ := by
  decide

/-- C9, amended: an archive whose count exceeds `MAX_SIGNATURES`, or one of
whose entries declares a length above `MAX_SIGNATURE_LENGTH`, is rejected by
`mar_extract_and_verify_signatures` without any provider call, and by
`mar_verify_signatures` without any `CryptoX_VerifyBegin`, `CryptoX_VerifyUpdate` or
`CryptoX_VerifySignature` call. -/
theorem oversized_rejected_before_verification (cfg : MarConfig) (px : CryptoX) (mar : MarFile)
    (keyCount : Nat) (tr : Trace)
    (h : countField cfg mar.buffer > cfg.MAX_SIGNATURES
      ∨ ∃ i, i < countField cfg mar.buffer
          ∧ entryLen cfg mar.buffer i > cfg.MAX_SIGNATURE_LENGTH) :
    ((mar_extract_and_verify_signatures cfg px (some mar) keyCount tr).rv = CryptoX_Error
      ∧ (mar_extract_and_verify_signatures cfg px (some mar) keyCount tr).trace = tr)
    ∧ ∀ certData certDataSizes,
        (mar_verify_signatures cfg px (some mar) certData certDataSizes keyCount tr).rv
            = CryptoX_Error
          ∧ verifyCalls
              (mar_verify_signatures cfg px (some mar) certData certDataSizes keyCount tr).trace
            = verifyCalls tr := by
  have hb : blockParses cfg mar.buffer = false := by
    rw [← Bool.not_eq_true, blockParses_iff]
    rintro ⟨-, hmax, hent⟩
    rcases h with hgt | ⟨i, hi, hlen⟩
    · omega
    · have := (hent i hi).2.1
      omega
  have key : ∀ tr1, mar_extract_and_verify_signatures cfg px (some mar) keyCount tr1
      = ⟨CryptoX_Error, (mar_extract_and_verify_signatures cfg px (some mar) keyCount tr1).diag,
          tr1⟩ := by
    intro tr1
    obtain ⟨e, -, hout⟩ := extract_and_verify_of_error cfg px mar keyCount tr1 hb
    rw [hout]
  refine ⟨⟨by rw [key tr], by rw [key tr]⟩, ?_⟩
  intro cd cs
  rcases mar_verify_signatures_cases cfg px (some mar) cd cs keyCount tr with h1 | h1
  · exact h1
  · obtain ⟨m, tr1, hm, htr1, hrv, htrace⟩ := h1
    cases hm
    rw [hrv, htrace, key tr1]
    exact ⟨rfl, htr1⟩

theorem oversized_rejected_before_verification_witness :
    countField mozillaConfig nineSignatures.buffer > mozillaConfig.MAX_SIGNATURES
      ∧ verifyCalls (mar_verify_signatures mozillaConfig acceptAll (some nineSignatures)
          (some [[1]]) (some [1]) 1 []).trace = verifyCalls [] :=
  ⟨by decide,
    ((oversized_rejected_before_verification mozillaConfig acceptAll nineSignatures 1 []
      (Or.inl (by decide))).2 (some [[1]]) (some [1])).2⟩

/-- C10: when one of the declared entries has an algorithm id other than 2, the
extraction pass fails, `mar_extract_and_verify_signatures` returns failure, and
`mar_verify_extracted_signatures` is not called: no provider call is made. -/
theorem unrecognised_algorithm_id (cfg : MarConfig) (px : CryptoX) (mar : MarFile)
    (keyCount : Nat) (tr : Trace)
    (h : ∃ i, i < countField cfg mar.buffer ∧ entryAlg cfg mar.buffer i ≠ 2) :
    (∃ e, mar_extract_signatures cfg mar = .error e)
      ∧ (mar_extract_and_verify_signatures cfg px (some mar) keyCount tr).rv = CryptoX_Error
      ∧ (mar_extract_and_verify_signatures cfg px (some mar) keyCount tr).trace = tr := by
  have hb : blockParses cfg mar.buffer = false := by
    rw [← Bool.not_eq_true, blockParses_iff]
    rintro ⟨-, -, hent⟩
    obtain ⟨i, hi, ha⟩ := h
    exact ha (hent i hi).1
  obtain ⟨e, he, hout⟩ := extract_and_verify_of_error cfg px mar keyCount tr hb
  exact ⟨⟨e, he⟩, by rw [hout], by rw [hout]⟩

theorem unrecognised_algorithm_id_witness :
    (∃ i, i < countField tinyConfig tinyUnknownAlgorithm.buffer
        ∧ entryAlg tinyConfig tinyUnknownAlgorithm.buffer i ≠ 2)
      ∧ (mar_extract_and_verify_signatures tinyConfig acceptAll (some tinyUnknownAlgorithm)
          1 []).rv = CryptoX_Error :=
  ⟨⟨0, by decide, by decide⟩,
    (unrecognised_algorithm_id tinyConfig acceptAll tinyUnknownAlgorithm 1 []
      ⟨0, by decide, by decide⟩).2.1⟩

/-- C11, as stated, fails: on `twoSignatures` (Mozilla constants, two signatures,
extracted as `9` and `8 7`) with a provider that rejects the signature check on
context 0 and would accept the one on context 1 in every state, the contexts are
opened and the streaming pass succeeds, yet the only `CryptoX_VerifySignature`
call made is the one for index 0; index 1 is never attempted and the verified
count is 0. -/
theorem second_signature_not_attempted :
    mar_extract_signatures mozillaConfig twoSignatures = .ok ⟨2, [2, 2], [[9], [8, 7]], 39⟩
      ∧ (verifyBeginLoop rejectFirstSignature 2 0 []).1 = true
      ∧ (streamPass mozillaConfig rejectFirstSignature twoSignatures 2
          (verifyBeginLoop rejectFirstSignature 2 0 []).2).1.toOption = some (41, [1, 2])
      ∧ signatureCalls (mar_verify_extracted_signatures mozillaConfig rejectFirstSignature
          twoSignatures [[9], [8, 7]] 2 []).trace = [.VerifySignature 0 0 [9] 1]
      ∧ (mar_verify_extracted_signatures mozillaConfig rejectFirstSignature twoSignatures
          [[9], [8, 7]] 2 []).numVerified = 0
      ∧ ∀ t, rejectFirstSignature t (.VerifySignature 1 1 [8, 7] 2) = true :=
  ⟨rfl, by decide, by decide, by decide, by decide, fun _ => rfl⟩

/-- C11, amended: on every archive with `N` signatures on which the contexts are
opened and the streaming pass succeeds, the signature checks are attempted in
index order, starting with index 0, up to and including the first one that is
rejected, which ends the step with an error, so that no later index is attempted;
the verified count `m` is the number of checks made before it, all of them
accepted, and it is `N` with a success return exactly when no check is
rejected. -/
theorem first_failure_ends_finalisation (cfg : MarConfig) (px : CryptoX) (mar : MarFile)
    (extractedSignatures : List (List Byte)) (N : Nat) (tr : Trace) (r : Nat × List Nat)
    (hbegin : (verifyBeginLoop px N 0 tr).1 = true)
    (hstream : (streamPass cfg px mar N (verifyBeginLoop px N 0 tr).2).1 = .ok r) :
    ∃ m, m ≤ N ∧ 1 ≤ N
      ∧ (mar_verify_extracted_signatures cfg px mar extractedSignatures N tr).numVerified = m
      ∧ (∀ j, j < m → ∃ t rest,
          (mar_verify_extracted_signatures cfg px mar extractedSignatures N tr).trace
              = t ++ .VerifySignature j j (extractedSignatures.getD j [])
                  (entryLen cfg mar.buffer j) :: rest
            ∧ px t (.VerifySignature j j (extractedSignatures.getD j [])
                  (entryLen cfg mar.buffer j)) = true)
      ∧ (((mar_verify_extracted_signatures cfg px mar extractedSignatures N tr).rv
              = CryptoX_Success ∧ m = N
          ∧ signatureCalls
              (mar_verify_extracted_signatures cfg px mar extractedSignatures N tr).trace
            = signatureCalls tr ++ (List.range N).map (fun j =>
                .VerifySignature j j (extractedSignatures.getD j []) (entryLen cfg mar.buffer j)))
        ∨ ((mar_verify_extracted_signatures cfg px mar extractedSignatures N tr).rv
              = CryptoX_Error ∧ m < N
          ∧ (∃ t rest,
              (mar_verify_extracted_signatures cfg px mar extractedSignatures N tr).trace
                  = t ++ .VerifySignature m m (extractedSignatures.getD m [])
                      (entryLen cfg mar.buffer m) :: rest
                ∧ px t (.VerifySignature m m (extractedSignatures.getD m [])
                      (entryLen cfg mar.buffer m)) = false)
          ∧ signatureCalls
              (mar_verify_extracted_signatures cfg px mar extractedSignatures N tr).trace
            = signatureCalls tr ++ (List.range (m + 1)).map (fun j =>
                .VerifySignature j j (extractedSignatures.getD j [])
                  (entryLen cfg mar.buffer j)))) := by
  obtain ⟨htrace, hnum, -, hrv⟩ :=
    mar_verify_extracted_signatures_fields cfg px mar extractedSignatures N tr
  have hrv' := mar_verify_extracted_signatures_rv cfg px mar extractedSignatures N tr
  obtain ⟨hN, hstream, hbody⟩ :=
    verifyExtractedBody_of_stream cfg px mar extractedSignatures N tr r hbegin hstream
  have hbegin : verifyBeginLoop px N 0 tr = (true, (verifyBeginLoop px N 0 tr).2) := by
    rw [← hbegin]
  generalize (verifyBeginLoop px N 0 tr).2 = tr1 at hbegin hstream hbody
  generalize (streamPass cfg px mar N tr1).2 = tr2 at hstream hbody
  obtain ⟨p, lens⟩ := r
  simp only at hbody
  obtain ⟨-, -, -, hlens, -, -⟩ := streamPass_ok cfg px mar N tr1 tr2 p lens hstream
  have hsb := streamPass_signatureCalls cfg px mar N tr1
  have hbb := verifyBeginLoop_signatureCalls px N 0 tr
  rw [hstream] at hsb
  rw [hbegin] at hbb
  have hbase : signatureCalls tr2 = signatureCalls tr := hsb.trans hbb
  have hlen : ∀ j, j < N → lens.getD j 0 = entryLen cfg mar.buffer j := fun j hj => by
    rw [hlens, getD_map_range _ _ _ _ hj]
  obtain ⟨m, ext, hm, hext, hnv, hacc, hend⟩ :=
    verifySignatureLoop_attempts px extractedSignatures lens N 0 0 tr2
  rw [htrace, hnum, hbody]
  rw [hbody] at hrv
  simp only at hrv ⊢
  simp only [Nat.zero_add] at hnv hacc hend
  refine ⟨m, hm, by omega, hnv, ?_, ?_⟩
  · intro j hj
    obtain ⟨t, rest, h1, h2⟩ := hacc j hj
    rw [hlen j (by omega)] at h1 h2
    exact ⟨t, rest ++ freeSignatureHandles N, by rw [h1]; simp, h2⟩
  · have hmap : ∀ k, k ≤ N →
        (List.range' 0 k).map (fun j =>
          CryptoCall.VerifySignature j j (extractedSignatures.getD j []) (lens.getD j 0))
        = (List.range k).map (fun j =>
          CryptoCall.VerifySignature j j (extractedSignatures.getD j [])
            (entryLen cfg mar.buffer j)) := by
      intro k hk
      rw [← List.range_eq_range']
      apply List.map_congr_left
      intro j hj
      rw [hlen j (by have := List.mem_range.1 hj; omega)]
    rcases hend with ⟨h1, h2, h3⟩ | ⟨h1, h2, ⟨t, h3, h4⟩, h5⟩
    · left
      refine ⟨hrv.2 (by rw [if_pos h1]), h2, ?_⟩
      rw [signatureCalls_append, freeSignatureHandles_signatureCalls, List.append_nil, hext,
        signatureCalls_append, hbase, h3, hmap N (Nat.le_refl _)]
    · right
      have hne : (mar_verify_extracted_signatures cfg px mar extractedSignatures N tr).rv
          ≠ CryptoX_Success := by
        intro hs
        have := hrv.1 hs
        rw [h1] at this
        simp at this
      refine ⟨hrv'.resolve_left hne, h2, ?_, ?_⟩
      · rw [hlen m h2] at h3 h4
        exact ⟨t, freeSignatureHandles N, by rw [h3]; simp, h4⟩
      · rw [signatureCalls_append, freeSignatureHandles_signatureCalls, List.append_nil, hext,
          signatureCalls_append, hbase, h5, hmap (m + 1) (by omega)]
theorem first_failure_ends_finalisation_witness :
    (verifyBeginLoop rejectFirstSignature 2 0 []).1 = true
      ∧ (streamPass mozillaConfig rejectFirstSignature twoSignatures 2
          (verifyBeginLoop rejectFirstSignature 2 0 []).2).1 = .ok (41, [1, 2])
      ∧ ∃ m, m ≤ 2
        ∧ (mar_verify_extracted_signatures mozillaConfig rejectFirstSignature twoSignatures
            [[9], [8, 7]] 2 []).numVerified = m :=
  ⟨by decide, rfl,
    (first_failure_ends_finalisation mozillaConfig rejectFirstSignature twoSignatures
      [[9], [8, 7]] 2 [] (41, [1, 2]) (by decide) rfl).imp fun _ h => ⟨h.1, h.2.2.1⟩⟩

/-- C12, as stated, fails: `truncatedPayload` declares a total size of 100 bytes and
holds 31, yet no read or seek fails on it: with a provider that rejects the
signature check the call fails at `CryptoX_VerifySignature`, and with a provider that
accepts every call it returns success. -/
theorem truncated_payload_reaches_signature_check :
    truncatedPayload.data_len < declaredSize truncatedPayload.buffer
      ∧ mar_extract_and_verify_signatures mozillaConfig rejectFirstSignature
          (some truncatedPayload) 1 []
        = ⟨CryptoX_Error, some .errorVerifyingSignature,
            [.VerifyBegin 0 0,
              .VerifyUpdate 0 [77, 65, 82, 49, 0, 0, 0, 0, 0, 0, 0, 0, 0, 0, 0, 100, 0, 0, 0, 1],
              .VerifyUpdate 0 [0, 0, 0, 2], .VerifyUpdate 0 [0, 0, 0, 1], .VerifyUpdate 0 [7, 6],
              .VerifySignature 0 0 [9] 1, .FreeSignatureHandle 0]⟩
      ∧ (mar_extract_and_verify_signatures mozillaConfig acceptAll (some truncatedPayload) 1
          []).rv = CryptoX_Success := by
  decide

/-- C12, amended: let `full` be a well-formed archive and let the buffer hold its
first `n` bytes.  If `n` is less than the end of the signature block, the call
fails at a read or seek step and makes no provider call.  If the buffer holds
the whole block (the cut is in the payload after it), no read or seek fails:
a failure is a provider failure or a count mismatch, and with a provider that
opens the contexts and accepts the updates `CryptoX_VerifySignature` is reached. -/
theorem truncation_detected_only_in_block (cfg : MarConfig) (px : CryptoX) (full : MarFile)
    (n keyCount : Nat) (tr : Trace) (hfull : blockParses cfg full.buffer = true) :
    (n < entryPos cfg full.buffer (countField cfg full.buffer) →
      (mar_extract_and_verify_signatures cfg px (some ⟨full.buffer.take n⟩) keyCount tr).rv
          = CryptoX_Error
        ∧ (∃ e, (mar_extract_and_verify_signatures cfg px (some ⟨full.buffer.take n⟩) keyCount
              tr).diag = some e ∧ e.kind = .ioFailure)
        ∧ (mar_extract_and_verify_signatures cfg px (some ⟨full.buffer.take n⟩) keyCount
              tr).trace = tr)
      ∧ (entryPos cfg full.buffer (countField cfg full.buffer) ≤ n →
          1 ≤ countField cfg full.buffer →
          (∀ e, (mar_extract_and_verify_signatures cfg px (some ⟨full.buffer.take n⟩) keyCount
                tr).diag = some e →
              e.kind = .cryptoFailure ∨ e.kind = .policyViolation)
            ∧ ((∀ t i, px t (.VerifyBegin i i) = true) →
                (∀ t k b, px t (.VerifyUpdate k b) = true) →
                signatureCalls (mar_extract_and_verify_signatures cfg px
                    (some ⟨full.buffer.take n⟩) keyCount tr).trace ≠ signatureCalls tr)) := by
  have hpre : ∀ p k, p + k ≤ (full.buffer.take n).length →
      slice (full.buffer.take n) p k = slice full.buffer p k := by
    intro p k h
    rw [List.length_take] at h
    exact slice_take _ _ _ _ (by omega)
  constructor
  · intro hn
    obtain ⟨e, he, hk⟩ := mar_extract_signatures_truncated cfg full ⟨full.buffer.take n⟩ hpre
      hfull (by simp only [List.length_take]; omega)
    have hout : mar_extract_and_verify_signatures cfg px (some ⟨full.buffer.take n⟩) keyCount tr
        = ⟨CryptoX_Error, some e, tr⟩ := by
      simp only [mar_extract_and_verify_signatures, he]
    rw [hout]
    exact ⟨rfl, ⟨e, rfl, hk⟩, rfl⟩
  · intro hn hN
    have hE : entryPos cfg full.buffer (countField cfg full.buffer) ≤ full.buffer.length := by
      obtain ⟨-, -, hent⟩ := (blockParses_iff cfg full.buffer).1 hfull
      obtain ⟨m, hm⟩ : ∃ m, countField cfg full.buffer = m + 1 := ⟨_, (Nat.sub_add_cancel hN).symm⟩
      have := (hent m (by omega)).2.2
      rw [hm, entryPos_succ]
      exact this
    obtain ⟨hA, hc⟩ := blockParses_truncated cfg full ⟨full.buffer.take n⟩ hpre hfull
      (by simp only [List.length_take]; omega)
    obtain ⟨hlenA, -, hentA⟩ := (blockParses_iff cfg _).1 hA
    have hnA : countField cfg (⟨full.buffer.take n⟩ : MarFile).buffer ≠ 0 := by
      rw [hc]; omega
    have hentA' : ∀ j, j < countField cfg (⟨full.buffer.take n⟩ : MarFile).buffer →
        entryLen cfg (⟨full.buffer.take n⟩ : MarFile).buffer j ≤ cfg.MAX_SIGNATURE_LENGTH
          ∧ entryPos cfg (⟨full.buffer.take n⟩ : MarFile).buffer j + 8
              + entryLen cfg (⟨full.buffer.take n⟩ : MarFile).buffer j
            ≤ (⟨full.buffer.take n⟩ : MarFile).buffer.length :=
      fun j hj => (hentA j hj).2
    constructor
    · intro e he
      simp only [mar_extract_and_verify_signatures, mar_extract_signatures_ok cfg _ hA,
        extractedOf] at he
      split_ifs at he
      · simp only at he
        rw [(mar_verify_extracted_signatures_fields cfg px _ _ _ tr).2.2.1] at he
        rcases verifyExtractedBody_parsed cfg px _ _ _ tr e hnA hlenA hentA' he with
          rfl | ⟨w, rfl⟩ | rfl | rfl <;> exact Or.inl rfl
      · simp only [Option.some.injEq] at he
        rw [← he]; exact Or.inr rfl
      · simp only [Option.some.injEq] at he
        rw [← he]; exact Or.inr rfl
    · intro hbegin hupd
      rw [extract_and_verify_trace cfg px _ keyCount tr hA]
      exact verify_extracted_reaches_final cfg px _ _ _ tr hnA hlenA hentA' hbegin hupd

theorem truncation_detected_only_in_block_witness :
    (mar_extract_and_verify_signatures tinyConfig acceptAll (some ⟨tinyArchive.buffer.take 15⟩)
        1 []).rv = CryptoX_Error
      ∧ signatureCalls (mar_extract_and_verify_signatures tinyConfig acceptAll
          (some ⟨tinyArchive.buffer.take 18⟩) 1 []).trace ≠ signatureCalls [] :=
  ⟨((truncation_detected_only_in_block tinyConfig acceptAll tinyArchive 15 1 [] (by decide)).1
      (by decide)).1,
    ((truncation_detected_only_in_block tinyConfig acceptAll tinyArchive 18 1 [] (by decide)).2
      (by decide) (by decide)).2 (fun _ _ => rfl) (fun _ _ _ => rfl)⟩

/-- C13 fails on the code.  When the verification pass fails (here the provider
rejects the signature), `mar_extract_and_verify_signatures` returns without freeing:
buffer 0 stays live.  When the second entry declares too large a length, it
returns with the buffer of the first entry live.  After a success, an unknown
algorithm id or a short read of the signature no buffer is live. -/
theorem signature_buffers_leak :
    ((mar_extract_and_verify_signatures tinyConfig rejectFirstSignature (some tinyArchive)
          1 []).diag = some .errorVerifyingSignature
        ∧ liveSignatureBuffers tinyConfig rejectFirstSignature (some tinyArchive) [] = [0])
      ∧ ((mar_extract_and_verify_signatures tinyConfig acceptAll (some tinySecondTooLong)
          2 []).diag = some .signatureLengthTooLarge
        ∧ liveSignatureBuffers tinyConfig acceptAll (some tinySecondTooLong) [] = [0])
      ∧ liveSignatureBuffers tinyConfig acceptAll (some tinyArchive) [] = []
      ∧ liveSignatureBuffers tinyConfig acceptAll (some tinyUnknownAlgorithm) [] = []
      ∧ liveSignatureBuffers tinyConfig acceptAll (some ⟨tinyArchive.buffer.take 15⟩) [] = [] := by
  decide

/-- C14: `mar_verify_signatures` returns `-1` when `certCount` is 0, when `mar`,
`certData` or `certDataSizes` is null, when the provider fails to initialise, or
when one of the `certCount` keys fails to load (a key that the provider rejects
in every state, or the loading loop leaving at a failed call); in each case the
archive is not parsed: no verification call is made and the outcome is the same
for every archive. -/
theorem entry_point_failures (cfg : MarConfig) (px : CryptoX) (mar : Option MarFile)
    (certData : Option (List (List Byte))) (certDataSizes : Option (List Nat))
    (certCount : Nat) (tr : Trace)
    (h : certCount = 0 ∨ mar = none ∨ certData = none ∨ certDataSizes = none
      ∨ px tr .InitCryptoProvider = false
      ∨ (∃ cd cs k, certData = some cd ∧ certDataSizes = some cs ∧ k < certCount
          ∧ ∀ t, px t (.LoadPublicKey k (cd.getD k []) (cs.getD k 0)) = false)
      ∨ ∃ cd cs, certData = some cd ∧ certDataSizes = some cs
          ∧ (loadKeysLoop px cd cs certCount 0 (List.replicate cfg.MAX_SIGNATURES false)
              (tr ++ [.InitCryptoProvider])).1 = false) :
    (mar_verify_signatures cfg px mar certData certDataSizes certCount tr).rv = -1
      ∧ ((mar_verify_signatures cfg px mar certData certDataSizes certCount tr).diag
            = some .invalidParameter
          ∨ (mar_verify_signatures cfg px mar certData certDataSizes certCount tr).diag
            = some .couldNotInitCryptoLibrary
          ∨ (mar_verify_signatures cfg px mar certData certDataSizes certCount tr).diag
            = some .couldNotLoadPublicKey)
      ∧ verifyCalls (mar_verify_signatures cfg px mar certData certDataSizes certCount tr).trace
          = verifyCalls tr
      ∧ ∀ other : MarFile,
          mar_verify_signatures cfg px (mar.map fun _ => other) certData certDataSizes certCount tr
            = mar_verify_signatures cfg px mar certData certDataSizes certCount tr := by
  have hnull : mar = none ∨ certData = none ∨ certDataSizes = none →
      (mar_verify_signatures cfg px mar certData certDataSizes certCount tr
          = ⟨-1, some .invalidParameter, tr⟩)
        ∧ ∀ other : MarFile,
          mar_verify_signatures cfg px (mar.map fun _ => other) certData certDataSizes certCount
            tr = ⟨-1, some .invalidParameter, tr⟩ := by
    intro hn
    have hfree := freeKeys_replicate cfg.MAX_SIGNATURES certCount
    cases mar <;> cases certData <;> cases certDataSizes <;>
      simp_all [mar_verify_signatures]
  by_cases hn : mar = none ∨ certData = none ∨ certDataSizes = none
  · obtain ⟨h1, h2⟩ := hnull hn
    rw [h1]
    exact ⟨rfl, Or.inl rfl, rfl, fun other => h2 other⟩
  · obtain ⟨m, rfl⟩ : ∃ m, mar = some m := by
      cases mar with
      | none => exact absurd (Or.inl rfl) hn
      | some m => exact ⟨m, rfl⟩
    obtain ⟨cd, rfl⟩ : ∃ cd, certData = some cd := by
      cases certData with
      | none => exact absurd (Or.inr (Or.inl rfl)) hn
      | some cd => exact ⟨cd, rfl⟩
    obtain ⟨cs, rfl⟩ : ∃ cs, certDataSizes = some cs := by
      cases certDataSizes with
      | none => exact absurd (Or.inr (Or.inr rfl)) hn
      | some cs => exact ⟨cs, rfl⟩
    have hfree := freeKeys_replicate cfg.MAX_SIGNATURES certCount
    simp only [Option.map_some']
    have key : ∃ out : Outcome, out.rv = -1
        ∧ (out.diag = some .invalidParameter ∨ out.diag = some .couldNotInitCryptoLibrary
          ∨ out.diag = some .couldNotLoadPublicKey)
        ∧ verifyCalls out.trace = verifyCalls tr
        ∧ ∀ m' : MarFile, mar_verify_signatures cfg px (some m') (some cd) (some cs) certCount tr
            = out := by
      by_cases h0 : certCount = 0
      · exact ⟨⟨-1, some .invalidParameter, tr⟩, rfl, Or.inl rfl, rfl, fun m' => by
          simp [mar_verify_signatures, h0]⟩
      · by_cases hinit : px tr .InitCryptoProvider = true
        · have hl : (loadKeysLoop px cd cs certCount 0 (List.replicate cfg.MAX_SIGNATURES false)
              (tr ++ [.InitCryptoProvider])).1 = false := by
            rcases h with h | h | h | h | h | ⟨cd', cs', k, hcd, hcs, hk, hrej⟩ | ⟨cd', cs', hcd, hcs, hl⟩
            · exact absurd h h0
            · simp at h
            · simp at h
            · simp at h
            · rw [hinit] at h; simp at h
            · cases hcd
              cases hcs
              exact loadKeysLoop_reject px cd cs certCount 0 _ _ k (Nat.zero_le _) (by omega) hrej
            · cases hcd
              cases hcs
              exact hl
          have hv := loadKeysLoop_verifyCalls px cd cs certCount 0
            (List.replicate cfg.MAX_SIGNATURES false) (tr ++ [.InitCryptoProvider])
          refine ⟨⟨-1, some .couldNotLoadPublicKey,
            (loadKeysLoop px cd cs certCount 0 (List.replicate cfg.MAX_SIGNATURES false)
              (tr ++ [.InitCryptoProvider])).2.2
            ++ freeKeys (loadKeysLoop px cd cs certCount 0
              (List.replicate cfg.MAX_SIGNATURES false) (tr ++ [.InitCryptoProvider])).2.1
              certCount⟩, rfl, Or.inr (Or.inr rfl), ?_, fun m' => ?_⟩
          · simp only
            rw [verifyCalls_append, freeKeys_verifyCalls, List.append_nil, hv]
            simp [verifyCalls]
          · unfold mar_verify_signatures
            simp only
            rw [if_neg h0, if_pos hinit]
            generalize loadKeysLoop px cd cs certCount 0 (List.replicate cfg.MAX_SIGNATURES false)
              (tr ++ [.InitCryptoProvider]) = rl at hl
            obtain ⟨okl, keys, tr1⟩ := rl
            simp only at hl
            subst hl
            rfl
        · refine ⟨⟨-1, some .couldNotInitCryptoLibrary, tr ++ [.InitCryptoProvider]⟩, rfl,
            Or.inr (Or.inl rfl), by simp [verifyCalls], fun m' => ?_⟩
          unfold mar_verify_signatures
          simp only
          rw [if_neg h0, if_neg hinit, hfree, List.append_nil]
    obtain ⟨out, h1, h2, h3, h4⟩ := key
    rw [h4 m]
    exact ⟨h1, h2, h3, fun other => h4 other⟩

theorem entry_point_failures_witness :
    (mar_verify_signatures tinyConfig rejectAll (some tinyArchive) (some [[1]]) (some [1]) 1
      []).rv = -1 :=
  (entry_point_failures tinyConfig rejectAll (some tinyArchive) (some [[1]]) (some [1]) 1 []
    (Or.inr (Or.inr (Or.inr (Or.inr (Or.inl rfl)))))).1

/-- C15: `mar_read_entire_file` returns 0 or -1.  It returns 0 exactly when the path
and the out pointers are non-null, the file opens, its size `s` satisfies
`0 < s <= maxSize` and the seeks, the allocation and the read succeed; then
`*size = s` and `*data` holds the `s` bytes of the file.  When the path or an out
pointer is null, the file cannot be opened, is empty or is larger than `maxSize`,
it returns -1 and `*data` is not assigned. -/
theorem read_entire_file_contract (fs : FileModel) (filePath : Option String) (maxSize : Nat)
    (dataPtr sizePtr : Bool) (hmax : maxSize < 4294967296) :
    ((mar_read_entire_file fs filePath maxSize dataPtr sizePtr).rv = 0
        ∨ (mar_read_entire_file fs filePath maxSize dataPtr sizePtr).rv = -1)
      ∧ ((mar_read_entire_file fs filePath maxSize dataPtr sizePtr).rv = 0 ↔
          ∃ path bytes, filePath = some path ∧ dataPtr = true ∧ sizePtr = true
            ∧ fs.content path = some bytes ∧ 0 < bytes.length ∧ bytes.length ≤ maxSize
            ∧ fs.seekEndOk path = true ∧ fs.tellOk path = true ∧ fs.seekSetOk path = true
            ∧ fs.mallocOk bytes.length = true ∧ fs.freadOk path = true)
      ∧ ((mar_read_entire_file fs filePath maxSize dataPtr sizePtr).rv = 0 →
          ∃ path bytes, filePath = some path ∧ fs.content path = some bytes
            ∧ (mar_read_entire_file fs filePath maxSize dataPtr sizePtr).size
                = some bytes.length
            ∧ (mar_read_entire_file fs filePath maxSize dataPtr sizePtr).data = some bytes)
      ∧ ((filePath = none ∨ dataPtr = false ∨ sizePtr = false
            ∨ ∃ path, filePath = some path
                ∧ (fs.content path = none ∨ fs.content path = some []
                  ∨ ∃ bytes, fs.content path = some bytes ∧ maxSize < bytes.length)) →
          (mar_read_entire_file fs filePath maxSize dataPtr sizePtr).rv = -1
            ∧ (mar_read_entire_file fs filePath maxSize dataPtr sizePtr).data = none) := by
  cases filePath with
  | none => simp [mar_read_entire_file]
  | some path =>
    cases dataPtr <;> cases sizePtr <;> try simp [mar_read_entire_file]
    cases hc : fs.content path with
    | none => simp
    | some bytes =>
      simp only [Option.some.injEq, exists_eq_left', false_or]
      cases hse : fs.seekEndOk path <;> cases ht : fs.tellOk path <;>
        cases hss : fs.seekSetOk path <;> simp
      by_cases hsz : 0 < bytes.length ∧ bytes.length ≤ maxSize
      · have hmod : bytes.length % 4294967296 = bytes.length :=
          Nat.mod_eq_of_lt (by omega)
        have hne : bytes ≠ [] := by
          intro h
          rw [h] at hsz
          simp at hsz
        rw [if_pos hsz, hmod]
        cases hm : fs.mallocOk bytes.length <;> cases hf : fs.freadOk path <;>
          simp [hsz, hne, Nat.not_lt.2 hsz.2]
      · rw [if_neg hsz]
        simp only [Int.reduceNeg, reduceCtorEq, or_true, false_iff, false_imp_iff, true_and,
          and_self, implies_true, and_true]
        intro h1
        exact hsz ⟨h1.1, h1.2.1⟩

theorem read_entire_file_contract_witness :
    mar_read_entire_file oneFile (some "update.mar") 10 true true = ⟨0, some [1, 2, 3], some 3⟩
      ∧ (mar_read_entire_file oneFile (some "update.mar") 2 true true).rv = -1 :=
  ⟨by decide,
    ((read_entire_file_contract oneFile (some "update.mar") 2 true true (by decide)).2.2.2
      (Or.inr (Or.inr (Or.inr ⟨"update.mar", rfl,
        Or.inr (Or.inr ⟨[1, 2, 3], by decide, by decide⟩)⟩)))).1⟩

/-- C16: `mar_verify_extracted_signatures` returns with `*numVerified <= signatureCount`,
and it returns `CryptoX_Success` exactly when `signatureCount >= 1`, the contexts
were opened and the streaming pass succeeded, and `*numVerified = signatureCount`;
so the diagnostic "only k of n signatures were verified" of
`mar_extract_and_verify_signatures` appears only with `k = n` and a key count that
differs from the signature count. -/
theorem return_value_and_verified_count (cfg : MarConfig) (px : CryptoX) (mar : MarFile)
    (extractedSignatures : List (List Byte)) (signatureCount keyCount : Nat) (tr : Trace) :
    (mar_verify_extracted_signatures cfg px mar extractedSignatures signatureCount tr).numVerified
        ≤ signatureCount
      ∧ ((mar_verify_extracted_signatures cfg px mar extractedSignatures signatureCount tr).rv
            = CryptoX_Success
          ↔ 1 ≤ signatureCount
            ∧ (∃ tr1 p lens tr2, verifyBeginLoop px signatureCount 0 tr = (true, tr1)
                ∧ streamPass cfg px mar signatureCount tr1 = (.ok (p, lens), tr2))
            ∧ (mar_verify_extracted_signatures cfg px mar extractedSignatures signatureCount
                tr).numVerified = signatureCount)
      ∧ ∀ k n, (mar_extract_and_verify_signatures cfg px (some mar) keyCount tr).diag
            = some (.onlySomeSignaturesVerified k n) →
          k = n ∧ n = countField cfg mar.buffer ∧ keyCount ≠ n := by
  obtain ⟨-, hnum, -, hrv⟩ := mar_verify_extracted_signatures_fields cfg px mar
    extractedSignatures signatureCount tr
  refine ⟨?_, ?_, ?_⟩
  · rw [hnum]
    rcases verifyExtractedBody_cases cfg px mar extractedSignatures signatureCount tr with h | h
    · rw [h.2.1]; exact Nat.zero_le _
    · obtain ⟨tr1, tr2, p, lens, -, -, -, hbody⟩ := h
      obtain ⟨m, -, hm, -, hnv, -, -⟩ :=
        verifySignatureLoop_attempts px extractedSignatures lens signatureCount 0 0 tr2
      rw [hbody]
      simp only
      omega
  · rw [hrv, hnum]
    rcases verifyExtractedBody_cases cfg px mar extractedSignatures signatureCount tr with h | h
    · constructor
      · intro hn; exact absurd hn h.2.2
      · rintro ⟨h1, -, h3⟩
        rw [h.2.1] at h3
        omega
    · obtain ⟨tr1, tr2, p, lens, hn, hbegin, hstream, hbody⟩ := h
      obtain ⟨m, _, hm, -, hnv, -, hend⟩ :=
        verifySignatureLoop_attempts px extractedSignatures lens signatureCount 0 0 tr2
      rw [hbody]
      simp only
      constructor
      · intro hnone
        rcases hend with ⟨h1, h2, -⟩ | ⟨h1, -, -, -⟩
        · exact ⟨by omega, ⟨tr1, p, lens, tr2, hbegin, hstream⟩, by omega⟩
        · rw [h1] at hnone
          simp at hnone
      · rintro ⟨-, -, h3⟩
        rcases hend with ⟨h1, -, -⟩ | ⟨-, h2, -, -⟩
        · rw [h1]; simp
        · omega
  · intro k n hd
    by_cases hb : blockParses cfg mar.buffer = true
    · simp only [mar_extract_and_verify_signatures, mar_extract_signatures_ok cfg mar hb,
        extractedOf] at hd
      have hfields := mar_verify_extracted_signatures_fields cfg px mar
        ((List.range (countField cfg mar.buffer)).map (entrySig cfg mar.buffer))
        (countField cfg mar.buffer) tr
      have hrvc := mar_verify_extracted_signatures_rv cfg px mar
        ((List.range (countField cfg mar.buffer)).map (entrySig cfg mar.buffer))
        (countField cfg mar.buffer) tr
      split_ifs at hd with h1 h2 h3
      · simp only at hd
        rw [hfields.2.2.1] at hd
        exact absurd (by simp [Diag.kind]) (verifyExtractedBody_kind _ _ _ _ _ _ _ hd)
      · simp at hd
      · simp only [Option.some.injEq, Diag.onlySomeSignaturesVerified.injEq] at hd
        obtain ⟨rfl, rfl⟩ := hd
        have hs := hrvc.resolve_right h1
        have hnone := hfields.2.2.2.1 hs
        have hnv : (mar_verify_extracted_signatures cfg px mar
            ((List.range (countField cfg mar.buffer)).map (entrySig cfg mar.buffer))
            (countField cfg mar.buffer) tr).numVerified = countField cfg mar.buffer := by
          rw [hfields.2.1]
          rcases verifyExtractedBody_cases cfg px mar
            ((List.range (countField cfg mar.buffer)).map (entrySig cfg mar.buffer))
            (countField cfg mar.buffer) tr with h | h
          · exact absurd hnone h.2.2
          · obtain ⟨tr1, tr2, p, lens, -, -, -, hbody⟩ := h
            obtain ⟨m, _, hm, -, hnv', -, hend⟩ := verifySignatureLoop_attempts px
              ((List.range (countField cfg mar.buffer)).map (entrySig cfg mar.buffer)) lens
              (countField cfg mar.buffer) 0 0 tr2
            rw [hbody] at hnone ⊢
            simp only at hnone ⊢
            rcases hend with ⟨-, h2', -⟩ | ⟨h1', -, -, -⟩
            · omega
            · rw [h1'] at hnone
              simp at hnone
        refine ⟨hnv, rfl, ?_⟩
        intro hk
        exact h2 ⟨hnv, hk.trans hnv.symm⟩
    · simp only [Bool.not_eq_true] at hb
      obtain ⟨e, he, hout⟩ := extract_and_verify_of_error cfg px mar keyCount tr hb
      rw [hout] at hd
      simp only [Option.some.injEq] at hd
      have := mar_extract_signatures_error_kind cfg mar e he
      rw [hd] at this
      simp [Diag.kind] at this

theorem return_value_and_verified_count_witness :
    (mar_extract_and_verify_signatures tinyConfig acceptAll (some tinyArchive) 2 []).diag
        = some (.onlySomeSignaturesVerified 1 1)
      ∧ (1 = 1 ∧ 1 = countField tinyConfig tinyArchive.buffer ∧ 2 ≠ 1) :=
  ⟨by decide,
    (return_value_and_verified_count tinyConfig acceptAll tinyArchive [[9, 8]] 1 2 []).2.2 1 1
      (by decide)⟩

/-- C17: from a cursor `p <= data_len`, when no update fails, the loop
`while (mar_position < data_len)` leaves through its condition with the cursor
at `data_len` after `ceil((data_len - p) / BLOCKSIZE)` iterations and not before;
iteration `i` feeds every context the chunk `data[p + i * BLOCKSIZE, ...)`, which is
non-empty and at most `BLOCKSIZE` bytes long, and the chunks in order make up
`data[p, data_len)`. -/
theorem remainder_streaming_terminates (cfg : MarConfig) (px : CryptoX) (mar : MarFile)
    (signatureCount p : Nat) (tr : Trace)
    (hupd : ∀ t k b, px t (.VerifyUpdate k b) = true) (hp : p ≤ mar.data_len) :
    (streamRest cfg px mar signatureCount p tr).1 = .ok mar.data_len
      ∧ (∀ fuel, chunkCount cfg mar.data_len p ≤ fuel →
          restLoop cfg px mar signatureCount fuel p tr
            = streamRest cfg px mar signatureCount p tr)
      ∧ (∀ fuel, fuel < chunkCount cfg mar.data_len p →
          ∃ q, (restLoop cfg px mar signatureCount fuel p tr).1 = .ok q ∧ q < mar.data_len)
      ∧ updatesOf (streamRest cfg px mar signatureCount p tr).2
          = updatesOf tr ++ (List.range (chunkCount cfg mar.data_len p)).flatMap
              (fun i => (List.range signatureCount).map
                (fun k => (k, chunkAt cfg mar.buffer p i)))
      ∧ (∀ i, i < chunkCount cfg mar.data_len p →
          0 < (chunkAt cfg mar.buffer p i).length
            ∧ (chunkAt cfg mar.buffer p i).length ≤ cfg.BLOCKSIZE
            ∧ chunkAt cfg mar.buffer p i
              = slice mar.buffer (p + i * cfg.BLOCKSIZE)
                  (min cfg.BLOCKSIZE (mar.data_len - (p + i * cfg.BLOCKSIZE))))
      ∧ ((List.range (chunkCount cfg mar.data_len p)).map (chunkAt cfg mar.buffer p)).flatten
          = mar.buffer.drop p := by
  have hB := cfg.BLOCKSIZE_pos
  simp only [MarFile.data_len] at hp ⊢
  have hge := chunkCount_mul_ge cfg mar.buffer.length p
  have hcount : (restLoop cfg px mar signatureCount (chunkCount cfg mar.buffer.length p) p tr).1
      = .ok mar.buffer.length := by
    rw [(restLoop_exact cfg px mar signatureCount hupd _ p tr hp).1, Nat.min_eq_left (by omega)]
  have hall : ∀ fuel, chunkCount cfg mar.buffer.length p ≤ fuel →
      restLoop cfg px mar signatureCount fuel p tr
        = restLoop cfg px mar signatureCount (chunkCount cfg mar.buffer.length p) p tr := by
    intro fuel hf
    have := restLoop_extra cfg px mar signatureCount _ p tr _ hcount (Nat.le_refl _)
      (fuel - chunkCount cfg mar.buffer.length p)
    rw [show chunkCount cfg mar.buffer.length p + (fuel - chunkCount cfg mar.buffer.length p)
      = fuel by omega] at this
    exact this
  have hfull : mar.buffer.length - p ≤ (mar.buffer.length - p) * cfg.BLOCKSIZE :=
    Nat.le_mul_of_pos_right _ hB
  have hrest : (restLoop cfg px mar signatureCount (mar.buffer.length - p) p tr).1
      = .ok mar.buffer.length := by
    rw [(restLoop_exact cfg px mar signatureCount hupd _ p tr hp).1, Nat.min_eq_left (by omega)]
  have hstream : streamRest cfg px mar signatureCount p tr
      = restLoop cfg px mar signatureCount (chunkCount cfg mar.buffer.length p) p tr := by
    unfold streamRest
    simp only [MarFile.data_len]
    have h1 := restLoop_extra cfg px mar signatureCount _ p tr _ hrest (Nat.le_refl _)
      (chunkCount cfg mar.buffer.length p)
    have h2 := hall (mar.buffer.length - p + chunkCount cfg mar.buffer.length p) (by omega)
    exact h1.symm.trans h2
  refine ⟨by rw [hstream]; exact hcount, fun fuel hf => by rw [hstream]; exact hall fuel hf,
    ?_, ?_, ?_, ?_⟩
  · intro fuel hf
    refine ⟨_, (restLoop_exact cfg px mar signatureCount hupd fuel p tr hp).1, ?_⟩
    have := lt_chunkCount cfg _ p fuel hf
    rw [Nat.min_eq_right (by omega)]
    exact this
  · rw [hstream, (restLoop_exact cfg px mar signatureCount hupd _ p tr hp).2, Nat.min_self]
  · intro i hi
    have hlt := lt_chunkCount cfg _ p i hi
    have hmin := slice_min mar.buffer (p + i * cfg.BLOCKSIZE) cfg.BLOCKSIZE
    refine ⟨?_, ?_, hmin.symm⟩
    · simp only [chunkAt, slice, List.length_take, List.length_drop]
      omega
    · simp only [chunkAt, slice, List.length_take, List.length_drop]
      omega
  · rw [flatten_chunks, slice, List.take_of_length_le (by rw [List.length_drop]; exact hge)]

theorem remainder_streaming_terminates_witness :
    updatesOf (streamRest tinyConfig acceptAll tinyArchive 1 16 []).2
      = [(0, [7, 6, 5]), (0, [4])] := by
  have h := (remainder_streaming_terminates tinyConfig acceptAll tinyArchive 1 16 []
    (fun _ _ _ => rfl) (by decide)).2.2.2.1
  rw [h]
  decide

/-- C18: when the extraction pass succeeds with `N >= 1` entries, the verification
pass can fail only at a provider call (opening a context, an update, a
signature check), never at a read, a seek or the length bound; the cursor its
block loop ends on is the final cursor of the extraction pass and the length it
derives for index `i` is the size of extracted signature `i`, which is the
length every `CryptoX_VerifySignature` call passes. -/
theorem passes_agree (cfg : MarConfig) (px : CryptoX) (mar : MarFile) (ex : Extracted)
    (tr : Trace) (hex : mar_extract_signatures cfg mar = .ok ex)
    (hN : 1 ≤ ex.signatureCount) :
    (∀ e, (mar_verify_extracted_signatures cfg px mar ex.extractedSignatures ex.signatureCount
          tr).diag = some e →
        e = .couldNotInitSignatureHandle ∨ (∃ w, e = .couldNotUpdateVerifyContext w)
          ∨ e = .errorUpdatingWithDataBlock ∨ e = .errorVerifyingSignature)
      ∧ (∀ tr1 tr2 p lens,
          signatureBlockLoop cfg px mar ex.signatureCount ex.signatureCount
              (cfg.SIGNATURE_BLOCK_OFFSET + 4) [] tr1 = (.ok (p, lens), tr2) →
            p = ex.mar_position
              ∧ ∀ i, i < ex.signatureCount →
                  lens.getD i 0 = (ex.extractedSignatures.getD i []).length)
      ∧ ∃ m, m ≤ ex.signatureCount
          ∧ signatureCalls (mar_verify_extracted_signatures cfg px mar ex.extractedSignatures
              ex.signatureCount tr).trace
            = signatureCalls tr ++ (List.range m).map (fun i =>
                .VerifySignature i i (ex.extractedSignatures.getD i [])
                  (ex.extractedSignatures.getD i []).length) := by
  obtain ⟨hb, rfl⟩ := mar_extract_signatures_ok_inv cfg mar ex hex
  obtain ⟨hlen, -, hent⟩ := (blockParses_iff cfg mar.buffer).1 hb
  simp only [extractedOf] at hN ⊢
  have hn : countField cfg mar.buffer ≠ 0 := by omega
  have hent' : ∀ j, j < countField cfg mar.buffer →
      entryLen cfg mar.buffer j ≤ cfg.MAX_SIGNATURE_LENGTH
        ∧ entryPos cfg mar.buffer j + 8 + entryLen cfg mar.buffer j ≤ mar.buffer.length :=
    fun j hj => (hent j hj).2
  have hsize : ∀ i, i < countField cfg mar.buffer →
      (((List.range (countField cfg mar.buffer)).map (entrySig cfg mar.buffer)).getD i
        []).length = entryLen cfg mar.buffer i := by
    intro i hi
    rw [getD_map_range _ _ _ _ hi, entrySig, length_slice _ _ _ (by
      have := (hent' i hi).2; omega)]
  have hsig : ∀ i, i < countField cfg mar.buffer →
      (entrySig cfg mar.buffer i).length = entryLen cfg mar.buffer i := by
    intro i hi
    rw [entrySig, length_slice _ _ _ (by have := (hent' i hi).2; omega)]
  obtain ⟨htrace, -, hdiag, -⟩ := mar_verify_extracted_signatures_fields cfg px mar
    ((List.range (countField cfg mar.buffer)).map (entrySig cfg mar.buffer))
    (countField cfg mar.buffer) tr
  refine ⟨?_, ?_, ?_⟩
  · intro e he
    rw [hdiag] at he
    exact verifyExtractedBody_parsed cfg px mar _ _ tr e hn hlen hent' he
  · intro tr1 tr2 p lens hloop
    rw [show cfg.SIGNATURE_BLOCK_OFFSET + 4 = entryPos cfg mar.buffer 0 from rfl] at hloop
    obtain ⟨hp, hlens, -, -⟩ := signatureBlockLoop_ok cfg px mar _ _ 0 [] tr1 p lens tr2 hloop
    rw [Nat.zero_add] at hp
    refine ⟨hp, fun i hi => ?_⟩
    rw [hsize i hi, hlens, List.nil_append, ← List.range_eq_range', getD_map_range _ _ _ _ hi]
  · rw [htrace, signatureCalls_append, freeSignatureHandles_signatureCalls, List.append_nil]
    rcases verifyExtractedBody_cases cfg px mar
      ((List.range (countField cfg mar.buffer)).map (entrySig cfg mar.buffer))
      (countField cfg mar.buffer) tr with h | h
    · exact ⟨0, Nat.zero_le _, by simpa using h.1⟩
    · obtain ⟨tr1, tr2, p, lens, -, hbegin, hstream, hbody⟩ := h
      obtain ⟨-, -, -, hlens, -, -⟩ := streamPass_ok cfg px mar _ tr1 tr2 p lens hstream
      obtain ⟨m, hm, hcalls, -, -⟩ := verifySignatureLoop_calls px
        ((List.range (countField cfg mar.buffer)).map (entrySig cfg mar.buffer)) lens
        (countField cfg mar.buffer) 0 0 tr2
      have hsb := streamPass_signatureCalls cfg px mar (countField cfg mar.buffer) tr1
      have hbb := verifyBeginLoop_signatureCalls px (countField cfg mar.buffer) 0 tr
      rw [hstream] at hsb
      rw [hbegin] at hbb
      refine ⟨m, hm, ?_⟩
      rw [hbody]
      simp only
      rw [hcalls, hsb, hbb, ← List.range_eq_range']
      congr 1
      apply List.map_congr_left
      intro j hj
      have hj' : j < countField cfg mar.buffer := by
        have := List.mem_range.1 hj
        omega
      simp only [getD_map_range _ _ _ _ hj', hlens, hsig j hj']

theorem passes_agree_witness :
    ∃ m, m ≤ 2
      ∧ signatureCalls (mar_verify_extracted_signatures tinyConfig rejectFirstSignature
          tinyArchive2 [[9], [8, 7]] 2 []).trace
        = signatureCalls [] ++ (List.range m).map (fun i =>
            .VerifySignature i i (([[9], [8, 7]] : List (List Byte)).getD i [])
              (([[9], [8, 7]] : List (List Byte)).getD i []).length) :=
  (passes_agree tinyConfig rejectFirstSignature tinyArchive2 ⟨2, [2, 2], [[9], [8, 7]], 25⟩ []
    rfl (by decide)).2.2

/-- C19 fails on the code.  With the Mozilla constants (`MAX_SIGNATURES = 8`) and
`certCount = 9`, `mar_verify_signatures` calls `CryptoX_LoadPublicKey` with `&keys[8]`,
an index that is not below `MAX_SIGNATURES`, before the archive is rejected for its
count. -/
theorem keys_index_out_of_bounds :
    CryptoCall.LoadPublicKey 8 [1] 1
        ∈ (mar_verify_signatures mozillaConfig acceptAll (some nineSignatures)
            (some (List.replicate 9 [1])) (some (List.replicate 9 1)) 9 []).trace
      ∧ ¬ 8 < mozillaConfig.MAX_SIGNATURES
      ∧ (mar_verify_signatures mozillaConfig acceptAll (some nineSignatures)
            (some (List.replicate 9 [1])) (some (List.replicate 9 1)) 9 []).diag
          = some .atMostMaxSignatures := by
  decide

end MarVerify
